import Mathlib

/-!
# Column-partitioned Dijkstra over MPI (`mpi_Dijkstra.c`)

A shallow embedding of the program.  C `int` values are `Int`; C arrays are
`List Int`, read with `List.getD` and written with `List.set`.  The `p`
processes run in lockstep: the state of the run is the list of the processes'
local variables in rank order, and `MPI_Allreduce` with `MPI_MINLOC` is a fold
over the values the processes contribute, its result handed to every process.

The sum computed in the relaxation step goes through `wrap32`, the 32-bit
two's-complement result of the C addition.  The run reads `loc_mat` at the
exact index `glbl_u * loc_n + loc_v`; `loc_mat_index` is the same expression
evaluated in 32-bit `int` and `new_dist_int32` the whole of line 302 in
32-bit `int`, and the two agree with the exact ones whenever the block size
`n * loc_n` that `main` allocates fits an `int`.
-/

namespace MpiDijkstra

/-! ## The embedding -/

/-- The macro `INFINITY`: the weight that stands for "no edge". -/
def INFINITY : Int := 1000000

/-- The value a 32-bit signed C addition leaves for the exact result `x`. -/
def wrap32 (x : Int) : Int := (x + 2147483648) % 4294967296 - 2147483648

/-- A freshly allocated block of `k` ints.  Its contents are unspecified in C;
every entry is written before it is read whenever `p` divides `n`. -/
def malloc (k : Nat) : List Int := List.replicate k 0

/-- One iteration of the scan in `Find_min_dist`; the state is
`(loc_u, shortest_dist)`. -/
def Find_min_dist_body (loc_dist loc_known : List Int) (st : Int × Int) (loc_v : Nat) :
    Int × Int :=
  if loc_known.getD loc_v 0 = 0 then
    if loc_dist.getD loc_v 0 < st.2 then ((loc_v : Int), loc_dist.getD loc_v 0) else st
  else st

/-- The function `Find_min_dist`: scan `loc_v = 0 .. loc_n - 1`, starting from
`loc_u = -1`, `shortest_dist = INFINITY`, and return `loc_u`. -/
def Find_min_dist (loc_dist loc_known : List Int) (loc_n : Nat) : Int :=
  ((List.range loc_n).foldl (Find_min_dist_body loc_dist loc_known) (-1, INFINITY)).1

/-- The function `Dijkstra_Init`: the three out arrays are overwritten entry by entry.
Returns `(loc_pred, loc_dist, loc_known)`. -/
def Dijkstra_Init (loc_mat loc_pred loc_dist loc_known : List Int) (my_rank loc_n : Nat) :
    List Int × List Int × List Int :=
  let known0 := loc_known.set 0 (if my_rank = 0 then 1 else 0)
  let known1 := (List.range' 1 (loc_n - 1)).foldl (fun k loc_v => k.set loc_v 0) known0
  let dp := (List.range loc_n).foldl
    (fun (dp : List Int × List Int) loc_v =>
      (dp.1.set loc_v (loc_mat.getD (0 * loc_n + loc_v) 0), dp.2.set loc_v 0))
    (loc_dist, loc_pred)
  (dp.2, dp.1, known1)

/-- The local variables of one process inside `Dijkstra`. -/
structure Proc where
  my_rank : Nat
  loc_mat : List Int
  loc_dist : List Int
  loc_pred : List Int
  loc_known : List Int
deriving DecidableEq

/-- The pair `my_min` a process contributes to the reduction. -/
def my_min (loc_n : Nat) (w : Proc) : Int × Int :=
  let loc_u := Find_min_dist w.loc_dist w.loc_known loc_n
  if loc_u ≠ -1 then (w.loc_dist.getD loc_u.toNat 0, loc_u + (w.my_rank : Int) * (loc_n : Int))
  else (INFINITY, -1)

/-- The operation `MPI_MINLOC` on `MPI_2INT` pairs `(value, index)`: the
smaller value wins and, for equal values, the smaller index. -/
def MINLOC (x y : Int × Int) : Int × Int :=
  if x.1 < y.1 then x else if y.1 < x.1 then y else (x.1, min x.2 y.2)

/-- The call `MPI_Allreduce(my_min, glbl_min, 1, MPI_2INT, MPI_MINLOC, comm)` over the
contributions in rank order; every process receives the result. -/
def Allreduce_MINLOC : List (Int × Int) → Int × Int
  | [] => (INFINITY, -1)
  | x :: xs => xs.foldl MINLOC x

/-- The pair `glbl_min` of one round. -/
def glbl_min (loc_n : Nat) (ws : List Proc) : Int × Int :=
  Allreduce_MINLOC (ws.map (my_min loc_n))

/-- The ownership test and the write `loc_known[glbl_u % loc_n] = 1`. -/
def settle (loc_known : List Int) (my_rank loc_n : Nat) (glbl_u : Int) : List Int :=
  if Int.tdiv glbl_u (loc_n : Int) = (my_rank : Int) then
    loc_known.set (Int.tmod glbl_u (loc_n : Int)).toNat 1
  else loc_known

/-- The value `new_dist = dist_glbl_u + loc_mat[glbl_u * loc_n + loc_v]`, the
sum in 32-bit `int`, the entry read at the exact index. -/
def new_dist (loc_mat : List Int) (loc_n : Nat) (dist_glbl_u glbl_u : Int) (loc_v : Nat) : Int :=
  wrap32 (dist_glbl_u + loc_mat.getD (glbl_u * (loc_n : Int) + (loc_v : Int)).toNat 0)

/-- The index expression `glbl_u * loc_n + loc_v` of line 302 as the program
evaluates it: the product and the sum each in 32-bit `int`. -/
def loc_mat_index (glbl_u : Int) (loc_n loc_v : Nat) : Int :=
  wrap32 (wrap32 (glbl_u * (loc_n : Int)) + (loc_v : Int))

/-- Line 302, `new_dist = dist_glbl_u + loc_mat[glbl_u * loc_n + loc_v]`, with
every operation in 32-bit `int`. -/
def new_dist_int32 (loc_mat : List Int) (loc_n : Nat) (dist_glbl_u glbl_u : Int)
    (loc_v : Nat) : Int :=
  wrap32 (dist_glbl_u + loc_mat.getD (loc_mat_index glbl_u loc_n loc_v).toNat 0)

/-- One iteration of the relaxation loop; the state is `(loc_dist, loc_pred)`. -/
def relax_body (loc_mat loc_known : List Int) (loc_n : Nat) (dist_glbl_u glbl_u : Int)
    (dp : List Int × List Int) (loc_v : Nat) : List Int × List Int :=
  if loc_known.getD loc_v 0 = 0 then
    if new_dist loc_mat loc_n dist_glbl_u glbl_u loc_v < dp.1.getD loc_v 0 then
      (dp.1.set loc_v (new_dist loc_mat loc_n dist_glbl_u glbl_u loc_v), dp.2.set loc_v glbl_u)
    else dp
  else dp

/-- The relaxation loop `for (loc_v = 0; loc_v < loc_n; loc_v++)`. -/
def relax (loc_mat loc_known : List Int) (loc_n : Nat) (dist_glbl_u glbl_u : Int)
    (loc_dist loc_pred : List Int) : List Int × List Int :=
  (List.range loc_n).foldl (relax_body loc_mat loc_known loc_n dist_glbl_u glbl_u)
    (loc_dist, loc_pred)

/-- What one process does in a round after the `glbl_u == -1` test: settle,
then relax. -/
def Proc.update (loc_n : Nat) (g : Int × Int) (w : Proc) : Proc :=
  let loc_known := settle w.loc_known w.my_rank loc_n g.2
  let dp := relax w.loc_mat loc_known loc_n g.1 g.2 w.loc_dist w.loc_pred
  { my_rank := w.my_rank, loc_mat := w.loc_mat, loc_dist := dp.1, loc_pred := dp.2,
    loc_known := loc_known }

/-- The loop of `Dijkstra`, run for at most `i` more iterations by all
processes in lockstep; `break` when the agreed `glbl_u` is `-1`. -/
def Dijkstra_loop (loc_n : Nat) : Nat → List Proc → List Proc
  | 0, ws => ws
  | i + 1, ws =>
    if (glbl_min loc_n ws).2 = -1 then ws
    else Dijkstra_loop loc_n i (ws.map (Proc.update loc_n (glbl_min loc_n ws)))

/-- The pairs `glbl_min` of the successive rounds of `Dijkstra_loop`, the one
that triggers the `break` included. -/
def glbl_min_trace (loc_n : Nat) : Nat → List Proc → List (Int × Int)
  | 0, _ => []
  | i + 1, ws =>
    glbl_min loc_n ws ::
      (if (glbl_min loc_n ws).2 = -1 then []
       else glbl_min_trace loc_n i (ws.map (Proc.update loc_n (glbl_min loc_n ws))))

/-- The state of a process when it enters the loop of `Dijkstra`: the arrays
allocated in `main` and in `Dijkstra`, after `Dijkstra_Init`. -/
def Proc.start (loc_n : Nat) (loc_mat : List Int) (my_rank : Nat) : Proc :=
  let r := Dijkstra_Init loc_mat (malloc loc_n) (malloc loc_n) (malloc loc_n) my_rank loc_n
  { my_rank := my_rank, loc_mat := loc_mat, loc_dist := r.2.1, loc_pred := r.1,
    loc_known := r.2.2 }

/-- The function `Read_matrix`: the block column that `MPI_Scatter` with the resized vector
type hands to process `my_rank`, `loc_mat[i * loc_n + j] = mat[i * n + my_rank * loc_n + j]`. -/
def Read_matrix (mat : List Int) (n loc_n my_rank : Nat) : List Int :=
  (List.range (n * loc_n)).map
    (fun idx => mat.getD ((idx / loc_n) * n + my_rank * loc_n + idx % loc_n) 0)

/-- The processes at loop entry, in rank order. -/
def procs_start (p n : Nat) (mat : List Int) : List Proc :=
  (List.range p).map (fun my_rank => Proc.start (n / p) (Read_matrix mat n (n / p) my_rank) my_rank)

/-- The processes after `k` iterations of the loop of `Dijkstra` (fewer when
the loop was left earlier). -/
def procs_after (p n : Nat) (mat : List Int) (k : Nat) : List Proc :=
  Dijkstra_loop (n / p) k (procs_start p n mat)

/-- The function `Dijkstra` on all `p` processes: the loop bound is `n - 1`. -/
def Dijkstra (p n : Nat) (mat : List Int) : List Proc :=
  procs_after p n mat (n - 1)

/-- The agreed pairs `(dist_glbl_u, glbl_u)` of the rounds of a run. -/
def winners (p n : Nat) (mat : List Int) : List (Int × Int) :=
  glbl_min_trace (n / p) (n - 1) (procs_start p n mat)

/-- The call `MPI_Gather` of the processes' blocks, in rank order, into `recv`. -/
def MPI_Gather (bufs : List (List Int)) (recv : List Int) : List Int :=
  bufs.flatten ++ recv.drop bufs.flatten.length

/-- The array `global_dist` on process 0 after the gather. -/
def global_dist (p n : Nat) (mat : List Int) : List Int :=
  MPI_Gather ((Dijkstra p n mat).map Proc.loc_dist) (malloc n)

/-- The array `global_pred` on process 0 after the gather. -/
def global_pred (p n : Nat) (mat : List Int) : List Int :=
  MPI_Gather ((Dijkstra p n mat).map Proc.loc_pred) (malloc n)

/-- The gathered `loc_known` flags: `loc_known` is never gathered by the
program; this is the concatenation in rank order, used to state properties. -/
def global_known (ws : List Proc) : List Int :=
  (ws.map Proc.loc_known).flatten

/-- The function `Print_dists`: one line per vertex `v = 1 .. n - 1`, `none` for "inf". -/
def Print_dists (global_dist : List Int) (n : Nat) : List (Nat × Option Int) :=
  (List.range' 1 (n - 1)).map
    (fun v => (v, if global_dist.getD v 0 = INFINITY then none else some (global_dist.getD v 0)))

/-- The `while (w != 0)` loop of `Print_paths`, run for at most `fuel`
iterations: `path` holds `path[0 .. count - 1]`; `none` when the fuel is
used up before `w` reaches 0. -/
def Print_paths_walk (global_pred : List Int) : Nat → Int → List Int → Option (List Int)
  | 0, w, path => if w ≠ 0 then none else some path
  | fuel + 1, w, path =>
    if w ≠ 0 then Print_paths_walk global_pred fuel (global_pred.getD w.toNat 0) (path ++ [w])
    else some path

/-- The line that `Print_paths` prints for `v`: `0` and then `path[count - 1 .. 0]`. -/
def Print_paths_line (global_pred : List Int) (fuel v : Nat) : Option (List Int) :=
  (Print_paths_walk global_pred fuel (v : Int) []).map (fun path => 0 :: path.reverse)

/-- The loop `for (v = 1; v < n; v++)` of `Print_paths` over the vertices
`vs`; `none` when one of the walks does not finish within `fuel` steps. -/
def Print_paths_loop (global_pred : List Int) (fuel : Nat) :
    List Nat → Option (List (Nat × List Int))
  | [] => some []
  | v :: vs =>
    match Print_paths_line global_pred fuel v with
    | none => none
    | some line => (Print_paths_loop global_pred fuel vs).map (fun rest => (v, line) :: rest)

/-- The function `Print_paths`: the lines for `v = 1 .. n - 1`. -/
def Print_paths (global_pred : List Int) (n fuel : Nat) : Option (List (Nat × List Int)) :=
  Print_paths_loop global_pred fuel (List.range' 1 (n - 1))

/-- What `main` prints on process 0 for `p` processes, vertex count `n` and
matrix `mat` read by `Read_n` and `Read_matrix`. -/
def main (p n : Nat) (mat : List Int) (fuel : Nat) :
    List (Nat × Option Int) × Option (List (Nat × List Int)) :=
  (Print_dists (global_dist p n mat) n, Print_paths (global_pred p n mat) n fuel)

/-! ## Inputs and paths -/

/-- The weight `mat[i][j]` of the edge `u → v` in the `n × n` matrix. -/
def weight (mat : List Int) (n u v : Nat) : Int := mat.getD (u * n + v) 0

/-- The input is valid: `n ≥ 1`, the process count `p ≥ 1` divides `n`, the
matrix has `n * n` entries, each one `INFINITY` or a nonnegative integer
below it, and the diagonal is zero. -/
def Valid (p n : Nat) (mat : List Int) : Prop :=
  1 ≤ n ∧ 1 ≤ p ∧ p ∣ n ∧ mat.length = n * n ∧
  (∀ u < n, ∀ v < n, 0 ≤ weight mat n u v ∧ weight mat n u v ≤ INFINITY) ∧
  (∀ u < n, weight mat n u u = 0)

instance (p n : Nat) (mat : List Int) : Decidable (Valid p n mat) := by
  unfold Valid; infer_instance

/-- A route from vertex 0 along edges that are not `INFINITY`, listed
backwards: the vertex reached comes first, vertex 0 last. -/
def isRoute (mat : List Int) (n : Nat) : List Nat → Bool
  | [] => false
  | [u] => decide (u = 0)
  | v :: u :: rest =>
    decide (v < n) && decide (weight mat n u v ≠ INFINITY) && isRoute mat n (u :: rest)

/-- The sum of the edge weights along a route listed backwards. -/
def routeLen (mat : List Int) (n : Nat) : List Nat → Int
  | v :: u :: rest => weight mat n u v + routeLen mat n (u :: rest)
  | _ => 0

/-- There is a path from vertex 0 to `v` along non-sentinel edges whose edge
weights sum to `d`. -/
def PathTo (mat : List Int) (n v : Nat) (d : Int) : Prop :=
  ∃ r : List Nat, r.head? = some v ∧ isRoute mat n r = true ∧ routeLen mat n r = d

/-- Reachability of `v` from vertex 0 along non-sentinel edges. -/
def Reachable (mat : List Int) (n v : Nat) : Prop := ∃ d, PathTo mat n v d

/-- Scenario A of the specification: `n = 4`, edges `0→1 (1)`, `0→3 (4)`,
`1→2 (2)`. -/
def scenarioA : List Int :=
  [0, 1, 1000000, 4,
   1000000, 0, 2, 1000000,
   1000000, 1000000, 0, 1000000,
   1000000, 1000000, 1000000, 0]

/-! ## Specification of the scan and of a round, over the concatenated arrays -/

/-- What `Find_min_dist` has established after scanning `loc_v < m`, for the
loop state `st = (loc_u, shortest_dist)`. -/
def ScanInv (loc_dist loc_known : List Int) (m : Nat) (st : Int × Int) : Prop :=
  (st = (-1, INFINITY) ∧ ∀ v < m, loc_known.getD v 0 = 0 → INFINITY ≤ loc_dist.getD v 0) ∨
  (∃ j < m, st = ((j : Int), loc_dist.getD j 0) ∧ loc_known.getD j 0 = 0 ∧
    loc_dist.getD j 0 < INFINITY ∧
    ∀ v < m, loc_known.getD v 0 = 0 →
      loc_dist.getD j 0 ≤ loc_dist.getD v 0 ∧ (v < j → loc_dist.getD j 0 < loc_dist.getD v 0))

/-- The concatenation, in rank order, of the processes' `loc_dist` arrays. -/
def gather_dist (ws : List Proc) : List Int := (ws.map Proc.loc_dist).flatten

/-- The concatenation, in rank order, of the processes' `loc_pred` arrays. -/
def gather_pred (ws : List Proc) : List Int := (ws.map Proc.loc_pred).flatten

/-- The three arrays over global vertex ids. -/
structure View where
  dist : Nat → Int
  pred : Nat → Int
  known : Nat → Int

/-- The concatenated arrays of a list of processes, read at a global id. -/
def view (ws : List Proc) : View where
  dist := fun v => (gather_dist ws).getD v 0
  pred := fun v => (gather_pred ws).getD v 0
  known := fun v => (global_known ws).getD v 0

/-- The processes of a run over `mat`: `p` of them, in rank order, each
holding its block column and arrays of `n / p` entries. -/
def WF (p n : Nat) (mat : List Int) (ws : List Proc) : Prop :=
  ws.length = p ∧ ∀ k w, ws[k]? = some w →
    w.my_rank = k ∧ w.loc_mat = Read_matrix mat n (n / p) k ∧
    w.loc_dist.length = n / p ∧ w.loc_pred.length = n / p ∧ w.loc_known.length = n / p

/-- Order in which `MINLOC` prefers `x` to `y`. -/
def lexLE (x y : Int × Int) : Prop := x.1 < y.1 ∨ (x.1 = y.1 ∧ x.2 ≤ y.2)

/-- The agreed pair `g` is the choice among the unknown vertices of `s`: the
sentinel when no unknown vertex has a distance below `INFINITY`, otherwise
the unknown vertex of least distance and, among those, of least id. -/
def Sel (n : Nat) (s : View) (g : Int × Int) : Prop :=
  (g = (INFINITY, -1) ∧ ∀ v < n, s.known v = 0 → INFINITY ≤ s.dist v) ∨
  (∃ u < n, g = (s.dist u, (u : Int)) ∧ s.known u = 0 ∧ s.dist u < INFINITY ∧
    ∀ v < n, s.known v = 0 → s.dist u ≤ s.dist v ∧ (v < u → s.dist u < s.dist v))

/-- The arrays `t` are those of `s` after settling `u` and relaxing through it. -/
def Upd (n : Nat) (mat : List Int) (s : View) (u : Nat) (t : View) : Prop :=
  ∀ v < n,
    t.known v = (if v = u then 1 else s.known v) ∧
    t.dist v = (if t.known v = 0 ∧ wrap32 (s.dist u + weight mat n u v) < s.dist v
      then wrap32 (s.dist u + weight mat n u v) else s.dist v) ∧
    t.pred v = (if t.known v = 0 ∧ wrap32 (s.dist u + weight mat n u v) < s.dist v
      then (u : Int) else s.pred v)


/-- The weights are those of a valid matrix: each in `[0, INFINITY]`, zero on
the diagonal. -/
def ValidWeights (n : Nat) (mat : List Int) : Prop :=
  (∀ u < n, ∀ v < n, 0 ≤ weight mat n u v ∧ weight mat n u v ≤ INFINITY) ∧
  (∀ u < n, weight mat n u u = 0)

/-- What holds of the concatenated arrays between two rounds. -/
structure DistInv (n : Nat) (mat : List Int) (s : View) : Prop where
  flag : ∀ v < n, s.known v = 0 ∨ s.known v = 1
  src_known : s.known 0 = 1
  src_dist : s.dist 0 = 0
  bounds : ∀ v < n, 0 ≤ s.dist v ∧ s.dist v ≤ INFINITY
  attained : ∀ v < n, s.dist v < INFINITY → PathTo mat n v (s.dist v)
  known_lt : ∀ v < n, s.known v ≠ 0 → s.dist v < INFINITY
  known_le : ∀ v < n, s.known v ≠ 0 → ∀ d, PathTo mat n v d → s.dist v ≤ d
  relaxed : ∀ u < n, s.known u ≠ 0 → ∀ v < n, s.known v = 0 →
    s.dist v ≤ s.dist u + weight mat n u v
  ordered : ∀ u < n, s.known u ≠ 0 → ∀ v < n, s.known v = 0 → s.dist u ≤ s.dist v
  pred_zero : ∀ v < n, INFINITY ≤ s.dist v → s.pred v = 0

/-- The vertex case of `Sel`: `u` is the unknown vertex chosen in `s`. -/
def Chosen (n : Nat) (s : View) (u : Nat) : Prop :=
  u < n ∧ s.known u = 0 ∧ s.dist u < INFINITY ∧
  ∀ v < n, s.known v = 0 → s.dist u ≤ s.dist v ∧ (v < u → s.dist u < s.dist v)


/-- The walk `w, pred[w], pred[pred[w]], ...` reaches 0 within `m` steps and
every vertex it leaves is a known vertex below `n`. -/
def KReaches (n : Nat) (s : View) : Nat → Int → Prop
  | 0, w => w = 0
  | m + 1, w =>
    w = 0 ∨ (0 ≤ w ∧ w.toNat < n ∧ s.known w.toNat ≠ 0 ∧ KReaches n s m (s.pred w.toNat))

/-- The number of known vertices. -/
def knownCount (n : Nat) (s : View) : Nat :=
  ((Finset.range n).filter (fun v => s.known v ≠ 0)).card

/-- What holds of the predecessor links between two rounds. -/
structure PredInv (n : Nat) (s : View) : Prop where
  src_known : s.known 0 ≠ 0
  pred_known : ∀ v < n, 0 ≤ s.pred v ∧ (s.pred v).toNat < n ∧ s.known (s.pred v).toNat ≠ 0
  walk : ∀ v < n, s.known v ≠ 0 → KReaches n s (knownCount n s - 1) (v : Int)

/-- Two views agree on the vertices below `n`. -/
def ViewEq (n : Nat) (s t : View) : Prop :=
  ∀ v < n, s.dist v = t.dist v ∧ s.pred v = t.pred v ∧ s.known v = t.known v


/-- A valid matrix with `n = 3` whose vertex 2 is reachable only by the path
`0 → 1 → 2` of length `999999 + 999999`. -/
def longChain : List Int :=
  [0, 999999, 1000000,
   1000000, 0, 999999,
   1000000, 1000000, 0]

/-- Scenario C of the specification: `n = 4`, edges `0→1 (1)`, `1→2 (2)`,
no edge into vertex 3. -/
def scenarioC : List Int :=
  [0, 1, 1000000, 1000000,
   1000000, 0, 2, 1000000,
   1000000, 1000000, 0, 1000000,
   1000000, 1000000, 1000000, 0]


/-- A `2 × 2` matrix with a negative weight on the edge `0 → 1`. -/
def negativeWeight : List Int := [0, -5, 1000000, 0]

/-- A `2 × 2` matrix whose diagonal entry `mat[1][1]` is not 0. -/
def nonzeroDiagonal : List Int := [0, 1, 1000000, 3]

/-- A valid `3 × 3` matrix, to be run on 2 processes. -/
def threeByThree : List Int :=
  [0, 1, 2,
   1000000, 0, 1,
   1000000, 1000000, 0]


/-- Every distance is the distance of the predecessor plus the weight of the
edge from it. -/
def PredDist (n : Nat) (mat : List Int) (s : View) : Prop :=
  ∀ v < n, s.dist v = s.dist (s.pred v).toNat + weight mat n (s.pred v).toNat v


/-- The valid `n × n` matrix whose only edge is `0 → n - 1`, of weight 1. -/
def farEdge (n : Nat) : List Int :=
  (List.range (n * n)).map
    (fun i => if i / n = i % n then 0 else if i = n - 1 then 1 else 1000000)


/-! ## Properties -/

theorem scanInv_zero (loc_dist loc_known : List Int) :
    ScanInv loc_dist loc_known 0 (-1, INFINITY) := by
  left
  exact ⟨rfl, fun v hv => absurd hv (Nat.not_lt_zero v)⟩

theorem scanInv_step (loc_dist loc_known : List Int) (m : Nat) (st : Int × Int)
    (h : ScanInv loc_dist loc_known m st) :
    ScanInv loc_dist loc_known (m + 1) (Find_min_dist_body loc_dist loc_known st m) := by
  unfold Find_min_dist_body
  rcases h with ⟨rfl, hall⟩ | ⟨j, hj, rfl, hkj, hdj, hmin⟩
  · by_cases hk : loc_known.getD m 0 = 0
    · by_cases hd : loc_dist.getD m 0 < INFINITY
      · rw [if_pos hk, if_pos hd]
        right
        refine ⟨m, Nat.lt_succ_self m, rfl, hk, hd, ?_⟩
        intro v hv hkv
        rcases Nat.lt_succ_iff_lt_or_eq.mp hv with hlt | rfl
        · exact ⟨le_of_lt (lt_of_lt_of_le hd (hall v hlt hkv)),
            fun _ => lt_of_lt_of_le hd (hall v hlt hkv)⟩
        · exact ⟨le_refl _, fun h => absurd h (lt_irrefl _)⟩
      · rw [if_pos hk, if_neg hd]
        left
        refine ⟨rfl, ?_⟩
        intro v hv hkv
        rcases Nat.lt_succ_iff_lt_or_eq.mp hv with hlt | rfl
        · exact hall v hlt hkv
        · exact not_lt.mp hd
    · rw [if_neg hk]
      left
      refine ⟨rfl, ?_⟩
      intro v hv hkv
      rcases Nat.lt_succ_iff_lt_or_eq.mp hv with hlt | rfl
      · exact hall v hlt hkv
      · exact absurd hkv hk
  · by_cases hk : loc_known.getD m 0 = 0
    · by_cases hd : loc_dist.getD m 0 < loc_dist.getD j 0
      · rw [if_pos hk, if_pos hd]
        right
        refine ⟨m, Nat.lt_succ_self m, rfl, hk, lt_trans hd hdj, ?_⟩
        intro v hv hkv
        rcases Nat.lt_succ_iff_lt_or_eq.mp hv with hlt | rfl
        · exact ⟨le_of_lt (lt_of_lt_of_le hd (hmin v hlt hkv).1),
            fun _ => lt_of_lt_of_le hd (hmin v hlt hkv).1⟩
        · exact ⟨le_refl _, fun h => absurd h (lt_irrefl _)⟩
      · rw [if_pos hk, if_neg hd]
        right
        refine ⟨j, Nat.lt_succ_of_lt hj, rfl, hkj, hdj, ?_⟩
        intro v hv hkv
        rcases Nat.lt_succ_iff_lt_or_eq.mp hv with hlt | rfl
        · exact hmin v hlt hkv
        · exact ⟨not_lt.mp hd, fun h => absurd h (lt_asymm hj)⟩
    · rw [if_neg hk]
      right
      refine ⟨j, Nat.lt_succ_of_lt hj, rfl, hkj, hdj, ?_⟩
      intro v hv hkv
      rcases Nat.lt_succ_iff_lt_or_eq.mp hv with hlt | rfl
      · exact hmin v hlt hkv
      · exact absurd hkv hk

theorem scanInv_foldl (loc_dist loc_known : List Int) (m : Nat) :
    ScanInv loc_dist loc_known m
      ((List.range m).foldl (Find_min_dist_body loc_dist loc_known) (-1, INFINITY)) := by
  induction m with
  | zero => exact scanInv_zero loc_dist loc_known
  | succ m ih =>
    rw [List.range_succ, List.foldl_append]
    exact scanInv_step loc_dist loc_known m _ ih

/-! ### Arrays -/

theorem getD_set_eq (l : List Int) (i j : Nat) (a : Int) :
    (l.set i a).getD j 0 = if i = j ∧ i < l.length then a else l.getD j 0 := by
  simp only [List.getD_eq_getElem?_getD, List.getElem?_set]
  by_cases h : i = j
  · subst h
    by_cases h2 : i < l.length
    · simp [h2]
    · simp [h2, List.getElem?_eq_none (not_lt.mp h2)]
  · simp [h]

theorem getD_ge_length (l : List Int) (j : Nat) (h : l.length ≤ j) : l.getD j 0 = 0 :=
  List.getD_eq_default l 0 h

theorem length_malloc (k : Nat) : (malloc k).length = k := by
  unfold malloc
  exact List.length_replicate k 0

theorem eq_of_getD_eq (l₁ l₂ : List Int) (hl : l₁.length = l₂.length)
    (h : ∀ j < l₁.length, l₁.getD j 0 = l₂.getD j 0) : l₁ = l₂ := by
  apply List.ext_get hl
  intro j h₁ h₂
  have := h j h₁
  rw [List.getD_eq_getElem l₁ 0 h₁, List.getD_eq_getElem l₂ 0 h₂] at this
  simpa using this

/-- Reading the concatenation of blocks of equal length `b`. -/
theorem getD_flatten_block (b : Nat) :
    ∀ (L : List (List Int)), (∀ l ∈ L, l.length = b) → ∀ k j, j < b →
      L.flatten.getD (k * b + j) 0 = (L.getD k []).getD j 0 := by
  intro L
  induction L with
  | nil => intro _ k j _; simp
  | cons l L ih =>
    intro hL k j hj
    have hl : l.length = b := hL l (List.mem_cons_self l L)
    rw [List.flatten_cons]
    cases k with
    | zero =>
      rw [Nat.zero_mul, Nat.zero_add, List.getD_append l _ 0 j (by omega)]
      simp
    | succ k =>
      have hge : l.length ≤ (k + 1) * b + j := by
        rw [hl, Nat.succ_mul]; omega
      rw [List.getD_append_right l _ 0 _ hge, List.getD_cons_succ]
      have : (k + 1) * b + j - l.length = k * b + j := by
        rw [hl, Nat.succ_mul]; omega
      rw [this]
      exact ih (fun l' hl' => hL l' (List.mem_cons_of_mem l hl')) k j hj

theorem length_flatten_block (b : Nat) :
    ∀ (L : List (List Int)), (∀ l ∈ L, l.length = b) → L.flatten.length = L.length * b := by
  intro L
  induction L with
  | nil => intro _; simp
  | cons l L ih =>
    intro hL
    rw [List.flatten_cons, List.length_append, hL l (List.mem_cons_self l L),
      ih (fun l' hl' => hL l' (List.mem_cons_of_mem l hl')), List.length_cons, Nat.succ_mul]
    omega

/-! ### The relaxation loop -/

theorem relax_body_length (loc_mat loc_known : List Int) (loc_n : Nat) (du u : Int)
    (dp : List Int × List Int) (v : Nat) :
    (relax_body loc_mat loc_known loc_n du u dp v).1.length = dp.1.length ∧
    (relax_body loc_mat loc_known loc_n du u dp v).2.length = dp.2.length := by
  unfold relax_body
  split_ifs
  · exact ⟨List.length_set _ _ _, List.length_set _ _ _⟩
  · exact ⟨rfl, rfl⟩
  · exact ⟨rfl, rfl⟩

/-- The relaxation loop after `m` iterations, entry by entry. -/
theorem relax_foldl_spec (loc_mat loc_known : List Int) (loc_n : Nat) (du u : Int)
    (d p : List Int) (m : Nat) (hd : m ≤ d.length) (hp : m ≤ p.length) :
    ((List.range m).foldl (relax_body loc_mat loc_known loc_n du u) (d, p)).1.length = d.length ∧
    ((List.range m).foldl (relax_body loc_mat loc_known loc_n du u) (d, p)).2.length = p.length ∧
    ∀ j, (((List.range m).foldl (relax_body loc_mat loc_known loc_n du u) (d, p)).1.getD j 0 =
        if j < m ∧ loc_known.getD j 0 = 0 ∧ new_dist loc_mat loc_n du u j < d.getD j 0
        then new_dist loc_mat loc_n du u j else d.getD j 0) ∧
      (((List.range m).foldl (relax_body loc_mat loc_known loc_n du u) (d, p)).2.getD j 0 =
        if j < m ∧ loc_known.getD j 0 = 0 ∧ new_dist loc_mat loc_n du u j < d.getD j 0
        then u else p.getD j 0) := by
  induction m with
  | zero =>
    refine ⟨rfl, rfl, fun j => ?_⟩
    have hc : ¬ (j < 0 ∧ loc_known.getD j 0 = 0 ∧ new_dist loc_mat loc_n du u j < d.getD j 0) :=
      fun h => Nat.not_lt_zero j h.1
    rw [if_neg hc, if_neg hc]
    exact ⟨rfl, rfl⟩
  | succ m ih =>
    obtain ⟨hl1, hl2, hj⟩ := ih (Nat.le_of_succ_le hd) (Nat.le_of_succ_le hp)
    rw [List.range_succ, List.foldl_append]
    generalize (List.range m).foldl (relax_body loc_mat loc_known loc_n du u) (d, p) = q
      at hl1 hl2 hj
    have hlen := relax_body_length loc_mat loc_known loc_n du u q m
    simp only [List.foldl_cons, List.foldl_nil]
    refine ⟨hlen.1.trans hl1, hlen.2.trans hl2, fun j => ?_⟩
    have hqm := hj m
    have hcm : ¬ (m < m ∧ loc_known.getD m 0 = 0 ∧ new_dist loc_mat loc_n du u m < d.getD m 0) :=
      fun h => lt_irrefl m h.1
    rw [if_neg hcm, if_neg hcm] at hqm
    have hqj := hj j
    -- entries other than `m` are those of `q`
    have hother : m ≠ j →
        ((relax_body loc_mat loc_known loc_n du u q m).1.getD j 0 = q.1.getD j 0 ∧
         (relax_body loc_mat loc_known loc_n du u q m).2.getD j 0 = q.2.getD j 0) := by
      intro hmj
      unfold relax_body
      split_ifs
      · rw [getD_set_eq, getD_set_eq, if_neg (fun h => hmj h.1), if_neg (fun h => hmj h.1)]
        exact ⟨rfl, rfl⟩
      · exact ⟨rfl, rfl⟩
      · exact ⟨rfl, rfl⟩
    by_cases hmj : m = j
    · subst hmj
      have h1 : m < q.1.length := by omega
      have h2 : m < q.2.length := by omega
      unfold relax_body
      by_cases hk : loc_known.getD m 0 = 0
      · rw [if_pos hk]
        by_cases hlt : new_dist loc_mat loc_n du u m < q.1.getD m 0
        · rw [if_pos hlt]
          have c1 : m = m ∧ m < q.1.length := ⟨rfl, h1⟩
          have c2 : m = m ∧ m < q.2.length := ⟨rfl, h2⟩
          rw [getD_set_eq, getD_set_eq, if_pos c1, if_pos c2]
          rw [hqm.1] at hlt
          have c3 : m < m + 1 ∧ loc_known.getD m 0 = 0 ∧
              new_dist loc_mat loc_n du u m < d.getD m 0 := ⟨Nat.lt_succ_self m, hk, hlt⟩
          rw [if_pos c3, if_pos c3]
          exact ⟨rfl, rfl⟩
        · rw [if_neg hlt]
          rw [hqm.1] at hlt
          rw [if_neg (fun h => hlt h.2.2), if_neg (fun h => hlt h.2.2)]
          exact hqm
      · rw [if_neg hk, if_neg (fun h => hk h.2.1), if_neg (fun h => hk h.2.1)]
        exact hqm
    · have hiff : (j < m + 1 ∧ loc_known.getD j 0 = 0 ∧ new_dist loc_mat loc_n du u j < d.getD j 0) ↔
          (j < m ∧ loc_known.getD j 0 = 0 ∧ new_dist loc_mat loc_n du u j < d.getD j 0) := by
        constructor
        · intro h
          exact ⟨by omega, h.2⟩
        · intro h
          exact ⟨by omega, h.2⟩
      rw [(hother hmj).1, (hother hmj).2, hqj.1, hqj.2]
      simp only [hiff]
      exact ⟨trivial, trivial⟩

theorem relax_spec (loc_mat loc_known : List Int) (loc_n : Nat) (du u : Int)
    (d p : List Int) (hd : d.length = loc_n) (hp : p.length = loc_n) :
    (relax loc_mat loc_known loc_n du u d p).1.length = loc_n ∧
    (relax loc_mat loc_known loc_n du u d p).2.length = loc_n ∧
    ∀ j, ((relax loc_mat loc_known loc_n du u d p).1.getD j 0 =
        if j < loc_n ∧ loc_known.getD j 0 = 0 ∧ new_dist loc_mat loc_n du u j < d.getD j 0
        then new_dist loc_mat loc_n du u j else d.getD j 0) ∧
      ((relax loc_mat loc_known loc_n du u d p).2.getD j 0 =
        if j < loc_n ∧ loc_known.getD j 0 = 0 ∧ new_dist loc_mat loc_n du u j < d.getD j 0
        then u else p.getD j 0) := by
  obtain ⟨h1, h2, h3⟩ := relax_foldl_spec loc_mat loc_known loc_n du u d p loc_n
    (le_of_eq hd.symm) (le_of_eq hp.symm)
  exact ⟨h1.trans hd, h2.trans hp, h3⟩

/-! ### `Dijkstra_Init` -/

theorem init_known_foldl (m : Nat) (l : List Int) :
    ((List.range' 1 m).foldl (fun k loc_v => k.set loc_v 0) l).length = l.length ∧
    ∀ j, ((List.range' 1 m).foldl (fun k loc_v => k.set loc_v 0) l).getD j 0 =
      if 1 ≤ j ∧ j < 1 + m then 0 else l.getD j 0 := by
  induction m with
  | zero =>
    refine ⟨rfl, fun j => ?_⟩
    have hc : ¬ (1 ≤ j ∧ j < 1 + 0) := by omega
    rw [if_neg hc]
    rfl
  | succ m ih =>
    rw [List.range'_concat, List.foldl_append]
    simp only [List.foldl_cons, List.foldl_nil, Nat.one_mul]
    obtain ⟨hl, hj⟩ := ih
    generalize (List.range' 1 m).foldl (fun k loc_v => k.set loc_v 0) l = q at hl hj
    refine ⟨(List.length_set _ _ _).trans hl, fun j => ?_⟩
    rw [getD_set_eq, hj j]
    by_cases h1 : 1 + m = j
    · subst h1
      by_cases h2 : 1 + m < q.length
      · have c1 : 1 + m = 1 + m ∧ 1 + m < q.length := ⟨rfl, h2⟩
        have c2 : 1 ≤ 1 + m ∧ 1 + m < 1 + (m + 1) := by omega
        rw [if_pos c1, if_pos c2]
      · have c1 : ¬ (1 + m = 1 + m ∧ 1 + m < q.length) := fun h => h2 h.2
        have c2 : 1 ≤ 1 + m ∧ 1 + m < 1 + (m + 1) := by omega
        have c3 : ¬ (1 ≤ 1 + m ∧ 1 + m < 1 + m) := by omega
        rw [if_neg c1, if_pos c2, if_neg c3]
        exact getD_ge_length l _ (by omega)
    · have c1 : ¬ (1 + m = j ∧ 1 + m < q.length) := fun h => h1 h.1
      rw [if_neg c1]
      by_cases h3 : 1 ≤ j ∧ j < 1 + m
      · have c2 : 1 ≤ j ∧ j < 1 + (m + 1) := by omega
        rw [if_pos h3, if_pos c2]
      · have c2 : ¬ (1 ≤ j ∧ j < 1 + (m + 1)) := by omega
        rw [if_neg h3, if_neg c2]

theorem init_dist_pred_foldl (loc_mat : List Int) (loc_n m : Nat) (d p : List Int)
    (hd : m ≤ d.length) (hp : m ≤ p.length) :
    ((List.range m).foldl
      (fun (dp : List Int × List Int) loc_v =>
        (dp.1.set loc_v (loc_mat.getD (0 * loc_n + loc_v) 0), dp.2.set loc_v 0)) (d, p)).1.length
        = d.length ∧
    ((List.range m).foldl
      (fun (dp : List Int × List Int) loc_v =>
        (dp.1.set loc_v (loc_mat.getD (0 * loc_n + loc_v) 0), dp.2.set loc_v 0)) (d, p)).2.length
        = p.length ∧
    ∀ j, (((List.range m).foldl
      (fun (dp : List Int × List Int) loc_v =>
        (dp.1.set loc_v (loc_mat.getD (0 * loc_n + loc_v) 0), dp.2.set loc_v 0)) (d, p)).1.getD j 0
        = if j < m then loc_mat.getD j 0 else d.getD j 0) ∧
      (((List.range m).foldl
      (fun (dp : List Int × List Int) loc_v =>
        (dp.1.set loc_v (loc_mat.getD (0 * loc_n + loc_v) 0), dp.2.set loc_v 0)) (d, p)).2.getD j 0
        = if j < m then 0 else p.getD j 0) := by
  induction m with
  | zero =>
    refine ⟨rfl, rfl, fun j => ?_⟩
    rw [if_neg (Nat.not_lt_zero j), if_neg (Nat.not_lt_zero j)]
    exact ⟨rfl, rfl⟩
  | succ m ih =>
    obtain ⟨hl1, hl2, hj⟩ := ih (Nat.le_of_succ_le hd) (Nat.le_of_succ_le hp)
    rw [List.range_succ, List.foldl_append]
    generalize (List.range m).foldl
      (fun (dp : List Int × List Int) loc_v =>
        (dp.1.set loc_v (loc_mat.getD (0 * loc_n + loc_v) 0), dp.2.set loc_v 0)) (d, p) = q
      at hl1 hl2 hj
    simp only [List.foldl_cons, List.foldl_nil, Nat.zero_mul, Nat.zero_add]
    refine ⟨(List.length_set _ _ _).trans hl1, (List.length_set _ _ _).trans hl2, fun j => ?_⟩
    rw [getD_set_eq, getD_set_eq, (hj j).1, (hj j).2]
    by_cases h1 : m = j
    · subst h1
      have c1 : m = m ∧ m < q.1.length := ⟨rfl, by omega⟩
      have c2 : m = m ∧ m < q.2.length := ⟨rfl, by omega⟩
      rw [if_pos c1, if_pos c2, if_pos (Nat.lt_succ_self m), if_pos (Nat.lt_succ_self m)]
      exact ⟨rfl, rfl⟩
    · have c1 : ¬ (m = j ∧ m < q.1.length) := fun h => h1 h.1
      have c2 : ¬ (m = j ∧ m < q.2.length) := fun h => h1 h.1
      rw [if_neg c1, if_neg c2]
      by_cases h3 : j < m
      · rw [if_pos h3, if_pos h3, if_pos (Nat.lt_succ_of_lt h3), if_pos (Nat.lt_succ_of_lt h3)]
        exact ⟨rfl, rfl⟩
      · have c3 : ¬ j < m + 1 := by omega
        rw [if_neg h3, if_neg h3, if_neg c3, if_neg c3]
        exact ⟨rfl, rfl⟩

/-- The arrays of a process at loop entry, entry by entry. -/
theorem start_spec (loc_n : Nat) (loc_mat : List Int) (my_rank : Nat) :
    (Proc.start loc_n loc_mat my_rank).my_rank = my_rank ∧
    (Proc.start loc_n loc_mat my_rank).loc_mat = loc_mat ∧
    (Proc.start loc_n loc_mat my_rank).loc_dist.length = loc_n ∧
    (Proc.start loc_n loc_mat my_rank).loc_pred.length = loc_n ∧
    (Proc.start loc_n loc_mat my_rank).loc_known.length = loc_n ∧
    ∀ j, j < loc_n →
      (Proc.start loc_n loc_mat my_rank).loc_dist.getD j 0 = loc_mat.getD j 0 ∧
      (Proc.start loc_n loc_mat my_rank).loc_pred.getD j 0 = 0 ∧
      (Proc.start loc_n loc_mat my_rank).loc_known.getD j 0 =
        if j = 0 ∧ my_rank = 0 then 1 else 0 := by
  obtain ⟨h1, h2, h3⟩ := init_dist_pred_foldl loc_mat loc_n loc_n (malloc loc_n) (malloc loc_n)
    (le_of_eq (length_malloc loc_n).symm) (le_of_eq (length_malloc loc_n).symm)
  obtain ⟨k1, k2⟩ := init_known_foldl (loc_n - 1)
    ((malloc loc_n).set 0 (if my_rank = 0 then 1 else 0))
  refine ⟨rfl, rfl, ?_, ?_, ?_, ?_⟩
  · exact h1.trans (length_malloc loc_n)
  · exact h2.trans (length_malloc loc_n)
  · exact k1.trans ((List.length_set _ _ _).trans (length_malloc loc_n))
  · intro j hj
    refine ⟨?_, ?_, ?_⟩
    · exact ((h3 j).1).trans (if_pos hj)
    · exact ((h3 j).2).trans (if_pos hj)
    · refine (k2 j).trans ?_
      by_cases hj0 : j = 0
      · subst hj0
        have c1 : ¬ (1 ≤ 0 ∧ 0 < 1 + (loc_n - 1)) := by omega
        have c2 : 0 = 0 ∧ 0 < (malloc loc_n).length := ⟨rfl, by rw [length_malloc]; exact hj⟩
        rw [if_neg c1, getD_set_eq, if_pos c2]
        by_cases hr : my_rank = 0
        · rw [if_pos hr, if_pos ⟨rfl, hr⟩]
        · rw [if_neg hr, if_neg (fun h => hr h.2)]
      · have c1 : 1 ≤ j ∧ j < 1 + (loc_n - 1) := by omega
        rw [if_pos c1, if_neg (fun h => hj0 h.1)]


/-! ### The reduction -/

theorem lexLE_refl (x : Int × Int) : lexLE x x := Or.inr ⟨rfl, le_refl _⟩

theorem lexLE_trans {x y z : Int × Int} (h1 : lexLE x y) (h2 : lexLE y z) : lexLE x z := by
  unfold lexLE at *
  rcases h1 with h1 | ⟨h1, h1'⟩ <;> rcases h2 with h2 | ⟨h2, h2'⟩
  · exact Or.inl (lt_trans h1 h2)
  · exact Or.inl (h2 ▸ h1)
  · exact Or.inl (h1 ▸ h2)
  · exact Or.inr ⟨h1.trans h2, le_trans h1' h2'⟩

theorem MINLOC_spec (x y : Int × Int) :
    (MINLOC x y = x ∨ MINLOC x y = y) ∧ lexLE (MINLOC x y) x ∧ lexLE (MINLOC x y) y := by
  unfold MINLOC
  by_cases h1 : x.1 < y.1
  · rw [if_pos h1]
    exact ⟨Or.inl rfl, lexLE_refl x, Or.inl h1⟩
  · rw [if_neg h1]
    by_cases h2 : y.1 < x.1
    · rw [if_pos h2]
      exact ⟨Or.inr rfl, Or.inl h2, lexLE_refl y⟩
    · rw [if_neg h2]
      have he : x.1 = y.1 := le_antisymm (not_lt.mp h2) (not_lt.mp h1)
      refine ⟨?_, Or.inr ⟨rfl, min_le_left _ _⟩, Or.inr ⟨he, min_le_right _ _⟩⟩
      rcases le_total x.2 y.2 with h | h
      · left
        rw [min_eq_left h]
      · right
        rw [min_eq_right h, he]

theorem foldl_MINLOC_spec (xs : List (Int × Int)) :
    ∀ x, (xs.foldl MINLOC x ∈ x :: xs) ∧ ∀ y ∈ x :: xs, lexLE (xs.foldl MINLOC x) y := by
  induction xs with
  | nil =>
    intro x
    refine ⟨List.mem_cons_self x [], fun y hy => ?_⟩
    rw [List.mem_singleton] at hy
    subst hy
    exact lexLE_refl _
  | cons z xs ih =>
    intro x
    obtain ⟨hm, hle⟩ := ih (MINLOC x z)
    obtain ⟨hxz, hx, hz⟩ := MINLOC_spec x z
    rw [List.foldl_cons]
    constructor
    · rcases List.mem_cons.mp hm with h | h
      · rw [h]
        rcases hxz with h' | h'
        · rw [h']; exact List.mem_cons_self _ _
        · rw [h']; exact List.mem_cons_of_mem _ (List.mem_cons_self _ _)
      · exact List.mem_cons_of_mem _ (List.mem_cons_of_mem _ h)
    · intro y hy
      have h0 := hle (MINLOC x z) (List.mem_cons_self _ _)
      rcases List.mem_cons.mp hy with h | h
      · subst h
        exact lexLE_trans h0 hx
      · rcases List.mem_cons.mp h with h | h
        · subst h
          exact lexLE_trans h0 hz
        · exact hle y (List.mem_cons_of_mem _ h)

/-- The reduction returns one of the contributions, one that `MINLOC`
prefers to every other. -/
theorem Allreduce_MINLOC_spec (cs : List (Int × Int)) (h : cs ≠ []) :
    Allreduce_MINLOC cs ∈ cs ∧ ∀ y ∈ cs, lexLE (Allreduce_MINLOC cs) y := by
  cases cs with
  | nil => exact absurd rfl h
  | cons x xs => exact foldl_MINLOC_spec xs x

/-! ### The candidate of one process -/

theorem Find_min_dist_spec (loc_dist loc_known : List Int) (loc_n : Nat) :
    (Find_min_dist loc_dist loc_known loc_n = -1 ∧
      ∀ v < loc_n, loc_known.getD v 0 = 0 → INFINITY ≤ loc_dist.getD v 0) ∨
    (∃ j < loc_n, Find_min_dist loc_dist loc_known loc_n = (j : Int) ∧
      loc_known.getD j 0 = 0 ∧ loc_dist.getD j 0 < INFINITY ∧
      ∀ v < loc_n, loc_known.getD v 0 = 0 →
        loc_dist.getD j 0 ≤ loc_dist.getD v 0 ∧ (v < j → loc_dist.getD j 0 < loc_dist.getD v 0)) := by
  unfold Find_min_dist
  rcases scanInv_foldl loc_dist loc_known loc_n with ⟨h, hall⟩ | ⟨j, hj, h, hk, hd, hmin⟩
  · left
    rw [h]
    exact ⟨rfl, hall⟩
  · right
    rw [h]
    exact ⟨j, hj, rfl, hk, hd, hmin⟩

theorem my_min_spec (loc_n : Nat) (w : Proc) :
    (my_min loc_n w = (INFINITY, -1) ∧
      ∀ v < loc_n, w.loc_known.getD v 0 = 0 → INFINITY ≤ w.loc_dist.getD v 0) ∨
    (∃ j < loc_n, my_min loc_n w = (w.loc_dist.getD j 0, (j : Int) + (w.my_rank : Int) * (loc_n : Int)) ∧
      w.loc_known.getD j 0 = 0 ∧ w.loc_dist.getD j 0 < INFINITY ∧
      ∀ v < loc_n, w.loc_known.getD v 0 = 0 →
        w.loc_dist.getD j 0 ≤ w.loc_dist.getD v 0 ∧
        (v < j → w.loc_dist.getD j 0 < w.loc_dist.getD v 0)) := by
  unfold my_min
  rcases Find_min_dist_spec w.loc_dist w.loc_known loc_n with ⟨h, hall⟩ | ⟨j, hj, h, hk, hd, hmin⟩
  · left
    simp only [h]
    exact ⟨if_neg (fun hne => hne rfl), hall⟩
  · right
    refine ⟨j, hj, ?_, hk, hd, hmin⟩
    simp only [h]
    have hne : (j : Int) ≠ -1 := by omega
    rw [if_pos hne, Int.toNat_natCast]


/-! ### Reading the concatenated arrays -/

theorem WF_blocks {p n : Nat} {mat : List Int} {ws : List Proc} (_ : WF p n mat ws)
    (f : Proc → List Int)
    (hf : ∀ (k : Nat) (w : Proc), ws[k]? = some w → (f w).length = n / p) :
    ∀ l ∈ ws.map f, l.length = n / p := by
  intro l hl
  obtain ⟨w, hw, rfl⟩ := List.mem_map.mp hl
  obtain ⟨k, hk⟩ := List.getElem?_of_mem hw
  exact hf k w hk

theorem getD_map_of_getElem? (ws : List Proc) (f : Proc → List Int) (k : Nat) (w : Proc)
    (h : ws[k]? = some w) : (ws.map f).getD k [] = f w := by
  rw [List.getD_eq_getElem?_getD, List.getElem?_map, h]
  rfl

theorem view_block {p n : Nat} {mat : List Int} {ws : List Proc} (hwf : WF p n mat ws)
    (k : Nat) (w : Proc) (hk : ws[k]? = some w) (j : Nat) (hj : j < n / p) :
    (view ws).dist (k * (n / p) + j) = w.loc_dist.getD j 0 ∧
    (view ws).pred (k * (n / p) + j) = w.loc_pred.getD j 0 ∧
    (view ws).known (k * (n / p) + j) = w.loc_known.getD j 0 := by
  refine ⟨?_, ?_, ?_⟩
  · show (gather_dist ws).getD _ 0 = _
    unfold gather_dist
    rw [getD_flatten_block (n / p) _ (WF_blocks hwf Proc.loc_dist
      (fun k w h => (hwf.2 k w h).2.2.1)) k j hj, getD_map_of_getElem? ws _ k w hk]
  · show (gather_pred ws).getD _ 0 = _
    unfold gather_pred
    rw [getD_flatten_block (n / p) _ (WF_blocks hwf Proc.loc_pred
      (fun k w h => (hwf.2 k w h).2.2.2.1)) k j hj, getD_map_of_getElem? ws _ k w hk]
  · show (global_known ws).getD _ 0 = _
    unfold global_known
    rw [getD_flatten_block (n / p) _ (WF_blocks hwf Proc.loc_known
      (fun k w h => (hwf.2 k w h).2.2.2.2)) k j hj, getD_map_of_getElem? ws _ k w hk]

/-- Every global id below `p * (n / p)` lies in exactly one block. -/
theorem view_at_block {p n : Nat} {mat : List Int} {ws : List Proc} (hwf : WF p n mat ws)
    (v : Nat) (hv : v < p * (n / p)) :
    0 < n / p ∧ v / (n / p) < p ∧ v % (n / p) < n / p ∧
    ∃ w, ws[v / (n / p)]? = some w ∧
      (view ws).dist v = w.loc_dist.getD (v % (n / p)) 0 ∧
      (view ws).pred v = w.loc_pred.getD (v % (n / p)) 0 ∧
      (view ws).known v = w.loc_known.getD (v % (n / p)) 0 := by
  have hb : 0 < n / p := by
    rcases Nat.eq_zero_or_pos (n / p) with h | h
    · rw [h, Nat.mul_zero] at hv
      omega
    · exact h
  have hk : v / (n / p) < p := by
    rw [Nat.div_lt_iff_lt_mul hb]
    exact hv
  have hj : v % (n / p) < n / p := Nat.mod_lt v hb
  have hlt : v / (n / p) < ws.length := by rw [hwf.1]; exact hk
  refine ⟨hb, hk, hj, ws[v / (n / p)], List.getElem?_eq_getElem hlt, ?_⟩
  have hb3 := view_block hwf (v / (n / p)) ws[v / (n / p)] (List.getElem?_eq_getElem hlt)
    (v % (n / p)) hj
  have hv' : v / (n / p) * (n / p) + v % (n / p) = v := Nat.div_add_mod' v (n / p)
  rw [hv'] at hb3
  exact hb3

/-- Every global id below `n` lies in exactly one block. -/
theorem view_at {p n : Nat} {mat : List Int} {ws : List Proc} (hwf : WF p n mat ws)
    (hpn : p ∣ n) (v : Nat) (hv : v < n) :
    0 < n / p ∧ v / (n / p) < p ∧ v % (n / p) < n / p ∧
    ∃ w, ws[v / (n / p)]? = some w ∧
      (view ws).dist v = w.loc_dist.getD (v % (n / p)) 0 ∧
      (view ws).pred v = w.loc_pred.getD (v % (n / p)) 0 ∧
      (view ws).known v = w.loc_known.getD (v % (n / p)) 0 :=
  view_at_block hwf v (by rw [Nat.mul_div_cancel' hpn]; exact hv)

theorem length_gather {p n : Nat} {mat : List Int} {ws : List Proc} (hwf : WF p n mat ws)
    (hpn : p ∣ n) :
    (gather_dist ws).length = n ∧ (gather_pred ws).length = n ∧ (global_known ws).length = n := by
  have hn : p * (n / p) = n := Nat.mul_div_cancel' hpn
  refine ⟨?_, ?_, ?_⟩
  · unfold gather_dist
    rw [length_flatten_block (n / p) _ (WF_blocks hwf Proc.loc_dist
      (fun k w h => (hwf.2 k w h).2.2.1)), List.length_map, hwf.1, hn]
  · unfold gather_pred
    rw [length_flatten_block (n / p) _ (WF_blocks hwf Proc.loc_pred
      (fun k w h => (hwf.2 k w h).2.2.2.1)), List.length_map, hwf.1, hn]
  · unfold global_known
    rw [length_flatten_block (n / p) _ (WF_blocks hwf Proc.loc_known
      (fun k w h => (hwf.2 k w h).2.2.2.2)), List.length_map, hwf.1, hn]


/-! ### The agreed pair of a round -/

theorem my_min_mem {ws : List Proc} {k : Nat} {w : Proc} (loc_n : Nat) (h : ws[k]? = some w) :
    my_min loc_n w ∈ ws.map (my_min loc_n) :=
  List.mem_map.mpr ⟨w, List.getElem?_mem h, rfl⟩

/-- The agreed pair is the choice among the vertices the processes hold,
whether or not `p` divides `n`. -/
theorem sel_block {p n : Nat} {mat : List Int} {ws : List Proc} (hwf : WF p n mat ws)
    (hp : 1 ≤ p) : Sel (p * (n / p)) (view ws) (glbl_min (n / p) ws) := by
  have hne : ws.map (my_min (n / p)) ≠ [] := by
    intro h
    have := congrArg List.length h
    rw [List.length_map, hwf.1] at this
    simp at this
    omega
  obtain ⟨hmem, hle⟩ := Allreduce_MINLOC_spec _ hne
  obtain ⟨w, hw, hr⟩ := List.mem_map.mp hmem
  obtain ⟨k, hk⟩ := List.getElem?_of_mem hw
  have hkp : k < p := by
    have := (List.getElem?_eq_some_iff.mp hk).1
    rw [hwf.1] at this
    exact this
  have hrank := (hwf.2 k w hk).1
  unfold glbl_min
  rcases my_min_spec (n / p) w with ⟨hc, _⟩ | ⟨j, hj, hc, hkn, hd, hmin⟩
  · -- the sentinel wins
    left
    refine ⟨hr.symm.trans hc, ?_⟩
    intro v hv hkv
    obtain ⟨_, _, hj', w', hw', hvd, _, hvk⟩ := view_at_block hwf v hv
    rw [hvd]
    rw [hvk] at hkv
    have hl := hle _ (my_min_mem (n / p) hw')
    rw [← hr, hc] at hl
    rcases my_min_spec (n / p) w' with ⟨_, hall⟩ | ⟨j0, _, hc', _, hd', _⟩
    · exact hall _ hj' hkv
    · rw [hc'] at hl
      unfold lexLE at hl
      simp only at hl
      rcases hl with hl | ⟨hl, _⟩
      · exact absurd hl (not_lt.mpr (le_of_lt hd'))
      · rw [hl] at hd'
        exact absurd hd' (lt_irrefl _)
  · -- a vertex wins
    right
    have hu : k * (n / p) + j < p * (n / p) := by
      calc k * (n / p) + j < k * (n / p) + n / p := by omega
        _ = (k + 1) * (n / p) := by ring
        _ ≤ p * (n / p) := Nat.mul_le_mul_right _ hkp
    obtain ⟨hud, _, huk⟩ := view_block hwf k w hk j hj
    refine ⟨k * (n / p) + j, hu, ?_, huk.trans hkn, by rw [hud]; exact hd, ?_⟩
    · rw [← hr, hc, hud, hrank]
      congr 1
      push_cast
      ring
    · intro v hv hkv
      obtain ⟨_, _, hj', w', hw', hvd, _, hvk⟩ := view_at_block hwf v hv
      rw [hvd, hud]
      rw [hvk] at hkv
      have hl := hle _ (my_min_mem (n / p) hw')
      rw [← hr, hc] at hl
      have hrank' := (hwf.2 _ w' hw').1
      rcases my_min_spec (n / p) w' with ⟨hc', hall⟩ | ⟨j0, hj0, hc', _, _, hmin'⟩
      · have := hall _ hj' hkv
        exact ⟨le_of_lt (lt_of_lt_of_le hd this), fun _ => lt_of_lt_of_le hd this⟩
      · rw [hc'] at hl
        unfold lexLE at hl
        simp only at hl
        have hm := hmin' _ hj' hkv
        rcases hl with hl | ⟨hl, hl2⟩
        · exact ⟨le_of_lt (lt_of_lt_of_le hl hm.1), fun _ => lt_of_lt_of_le hl hm.1⟩
        · rw [hl]
          refine ⟨hm.1, fun hvu => hm.2 ?_⟩
          rw [hrank, hrank'] at hl2
          have hdm : (v / (n / p)) * (n / p) + v % (n / p) = v := Nat.div_add_mod' v (n / p)
          have hl3 : j + k * (n / p) ≤ j0 + (v / (n / p)) * (n / p) := by
            exact_mod_cast hl2
          omega

theorem sel_spec {p n : Nat} {mat : List Int} {ws : List Proc} (hwf : WF p n mat ws)
    (hp : 1 ≤ p) (hpn : p ∣ n) : Sel n (view ws) (glbl_min (n / p) ws) := by
  have h := sel_block hwf hp
  rw [Nat.mul_div_cancel' hpn] at h
  exact h


/-! ### Settling and relaxing, over the concatenated arrays -/

theorem settle_spec (loc_known : List Int) (my_rank loc_n u : Nat) :
    settle loc_known my_rank loc_n (u : Int) =
      if u / loc_n = my_rank then loc_known.set (u % loc_n) 1 else loc_known := by
  unfold settle
  have h1 : Int.tdiv (u : Int) (loc_n : Int) = ((u / loc_n : Nat) : Int) := by
    rw [Int.tdiv_eq_ediv (Int.natCast_nonneg u) (Int.natCast_nonneg loc_n)]
    norm_cast
  have h2 : (Int.tmod (u : Int) (loc_n : Int)).toNat = u % loc_n := by
    rw [Int.tmod_eq_emod (Int.natCast_nonneg u) (Int.natCast_nonneg loc_n)]
    have : (u : Int) % (loc_n : Int) = ((u % loc_n : Nat) : Int) := by norm_cast
    rw [this, Int.toNat_natCast]
  rw [h1, h2]
  by_cases h : u / loc_n = my_rank
  · rw [if_pos h, if_pos (by exact_mod_cast h)]
  · rw [if_neg h, if_neg (by exact_mod_cast h)]

theorem settle_length (loc_known : List Int) (my_rank loc_n : Nat) (g : Int) :
    (settle loc_known my_rank loc_n g).length = loc_known.length := by
  unfold settle
  split_ifs
  · exact List.length_set _ _ _
  · rfl

theorem getD_Read_matrix (mat : List Int) (n loc_n my_rank u j : Nat) (hu : u < n)
    (hj : j < loc_n) :
    (Read_matrix mat n loc_n my_rank).getD (u * loc_n + j) 0 =
      weight mat n u (my_rank * loc_n + j) := by
  unfold Read_matrix weight
  have hlt : u * loc_n + j < n * loc_n := by
    calc u * loc_n + j < u * loc_n + loc_n := by omega
      _ = (u + 1) * loc_n := by ring
      _ ≤ n * loc_n := Nat.mul_le_mul_right _ hu
  have hb : 0 < loc_n := by omega
  rw [List.getD_eq_getElem?_getD, List.getElem?_map, List.getElem?_range hlt]
  simp only [Option.map_some', Option.getD_some]
  have e1 : (u * loc_n + j) / loc_n = u := by
    rw [Nat.add_comm, Nat.add_mul_div_right _ _ hb, Nat.div_eq_of_lt hj, Nat.zero_add]
  have e2 : (u * loc_n + j) % loc_n = j := by
    rw [Nat.add_comm, Nat.add_mul_mod_self_right, Nat.mod_eq_of_lt hj]
  rw [e1, e2, Nat.add_assoc]

theorem getElem?_map_update {ws : List Proc} {loc_n : Nat} {g : Int × Int} {k : Nat} {w' : Proc}
    (h : (ws.map (Proc.update loc_n g))[k]? = some w') :
    ∃ w, ws[k]? = some w ∧ w' = Proc.update loc_n g w := by
  rw [List.getElem?_map] at h
  cases hw : ws[k]? with
  | none => rw [hw] at h; exact absurd h (by simp)
  | some w =>
    rw [hw] at h
    exact ⟨w, rfl, (Option.some.inj h).symm⟩

theorem WF_update {p n : Nat} {mat : List Int} {ws : List Proc} (hwf : WF p n mat ws)
    (g : Int × Int) : WF p n mat (ws.map (Proc.update (n / p) g)) := by
  refine ⟨by rw [List.length_map]; exact hwf.1, ?_⟩
  intro k w' hk
  obtain ⟨w, hw, rfl⟩ := getElem?_map_update hk
  obtain ⟨h1, h2, h3, h4, h5⟩ := hwf.2 k w hw
  obtain ⟨r1, r2, _⟩ := relax_spec w.loc_mat (settle w.loc_known w.my_rank (n / p) g.2) (n / p)
    g.1 g.2 w.loc_dist w.loc_pred h3 h4
  exact ⟨h1, h2, r1, r2, (settle_length _ _ _ _).trans h5⟩

theorem upd_spec {p n : Nat} {mat : List Int} {ws : List Proc} (hwf : WF p n mat ws)
    (hpn : p ∣ n) (u : Nat) (hu : u < n) (g : Int × Int) (hg1 : g.1 = (view ws).dist u)
    (hg2 : g.2 = (u : Int)) :
    Upd n mat (view ws) u (view (ws.map (Proc.update (n / p) g))) := by
  intro v hv
  obtain ⟨hb, hk, hj, w, hw, hvd, hvp, hvk⟩ := view_at hwf hpn v hv
  have hwf' := WF_update hwf g
  have hw' : (ws.map (Proc.update (n / p) g))[v / (n / p)]? = some (Proc.update (n / p) g w) := by
    rw [List.getElem?_map, hw]
    rfl
  have hb3 := view_block hwf' (v / (n / p)) _ hw' (v % (n / p)) hj
  have hv' : v / (n / p) * (n / p) + v % (n / p) = v := Nat.div_add_mod' v (n / p)
  have hu' : u / (n / p) * (n / p) + u % (n / p) = u := Nat.div_add_mod' u (n / p)
  rw [hv'] at hb3
  obtain ⟨hd', hp', hk'⟩ := hb3
  obtain ⟨hrank, hmat, hl1, hl2, hl3⟩ := hwf.2 _ w hw
  obtain ⟨_, _, hrel⟩ := relax_spec w.loc_mat (settle w.loc_known w.my_rank (n / p) g.2) (n / p)
    g.1 g.2 w.loc_dist w.loc_pred hl1 hl2
  -- the known flag
  have hkn : (view (ws.map (Proc.update (n / p) g))).known v =
      if v = u then 1 else (view ws).known v := by
    rw [hk', hvk]
    show (settle w.loc_known w.my_rank (n / p) g.2).getD (v % (n / p)) 0 = _
    rw [hg2, settle_spec, hrank]
    by_cases hvu : v = u
    · subst hvu
      have c1 : v % (n / p) = v % (n / p) ∧ v % (n / p) < w.loc_known.length :=
        ⟨rfl, by rw [hl3]; exact hj⟩
      rw [if_pos rfl, if_pos rfl, getD_set_eq, if_pos c1]
    · rw [if_neg hvu]
      by_cases hq : u / (n / p) = v / (n / p)
      · have hr : ¬ (u % (n / p) = v % (n / p) ∧ u % (n / p) < w.loc_known.length) := by
          intro h
          apply hvu
          rw [← hv', ← hu', hq, h.1]
        rw [if_pos hq, getD_set_eq, if_neg hr]
      · rw [if_neg hq]
  -- the candidate distance
  have hnd : new_dist w.loc_mat (n / p) g.1 g.2 (v % (n / p)) =
      wrap32 ((view ws).dist u + weight mat n u v) := by
    unfold new_dist
    have hidx : (g.2 * ((n / p : Nat) : Int) + ((v % (n / p) : Nat) : Int)).toNat =
        u * (n / p) + v % (n / p) := by
      rw [hg2]
      have : (u : Int) * ((n / p : Nat) : Int) + ((v % (n / p) : Nat) : Int) =
          ((u * (n / p) + v % (n / p) : Nat) : Int) := by
        rw [Nat.cast_add, Nat.cast_mul]
      rw [this, Int.toNat_natCast]
    rw [hidx, hmat, getD_Read_matrix mat n (n / p) _ u _ hu hj, hv', hg1]
  have hkset : (settle w.loc_known w.my_rank (n / p) g.2).getD (v % (n / p)) 0 =
      (view (ws.map (Proc.update (n / p) g))).known v := hk'.symm
  have hiff : (v % (n / p) < n / p ∧
      (settle w.loc_known w.my_rank (n / p) g.2).getD (v % (n / p)) 0 = 0 ∧
      new_dist w.loc_mat (n / p) g.1 g.2 (v % (n / p)) < w.loc_dist.getD (v % (n / p)) 0) ↔
      ((view (ws.map (Proc.update (n / p) g))).known v = 0 ∧
        wrap32 ((view ws).dist u + weight mat n u v) < (view ws).dist v) := by
    rw [hkset, hnd, hvd]
    exact ⟨fun h => h.2, fun h => ⟨hj, h⟩⟩
  have hr := hrel (v % (n / p))
  simp only [hiff] at hr
  refine ⟨hkn, ?_, ?_⟩
  · rw [hd']
    show (relax w.loc_mat (settle w.loc_known w.my_rank (n / p) g.2) (n / p)
      g.1 g.2 w.loc_dist w.loc_pred).1.getD (v % (n / p)) 0 = _
    rw [hr.1, hnd, hvd]
  · rw [hp']
    show (relax w.loc_mat (settle w.loc_known w.my_rank (n / p) g.2) (n / p)
      g.1 g.2 w.loc_dist w.loc_pred).2.getD (v % (n / p)) 0 = _
    rw [hr.2, hg2, hvp]


/-! ### The processes at loop entry -/

theorem getElem?_procs_start {p n : Nat} {mat : List Int} {k : Nat} {w : Proc}
    (h : (procs_start p n mat)[k]? = some w) :
    k < p ∧ w = Proc.start (n / p) (Read_matrix mat n (n / p) k) k := by
  unfold procs_start at h
  rw [List.getElem?_map] at h
  by_cases hk : k < p
  · rw [List.getElem?_range hk] at h
    exact ⟨hk, (Option.some.inj h).symm⟩
  · rw [List.getElem?_eq_none (by rw [List.length_range]; omega)] at h
    exact absurd h (by simp)

theorem WF_start (p n : Nat) (mat : List Int) : WF p n mat (procs_start p n mat) := by
  refine ⟨by unfold procs_start; rw [List.length_map, List.length_range], ?_⟩
  intro k w hk
  obtain ⟨_, rfl⟩ := getElem?_procs_start hk
  obtain ⟨h1, h2, h3, h4, h5, _⟩ := start_spec (n / p) (Read_matrix mat n (n / p) k) k
  exact ⟨h1, h2, h3, h4, h5⟩

theorem init_block {p n : Nat} {mat : List Int} (v : Nat) (hv : v < p * (n / p)) :
    (view (procs_start p n mat)).dist v = weight mat n 0 v ∧
    (view (procs_start p n mat)).pred v = 0 ∧
    (view (procs_start p n mat)).known v = if v = 0 then 1 else 0 := by
  obtain ⟨hb, hk, hj, w, hw, hvd, hvp, hvk⟩ := view_at_block (WF_start p n mat) v hv
  obtain ⟨_, rfl⟩ := getElem?_procs_start hw
  obtain ⟨_, _, _, _, _, hs⟩ := start_spec (n / p) (Read_matrix mat n (n / p) (v / (n / p)))
    (v / (n / p))
  obtain ⟨s1, s2, s3⟩ := hs _ hj
  have hv' : v / (n / p) * (n / p) + v % (n / p) = v := Nat.div_add_mod' v (n / p)
  refine ⟨?_, hvp.trans s2, ?_⟩
  · rw [hvd, s1]
    have hn0 : 0 < n := lt_of_le_of_lt (Nat.zero_le v) (lt_of_lt_of_le hv (Nat.mul_div_le n p))
    have := getD_Read_matrix mat n (n / p) (v / (n / p)) 0 (v % (n / p)) hn0 hj
    rw [Nat.zero_mul, Nat.zero_add, hv'] at this
    exact this
  · rw [hvk, s3]
    by_cases h0 : v = 0
    · subst h0
      rw [if_pos rfl, if_pos ⟨Nat.zero_mod _, Nat.zero_div _⟩]
    · rw [if_neg h0, if_neg]
      intro h
      apply h0
      rw [← hv', h.1, h.2]
      simp

theorem init_spec {p n : Nat} {mat : List Int} (hpn : p ∣ n) (v : Nat) (hv : v < n) :
    (view (procs_start p n mat)).dist v = weight mat n 0 v ∧
    (view (procs_start p n mat)).pred v = 0 ∧
    (view (procs_start p n mat)).known v = if v = 0 then 1 else 0 :=
  init_block v (by rw [Nat.mul_div_cancel' hpn]; exact hv)


/-! ### Paths -/

theorem PathTo_zero (mat : List Int) (n : Nat) : PathTo mat n 0 0 :=
  ⟨[0], rfl, by simp [isRoute], rfl⟩

theorem PathTo_step {mat : List Int} {n u v : Nat} {d : Int} (h : PathTo mat n u d)
    (hv : v < n) (hw : weight mat n u v ≠ INFINITY) : PathTo mat n v (d + weight mat n u v) := by
  obtain ⟨r, hh, hr, hl⟩ := h
  cases r with
  | nil => simp at hh
  | cons x rest =>
    simp only [List.head?_cons, Option.some.injEq] at hh
    subst hh
    refine ⟨v :: x :: rest, rfl, ?_, ?_⟩
    · simp only [isRoute, Bool.and_eq_true, decide_eq_true_eq]
      exact ⟨⟨hv, hw⟩, hr⟩
    · simp only [routeLen]
      rw [hl, add_comm]

/-- Induction along a path from vertex 0. -/
theorem PathTo_induction {mat : List Int} {n : Nat} (P : Nat → Int → Prop) (h0 : P 0 0)
    (hstep : ∀ u d v, PathTo mat n u d → P u d → v < n → weight mat n u v ≠ INFINITY →
      P v (d + weight mat n u v)) :
    ∀ v d, PathTo mat n v d → P v d := by
  intro v d ⟨r, hh, hr, hl⟩
  induction r generalizing v d with
  | nil => simp at hh
  | cons x rest ih =>
    simp only [List.head?_cons, Option.some.injEq] at hh
    subst hh
    cases rest with
    | nil =>
      simp only [isRoute, decide_eq_true_eq] at hr
      simp only [routeLen] at hl
      subst hr
      subst hl
      exact h0
    | cons y rest' =>
      simp only [isRoute, Bool.and_eq_true, decide_eq_true_eq] at hr
      simp only [routeLen] at hl
      have hy : PathTo mat n y (routeLen mat n (y :: rest')) := ⟨y :: rest', rfl, hr.2, rfl⟩
      have := hstep y _ x hy (ih y _ rfl hr.2 rfl) hr.1.1 hr.1.2
      rw [← hl, add_comm]
      exact this

theorem PathTo_nonneg {mat : List Int} {n : Nat} (hn : 0 < n) (hval : ValidWeights n mat) :
    ∀ v d, PathTo mat n v d → 0 ≤ d := by
  intro v d h
  have : v < n ∧ 0 ≤ d := by
    refine PathTo_induction (fun v d => v < n ∧ 0 ≤ d) ⟨hn, le_refl _⟩ ?_ v d h
    intro u d v _ hP hv _
    exact ⟨hv, add_nonneg hP.2 (hval.1 u hP.1 v hv).1⟩
  exact this.2

theorem wrap32_eq (x : Int) (h0 : 0 ≤ x) (h1 : x < 2147483648) : wrap32 x = x := by
  unfold wrap32
  omega


/-! ### The distance invariant -/

theorem INFINITY_val : INFINITY = 1000000 := rfl

theorem DistInv_init {n : Nat} {mat : List Int} {s : View} (hn : 0 < n)
    (hval : ValidWeights n mat)
    (hs : ∀ v < n, s.dist v = weight mat n 0 v ∧ s.pred v = 0 ∧
      s.known v = if v = 0 then 1 else 0) : DistInv n mat s := by
  have hk0 : ∀ v < n, s.known v ≠ 0 → v = 0 := by
    intro v hv hk
    by_contra h0
    rw [(hs v hv).2.2, if_neg h0] at hk
    exact hk rfl
  have hd0 : s.dist 0 = 0 := by rw [(hs 0 hn).1]; exact hval.2 0 hn
  refine ⟨?_, ?_, hd0, ?_, ?_, ?_, ?_, ?_, ?_, ?_⟩
  · intro v hv
    rw [(hs v hv).2.2]
    by_cases h0 : v = 0
    · right; rw [if_pos h0]
    · left; rw [if_neg h0]
  · rw [(hs 0 hn).2.2, if_pos rfl]
  · intro v hv
    rw [(hs v hv).1]
    exact hval.1 0 hn v hv
  · intro v hv hlt
    rw [(hs v hv).1] at hlt ⊢
    have := PathTo_step (PathTo_zero mat n) hv (ne_of_lt hlt)
    rw [zero_add] at this
    exact this
  · intro v hv hk
    rw [hk0 v hv hk, hd0, INFINITY_val]
    decide
  · intro v hv hk d hd
    rw [hk0 v hv hk, hd0]
    exact PathTo_nonneg hn hval _ d hd
  · intro u hu hk v hv _
    rw [hk0 u hu hk, hd0, zero_add, (hs v hv).1]
  · intro u hu hk v hv _
    rw [hk0 u hu hk, hd0, (hs v hv).1]
    exact (hval.1 0 hn v hv).1
  · intro v hv _
    exact (hs v hv).2.1

/-- The sum formed in the relaxation step does not overflow. -/
theorem new_dist_exact {n : Nat} {mat : List Int} {s : View} (hval : ValidWeights n mat)
    (hinv : DistInv n mat s) {u v : Nat} (hu : u < n) (hv : v < n) :
    wrap32 (s.dist u + weight mat n u v) = s.dist u + weight mat n u v := by
  have h1 := hinv.bounds u hu
  have h2 := hval.1 u hu v hv
  rw [INFINITY_val] at h1 h2
  exact wrap32_eq _ (by omega) (by omega)

/-- No path to an unknown vertex is shorter than the distance of the chosen vertex. -/
theorem chosen_le_path {n : Nat} {mat : List Int} {s : View} (hn : 0 < n)
    (hval : ValidWeights n mat) (hinv : DistInv n mat s) {m : Int}
    (hm : ∀ v < n, s.known v = 0 → m ≤ s.dist v) :
    ∀ v d, PathTo mat n v d → s.known v = 0 → m ≤ d := by
  intro v d h
  have : v < n ∧ (s.known v = 0 → m ≤ d) := by
    refine PathTo_induction (fun v d => v < n ∧ (s.known v = 0 → m ≤ d)) ⟨hn, ?_⟩ ?_ v d h
    · intro h0
      rw [hinv.src_known] at h0
      exact absurd h0 (by decide)
    · intro x d' y hx hP hy hw
      refine ⟨hy, fun hky => ?_⟩
      have hwy := (hval.1 x hP.1 y hy).1
      by_cases hkx : s.known x = 0
      · have := hP.2 hkx
        linarith
      · have h1 := hinv.known_le x hP.1 hkx d' hx
        have h2 := hinv.relaxed x hP.1 hkx y hy hky
        have h3 := hm y hy hky
        linarith
  exact this.2

theorem DistInv_step {n : Nat} {mat : List Int} {s t : View} {u : Nat} (hn : 0 < n)
    (hval : ValidWeights n mat) (hinv : DistInv n mat s) (hc : Chosen n s u)
    (hupd : Upd n mat s u t) : DistInv n mat t := by
  obtain ⟨hu, hku, hdu, hmin⟩ := hc
  have hex : ∀ v < n, wrap32 (s.dist u + weight mat n u v) = s.dist u + weight mat n u v :=
    fun v hv => new_dist_exact hval hinv hu hv
  -- the three arrays after the round
  have hkn : ∀ v < n, t.known v = if v = u then 1 else s.known v := fun v hv => (hupd v hv).1
  have hdist : ∀ v < n, t.dist v =
      if t.known v = 0 ∧ s.dist u + weight mat n u v < s.dist v
      then s.dist u + weight mat n u v else s.dist v := by
    intro v hv
    have := (hupd v hv).2.1
    rw [hex v hv] at this
    exact this
  have hpred : ∀ v < n, t.pred v =
      if t.known v = 0 ∧ s.dist u + weight mat n u v < s.dist v
      then (u : Int) else s.pred v := by
    intro v hv
    have := (hupd v hv).2.2
    rw [hex v hv] at this
    exact this
  have hku' : t.known u = 1 := by rw [hkn u hu, if_pos rfl]
  have hkne : ∀ v < n, v ≠ u → t.known v = s.known v := by
    intro v hv hvu
    rw [hkn v hv, if_neg hvu]
  have hknown_dist : ∀ v < n, t.known v ≠ 0 → t.dist v = s.dist v := by
    intro v hv hk
    rw [hdist v hv, if_neg (fun h => hk h.1)]
  have hle : ∀ v < n, t.dist v ≤ s.dist v := by
    intro v hv
    rw [hdist v hv]
    split_ifs with h
    · exact le_of_lt h.2
    · exact le_refl _
  have hunk : ∀ v < n, t.known v = 0 → v ≠ u ∧ s.known v = 0 := by
    intro v hv hk
    have hvu : v ≠ u := by
      intro h
      rw [h, hku'] at hk
      exact absurd hk (by decide)
    exact ⟨hvu, by rw [← hkne v hv hvu]; exact hk⟩
  have hge : ∀ v < n, t.known v = 0 → s.dist u ≤ t.dist v := by
    intro v hv hk
    have hs := (hmin v hv (hunk v hv hk).2).1
    have hw := (hval.1 u hu v hv).1
    rw [hdist v hv]
    split_ifs
    · linarith
    · exact hs
  have h0u : (0 : Nat) ≠ u := by
    intro h
    rw [← h, hinv.src_known] at hku
    exact absurd hku (by decide)
  refine ⟨?_, ?_, ?_, ?_, ?_, ?_, ?_, ?_, ?_, ?_⟩
  · intro v hv
    rw [hkn v hv]
    split_ifs
    · right; rfl
    · exact hinv.flag v hv
  · rw [hkne 0 hn h0u]
    exact hinv.src_known
  · rw [hknown_dist 0 hn (by rw [hkne 0 hn h0u, hinv.src_known]; decide)]
    exact hinv.src_dist
  · intro v hv
    refine ⟨?_, le_trans (hle v hv) (hinv.bounds v hv).2⟩
    rw [hdist v hv]
    split_ifs
    · exact add_nonneg (hinv.bounds u hu).1 (hval.1 u hu v hv).1
    · exact (hinv.bounds v hv).1
  · intro v hv hlt
    rw [hdist v hv] at hlt ⊢
    split_ifs at hlt ⊢ with h
    · refine PathTo_step (hinv.attained u hu hdu) hv ?_
      have := (hinv.bounds u hu).1
      intro heq
      rw [heq] at hlt
      linarith
    · exact hinv.attained v hv hlt
  · intro v hv hk
    rw [hknown_dist v hv hk]
    by_cases hvu : v = u
    · rw [hvu]; exact hdu
    · exact hinv.known_lt v hv (by rw [← hkne v hv hvu]; exact hk)
  · intro v hv hk d hd
    rw [hknown_dist v hv hk]
    by_cases hvu : v = u
    · rw [hvu]
      rw [hvu] at hd
      exact chosen_le_path hn hval hinv (fun y hy hky => (hmin y hy hky).1) u d hd hku
    · exact hinv.known_le v hv (by rw [← hkne v hv hvu]; exact hk) d hd
  · intro x hx hkx v hv hkv
    rw [hknown_dist x hx hkx]
    by_cases hxu : x = u
    · rw [hxu, hdist v hv]
      split_ifs with h
      · exact le_refl _
      · exact not_lt.mp (fun hh => h ⟨hkv, hh⟩)
    · have hkx' : s.known x ≠ 0 := by rw [← hkne x hx hxu]; exact hkx
      exact le_trans (hle v hv) (hinv.relaxed x hx hkx' v hv (hunk v hv hkv).2)
  · intro x hx hkx v hv hkv
    rw [hknown_dist x hx hkx]
    by_cases hxu : x = u
    · rw [hxu]; exact hge v hv hkv
    · have hkx' : s.known x ≠ 0 := by rw [← hkne x hx hxu]; exact hkx
      exact le_trans (hinv.ordered x hx hkx' u hu hku) (hge v hv hkv)
  · intro v hv hinf
    rw [hpred v hv]
    rw [hdist v hv] at hinf
    split_ifs at hinf ⊢ with h
    · have := (hinv.bounds v hv).2
      linarith [h.2]
    · exact hinv.pred_zero v hv hinf


/-! ### The loop -/

theorem Dijkstra_loop_succ (loc_n : Nat) (k : Nat) :
    ∀ ws, Dijkstra_loop loc_n (k + 1) ws = Dijkstra_loop loc_n 1 (Dijkstra_loop loc_n k ws) := by
  induction k with
  | zero => intro ws; rfl
  | succ k ih =>
    intro ws
    by_cases h : (glbl_min loc_n ws).2 = -1
    · have e1 : Dijkstra_loop loc_n (k + 1 + 1) ws = ws := by
        rw [Dijkstra_loop, if_pos h]
      have e2 : Dijkstra_loop loc_n (k + 1) ws = ws := by
        rw [Dijkstra_loop, if_pos h]
      have e3 : Dijkstra_loop loc_n 1 ws = ws := by
        rw [Dijkstra_loop, if_pos h]
      rw [e1, e2, e3]
    · have e1 : Dijkstra_loop loc_n (k + 1 + 1) ws =
          Dijkstra_loop loc_n (k + 1) (ws.map (Proc.update loc_n (glbl_min loc_n ws))) := by
        rw [Dijkstra_loop, if_neg h]
      have e2 : Dijkstra_loop loc_n (k + 1) ws =
          Dijkstra_loop loc_n k (ws.map (Proc.update loc_n (glbl_min loc_n ws))) := by
        rw [Dijkstra_loop, if_neg h]
      rw [e1, e2, ih]

theorem Dijkstra_loop_one (loc_n : Nat) (ws : List Proc) :
    Dijkstra_loop loc_n 1 ws =
      if (glbl_min loc_n ws).2 = -1 then ws
      else ws.map (Proc.update loc_n (glbl_min loc_n ws)) := by
  rw [Dijkstra_loop]
  rfl

/-- A property of the processes that every settling round preserves holds
after any number of rounds. -/
theorem Dijkstra_loop_induction (loc_n : Nat) (P : List Proc → Prop)
    (hstep : ∀ ws, P ws → (glbl_min loc_n ws).2 ≠ -1 →
      P (ws.map (Proc.update loc_n (glbl_min loc_n ws)))) :
    ∀ k ws, P ws → P (Dijkstra_loop loc_n k ws) := by
  intro k
  induction k with
  | zero => intro ws h; exact h
  | succ k ih =>
    intro ws h
    rw [Dijkstra_loop]
    split_ifs with hg
    · exact h
    · exact ih _ (hstep ws h hg)

/-- A round that does not leave the loop settles the chosen vertex and
relaxes through it. -/
theorem round_settles {p n : Nat} {mat : List Int} {ws : List Proc} (hwf : WF p n mat ws)
    (hp : 1 ≤ p) (hpn : p ∣ n) (hg : (glbl_min (n / p) ws).2 ≠ -1) :
    ∃ u, Chosen n (view ws) u ∧ glbl_min (n / p) ws = ((view ws).dist u, (u : Int)) ∧
      Upd n mat (view ws) u (view (ws.map (Proc.update (n / p) (glbl_min (n / p) ws)))) := by
  rcases sel_spec hwf hp hpn with ⟨h, _⟩ | ⟨u, hu, h, hk, hd, hmin⟩
  · rw [h] at hg
    exact absurd rfl hg
  · refine ⟨u, ⟨hu, hk, hd, hmin⟩, h, ?_⟩
    exact upd_spec hwf hpn u hu _ (by rw [h]) (by rw [h])

/-- A round that leaves the loop: no unknown vertex has a distance below
`INFINITY`. -/
theorem round_breaks {p n : Nat} {mat : List Int} {ws : List Proc} (hwf : WF p n mat ws)
    (hp : 1 ≤ p) (hpn : p ∣ n) (hg : (glbl_min (n / p) ws).2 = -1) :
    glbl_min (n / p) ws = (INFINITY, -1) ∧
      ∀ v < n, (view ws).known v = 0 → INFINITY ≤ (view ws).dist v := by
  rcases sel_spec hwf hp hpn with ⟨h, hall⟩ | ⟨u, _, h, _, _, _⟩
  · exact ⟨h, hall⟩
  · rw [h] at hg
    simp only at hg
    omega

theorem WF_after (p n : Nat) (mat : List Int) (k : Nat) : WF p n mat (procs_after p n mat k) :=
  Dijkstra_loop_induction (n / p) (WF p n mat) (fun _ h _ => WF_update h _) k _
    (WF_start p n mat)

theorem Valid_weights {p n : Nat} {mat : List Int} (h : Valid p n mat) : ValidWeights n mat :=
  ⟨h.2.2.2.2.1, h.2.2.2.2.2⟩

/-- The distance invariant holds after every round. -/
theorem DistInv_after {p n : Nat} {mat : List Int} (h : Valid p n mat) (k : Nat) :
    DistInv n mat (view (procs_after p n mat k)) := by
  have hn : 0 < n := h.1
  have hP := Dijkstra_loop_induction (n / p)
    (fun ws => WF p n mat ws ∧ DistInv n mat (view ws))
    (fun ws hws hg => by
      obtain ⟨u, hc, _, hupd⟩ := round_settles hws.1 h.2.1 h.2.2.1 hg
      exact ⟨WF_update hws.1 _, DistInv_step hn (Valid_weights h) hws.2 hc hupd⟩)
    k (procs_start p n mat)
    ⟨WF_start p n mat, DistInv_init hn (Valid_weights h) (fun v hv => init_spec h.2.2.1 v hv)⟩
  exact hP.2


/-! ### Counting the known vertices -/

theorem knownCount_le (n : Nat) (s : View) : knownCount n s ≤ n := by
  unfold knownCount
  calc ((Finset.range n).filter (fun v => s.known v ≠ 0)).card
      ≤ (Finset.range n).card := Finset.card_filter_le _ _
    _ = n := Finset.card_range n

theorem knownCount_full {n : Nat} {s : View} (h : knownCount n s = n) :
    ∀ v < n, s.known v ≠ 0 := by
  intro v hv
  unfold knownCount at h
  have hsub : (Finset.range n).filter (fun v => s.known v ≠ 0) ⊆ Finset.range n :=
    Finset.filter_subset _ _
  have heq := Finset.eq_of_subset_of_card_le hsub (by rw [h, Finset.card_range])
  have hm : v ∈ (Finset.range n).filter (fun v => s.known v ≠ 0) := by
    rw [heq]
    exact Finset.mem_range.mpr hv
  exact (Finset.mem_filter.mp hm).2

theorem knownCount_unknown {n : Nat} {s : View} {v : Nat} (hv : v < n) (hk : s.known v = 0) :
    knownCount n s < n := by
  rcases Nat.lt_or_ge (knownCount n s) n with h | h
  · exact h
  · exact absurd hk (knownCount_full (le_antisymm (knownCount_le n s) h) v hv)

theorem knownCount_init {n : Nat} {s : View} (hn : 0 < n)
    (hs : ∀ v < n, s.known v = if v = 0 then 1 else 0) : knownCount n s = 1 := by
  unfold knownCount
  have : (Finset.range n).filter (fun v => s.known v ≠ 0) = {0} := by
    ext v
    simp only [Finset.mem_filter, Finset.mem_range, Finset.mem_singleton]
    constructor
    · rintro ⟨hv, hk⟩
      by_contra h0
      rw [hs v hv, if_neg h0] at hk
      exact hk rfl
    · intro h0
      subst h0
      refine ⟨hn, ?_⟩
      rw [hs 0 hn, if_pos rfl]
      decide
  rw [this, Finset.card_singleton]

theorem knownCount_step {n : Nat} {mat : List Int} {s t : View} {u : Nat} (hu : u < n)
    (hku : s.known u = 0) (hupd : Upd n mat s u t) : knownCount n t = knownCount n s + 1 := by
  unfold knownCount
  have : (Finset.range n).filter (fun v => t.known v ≠ 0) =
      insert u ((Finset.range n).filter (fun v => s.known v ≠ 0)) := by
    ext v
    simp only [Finset.mem_filter, Finset.mem_range, Finset.mem_insert]
    constructor
    · rintro ⟨hv, hk⟩
      rw [(hupd v hv).1] at hk
      by_cases hvu : v = u
      · left; exact hvu
      · right
        rw [if_neg hvu] at hk
        exact ⟨hv, hk⟩
    · rintro (hvu | ⟨hv, hk⟩)
      · subst hvu
        refine ⟨hu, ?_⟩
        rw [(hupd v hu).1, if_pos rfl]
        decide
      · refine ⟨hv, ?_⟩
        rw [(hupd v hv).1]
        split_ifs
        · decide
        · exact hk
  rw [this, Finset.card_insert_of_not_mem]
  intro hm
  exact (Finset.mem_filter.mp hm).2 hku

/-! ### A whole run -/

/-- The loop started with `i` iterations left from processes of which
`n - i` vertices are known: where it stops, which pairs were agreed, and how
many vertices it settled. -/
theorem run_spec {p n : Nat} {mat : List Int} (hp : 1 ≤ p) (hpn : p ∣ n) (i : Nat) :
    ∀ ws, WF p n mat ws → knownCount n (view ws) + i = n →
      (∀ v < n, (view (Dijkstra_loop (n / p) i ws)).known v = 0 →
        INFINITY ≤ (view (Dijkstra_loop (n / p) i ws)).dist v) ∧
      (glbl_min_trace (n / p) i ws).length ≤ i ∧
      knownCount n (view (Dijkstra_loop (n / p) i ws)) =
        knownCount n (view ws) + (glbl_min_trace (n / p) i ws).countP (fun g => g.2 ≠ -1) ∧
      (knownCount n (view (Dijkstra_loop (n / p) i ws)) < n →
        (glbl_min_trace (n / p) i ws).getLast? = some (INFINITY, -1)) := by
  induction i with
  | zero =>
    intro ws _ hc
    refine ⟨?_, le_refl _, rfl, ?_⟩
    · intro v hv hk
      exact absurd hk (knownCount_full hc v hv)
    · intro h
      simp only [Dijkstra_loop] at h
      omega
  | succ i ih =>
    intro ws hwf hc
    by_cases hg : (glbl_min (n / p) ws).2 = -1
    · obtain ⟨hgv, hall⟩ := round_breaks hwf hp hpn hg
      have e1 : Dijkstra_loop (n / p) (i + 1) ws = ws := by rw [Dijkstra_loop, if_pos hg]
      have e2 : glbl_min_trace (n / p) (i + 1) ws = [(INFINITY, -1)] := by
        rw [glbl_min_trace, if_pos hg, hgv]
      rw [e1, e2]
      refine ⟨hall, by simp, ?_, fun _ => rfl⟩
      simp
    · obtain ⟨u, hch, hgv, hupd⟩ := round_settles hwf hp hpn hg
      have hcnt := knownCount_step hch.1 hch.2.1 hupd
      have hwf' := WF_update hwf (glbl_min (n / p) ws)
      obtain ⟨h1, h2, h3, h4⟩ := ih _ hwf' (by omega)
      have e1 : Dijkstra_loop (n / p) (i + 1) ws =
          Dijkstra_loop (n / p) i (ws.map (Proc.update (n / p) (glbl_min (n / p) ws))) := by
        rw [Dijkstra_loop, if_neg hg]
      have e2 : glbl_min_trace (n / p) (i + 1) ws = glbl_min (n / p) ws ::
          glbl_min_trace (n / p) i (ws.map (Proc.update (n / p) (glbl_min (n / p) ws))) := by
        rw [glbl_min_trace, if_neg hg]
      rw [e1, e2]
      refine ⟨h1, by simp only [List.length_cons]; omega, ?_, ?_⟩
      · have hdec : decide ((glbl_min (n / p) ws).2 ≠ -1) = true := by simpa using hg
        rw [h3, hcnt, List.countP_cons, if_pos hdec]
        omega
      · intro hlt
        have hl := h4 hlt
        cases htr : glbl_min_trace (n / p) i
            (ws.map (Proc.update (n / p) (glbl_min (n / p) ws))) with
        | nil => rw [htr] at hl; simp at hl
        | cons a l =>
          rw [htr] at hl
          rw [List.getLast?_cons_cons]
          exact hl


/-! ### The final arrays -/

theorem MPI_Gather_full (bufs : List (List Int)) (n : Nat) (h : bufs.flatten.length = n) :
    MPI_Gather bufs (malloc n) = bufs.flatten := by
  unfold MPI_Gather
  rw [h, List.drop_of_length_le (le_of_eq (length_malloc n)), List.append_nil]

theorem global_dist_eq {p n : Nat} (mat : List Int) (hpn : p ∣ n) :
    global_dist p n mat = gather_dist (Dijkstra p n mat) :=
  MPI_Gather_full _ n (length_gather (WF_after p n mat (n - 1)) hpn).1

theorem global_pred_eq {p n : Nat} (mat : List Int) (hpn : p ∣ n) :
    global_pred p n mat = gather_pred (Dijkstra p n mat) :=
  MPI_Gather_full _ n (length_gather (WF_after p n mat (n - 1)) hpn).2.1

theorem knownCount_start {p n : Nat} (mat : List Int) (hn : 0 < n) (hpn : p ∣ n) :
    knownCount n (view (procs_start p n mat)) = 1 :=
  knownCount_init hn (fun v hv => (init_spec hpn v hv).2.2)

/-- When the loop of `Dijkstra` is over, every vertex still unknown has
distance `INFINITY`. -/
theorem final_unknown {p n : Nat} {mat : List Int} (h : Valid p n mat) (v : Nat) (hv : v < n)
    (hk : (view (Dijkstra p n mat)).known v = 0) :
    (view (Dijkstra p n mat)).dist v = INFINITY := by
  have hc : knownCount n (view (procs_start p n mat)) + (n - 1) = n := by
    rw [knownCount_start mat h.1 h.2.2.1]
    have := h.1
    omega
  have h1 := (run_spec h.2.1 h.2.2.1 (n - 1) _ (WF_start p n mat) hc).1 v hv hk
  exact le_antisymm ((DistInv_after h (n - 1)).bounds v hv).2 h1

/-- The vertices known at the end are those with a path shorter than
`INFINITY`. -/
theorem final_known_iff {p n : Nat} {mat : List Int} (h : Valid p n mat) (v : Nat) (hv : v < n) :
    (view (Dijkstra p n mat)).known v ≠ 0 ↔ ∃ d, PathTo mat n v d ∧ d < INFINITY := by
  have hinv := DistInv_after h (n - 1)
  constructor
  · intro hk
    exact ⟨_, hinv.attained v hv (hinv.known_lt v hv hk), hinv.known_lt v hv hk⟩
  · rintro ⟨d, hd, hlt⟩ hk
    have := chosen_le_path h.1 (Valid_weights h) hinv
      (fun y hy hky => le_of_eq (final_unknown h y hy hky).symm) v d hd hk
    exact absurd hlt (not_lt.mpr this)


/-! ## The properties of the specification -/

/-- Every path of `longChain` from vertex 0: where it ends and how long it is. -/
theorem longChain_paths (v : Nat) (d : Int) (h : PathTo longChain 3 v d) :
    (v = 0 ∧ d = 0) ∨ (v = 1 ∧ d = 999999) ∨ (v = 2 ∧ d = 1999998) := by
  refine PathTo_induction
    (fun v d => (v = 0 ∧ d = 0) ∨ (v = 1 ∧ d = 999999) ∨ (v = 2 ∧ d = 1999998))
    (Or.inl ⟨rfl, rfl⟩) ?_ v d h
  intro u d v _ hP hv hw
  rcases hP with ⟨rfl, rfl⟩ | ⟨rfl, rfl⟩ | ⟨rfl, rfl⟩ <;> interval_cases v <;>
    simp [weight, longChain, INFINITY] at hw ⊢

/-- C1 (code bug): on the valid matrix `longChain`, run on one process,
vertex 2 is reachable from vertex 0 and its shortest path `0 → 1 → 2` has
length 1999998, but the final `dist[2]` is 1000000, and `main` prints the
distance of vertex 2 as "inf" and its path as `0 2`. -/
theorem C1_failing_input :
    Valid 1 3 longChain ∧ PathTo longChain 3 2 1999998 ∧
    (∀ d, PathTo longChain 3 2 d → 1999998 ≤ d) ∧
    (global_dist 1 3 longChain).getD 2 0 = 1000000 ∧
    main 1 3 longChain 2 =
      ([(1, some 999999), (2, none)], some [(1, [0, 1]), (2, [0, 2])]) := by
  refine ⟨by decide, ⟨[2, 1, 0], rfl, by decide, by decide⟩, ?_, by decide, by decide⟩
  intro d hd
  rcases longChain_paths 2 d hd with ⟨h, _⟩ | ⟨h, _⟩ | ⟨_, h⟩
  · omega
  · omega
  · omega

/-- Where the code does compute shortest distances: for every valid input
and every vertex `v` that has a path from vertex 0 of length below
`INFINITY`, the gathered `dist[v]` is the length of some path to `v`, and no
path to `v` is shorter. -/
theorem dist_is_shortest_below_INFINITY (p n : Nat) (mat : List Int) (h : Valid p n mat)
    (v : Nat) (hv : v < n) (d0 : Int) (hpath : PathTo mat n v d0) (hd0 : d0 < INFINITY) :
    PathTo mat n v ((global_dist p n mat).getD v 0) ∧
    ∀ d, PathTo mat n v d → (global_dist p n mat).getD v 0 ≤ d := by
  rw [global_dist_eq mat h.2.2.1]
  have hinv := DistInv_after h (n - 1)
  have hk : (view (Dijkstra p n mat)).known v ≠ 0 := (final_known_iff h v hv).mpr ⟨d0, hpath, hd0⟩
  exact ⟨hinv.attained v hv (hinv.known_lt v hv hk), hinv.known_le v hv hk⟩


/-- Scenario C has no path into vertex 3. -/
theorem scenarioC_unreachable : ¬ Reachable scenarioC 4 3 := by
  rintro ⟨d, hd⟩
  have : 3 < 4 ∧ (3 : Nat) ≠ 3 := by
    refine PathTo_induction (fun v _ => v < 4 ∧ v ≠ 3) ⟨by decide, by decide⟩ ?_ 3 d hd
    intro u d v _ hP hv hw
    refine ⟨hv, ?_⟩
    obtain ⟨hu, hu3⟩ := hP
    rintro rfl
    interval_cases u <;> simp [weight, scenarioC, INFINITY] at hw hu3
  exact this.2 rfl

/-- C2: for every valid input and every vertex `v` that is not reachable from
vertex 0 along non-sentinel edges, the final `dist[v]` is `INFINITY`, the
final `pred[v]` is its initial value 0, and the known flag of `v` is false
after every number of rounds. -/
theorem C2_unreachable_stays_INFINITY (p n : Nat) (mat : List Int) (h : Valid p n mat)
    (v : Nat) (hv : v < n) (hun : ¬ Reachable mat n v) :
    (global_dist p n mat).getD v 0 = INFINITY ∧ (global_pred p n mat).getD v 0 = 0 ∧
    ∀ k, (global_known (procs_after p n mat k)).getD v 0 = 0 := by
  have hk : ∀ k, (view (procs_after p n mat k)).known v = 0 := by
    intro k
    by_contra hne
    have hinv := DistInv_after h k
    exact hun ⟨_, hinv.attained v hv (hinv.known_lt v hv hne)⟩
  have hd : (view (Dijkstra p n mat)).dist v = INFINITY := final_unknown h v hv (hk (n - 1))
  rw [global_dist_eq mat h.2.2.1, global_pred_eq mat h.2.2.1]
  exact ⟨hd, (DistInv_after h (n - 1)).pred_zero v hv (le_of_eq hd.symm), hk⟩

/-- Scenario C on two processes: vertex 3 keeps `dist = INFINITY`, `pred = 0`
and is never settled. -/
theorem C2_unreachable_stays_INFINITY_witness :
    Valid 2 4 scenarioC ∧ ¬ Reachable scenarioC 4 3 ∧
    ((global_dist 2 4 scenarioC).getD 3 0 = INFINITY ∧ (global_pred 2 4 scenarioC).getD 3 0 = 0 ∧
      ∀ k, (global_known (procs_after 2 4 scenarioC k)).getD 3 0 = 0) :=
  ⟨by decide, scenarioC_unreachable,
    C2_unreachable_stays_INFINITY 2 4 scenarioC (by decide) 3 (by decide) scenarioC_unreachable⟩

/-! ### Independence of the number of processes -/

theorem Sel_unique {n : Nat} {s s' : View} {g g' : Int × Int} (he : ViewEq n s s')
    (h : Sel n s g) (h' : Sel n s' g') : g = g' := by
  rcases h with ⟨hg, hall⟩ | ⟨u, hu, hg, hk, hd, hmin⟩
  · rcases h' with ⟨hg', _⟩ | ⟨u', hu', _, hk', hd', _⟩
    · rw [hg, hg']
    · have := hall u' hu' (by rw [(he u' hu').2.2]; exact hk')
      rw [(he u' hu').1] at this
      exact absurd hd' (not_lt.mpr this)
  · rcases h' with ⟨_, hall'⟩ | ⟨u', hu', hg', hk', hd', hmin'⟩
    · have := hall' u hu (by rw [← (he u hu).2.2]; exact hk)
      rw [← (he u hu).1] at this
      exact absurd hd (not_lt.mpr this)
    · have hku' : s.known u' = 0 := by rw [(he u' hu').2.2]; exact hk'
      have hku : s'.known u = 0 := by rw [← (he u hu).2.2]; exact hk
      have h1 := hmin u' hu' hku'
      have h2 := hmin' u hu hku
      rw [(he u hu).1, (he u' hu').1] at h1
      have huu : u = u' := by
        rcases Nat.lt_trichotomy u u' with hlt | heq | hgt
        · exact absurd (h2.2 hlt) (not_lt.mpr h1.1)
        · exact heq
        · exact absurd (h1.2 hgt) (not_lt.mpr h2.1)
      subst huu
      rw [hg, hg', (he u hu).1]

theorem Upd_congr {n : Nat} {mat : List Int} {s s' t t' : View} {u : Nat}
    (he : ViewEq n s s') (hu : u < n) (h : Upd n mat s u t) (h' : Upd n mat s' u t') :
    ViewEq n t t' := by
  intro v hv
  obtain ⟨a1, a2, a3⟩ := h v hv
  obtain ⟨b1, b2, b3⟩ := h' v hv
  have hk : t.known v = t'.known v := by rw [a1, b1, (he v hv).2.2]
  rw [hk, (he u hu).1, (he v hv).1] at a2
  rw [hk, (he u hu).1, (he v hv).1, (he v hv).2.1] at a3
  exact ⟨a2.trans b2.symm, a3.trans b3.symm, hk⟩

/-- The run on `p` processes and the run on one process go through the same
concatenated arrays and agree on the same pairs. -/
theorem loop_partition {p n : Nat} {mat : List Int} (hp : 1 ≤ p) (hpn : p ∣ n) (i : Nat) :
    ∀ ws ws1, WF p n mat ws → WF 1 n mat ws1 → ViewEq n (view ws) (view ws1) →
      ViewEq n (view (Dijkstra_loop (n / p) i ws)) (view (Dijkstra_loop (n / 1) i ws1)) ∧
      glbl_min_trace (n / p) i ws = glbl_min_trace (n / 1) i ws1 := by
  induction i with
  | zero => intro ws ws1 _ _ he; exact ⟨he, rfl⟩
  | succ i ih =>
    intro ws ws1 hwf hwf1 he
    have hsel := sel_spec hwf hp hpn
    have hsel1 := sel_spec hwf1 (le_refl 1) (one_dvd n)
    have hg := Sel_unique he hsel hsel1
    rw [Dijkstra_loop, Dijkstra_loop, glbl_min_trace, glbl_min_trace, ← hg]
    by_cases hb : (glbl_min (n / p) ws).2 = -1
    · simp only [if_pos hb]
      exact ⟨he, trivial⟩
    · simp only [if_neg hb]
      obtain ⟨u, hc, hgv, hupd⟩ := round_settles hwf hp hpn hb
      have hb1 : (glbl_min (n / 1) ws1).2 ≠ -1 := by rw [← hg]; exact hb
      obtain ⟨u1, _, hgv1, hupd1⟩ := round_settles hwf1 (le_refl 1) (one_dvd n) hb1
      have huu : u = u1 := by
        have := congrArg Prod.snd (hgv.symm.trans (hg.trans hgv1))
        simp only at this
        exact_mod_cast this
      subst huu
      rw [← hg] at hupd1
      have he' := Upd_congr he hc.1 hupd hupd1
      obtain ⟨r1, r2⟩ := ih _ _ (WF_update hwf _) (WF_update hwf1 _) he'
      exact ⟨r1, by rw [r2]⟩

theorem start_partition {p n : Nat} (mat : List Int) (hpn : p ∣ n) :
    ViewEq n (view (procs_start p n mat)) (view (procs_start 1 n mat)) := by
  intro v hv
  obtain ⟨a1, a2, a3⟩ := @init_spec p n mat hpn v hv
  obtain ⟨b1, b2, b3⟩ := @init_spec 1 n mat (one_dvd n) v hv
  exact ⟨a1.trans b1.symm, a2.trans b2.symm, a3.trans b3.symm⟩


theorem gather_single (w : Proc) : gather_dist [w] = w.loc_dist ∧ gather_pred [w] = w.loc_pred := by
  unfold gather_dist gather_pred
  simp

/-- C3 (partition invariance): for every process count `p ≥ 1` that divides
`n` and every matrix, the concatenation in rank order of the `p` processes'
final `loc_dist` arrays, and of their final `loc_pred` arrays, is the
`loc_dist`, respectively `loc_pred`, of the single process of a one-process
run on the same matrix, and the agreed pairs `(dist_glbl_u, glbl_u)` of the
rounds are the same. -/
theorem C3_partition_invariance (p n : Nat) (mat : List Int) (hp : 1 ≤ p) (hpn : p ∣ n) :
    (Dijkstra 1 n mat).map Proc.loc_dist = [gather_dist (Dijkstra p n mat)] ∧
    (Dijkstra 1 n mat).map Proc.loc_pred = [gather_pred (Dijkstra p n mat)] ∧
    winners p n mat = winners 1 n mat := by
  obtain ⟨hv, htr⟩ := loop_partition hp hpn (n - 1) (procs_start p n mat) (procs_start 1 n mat)
    (WF_start p n mat) (WF_start 1 n mat) (start_partition mat hpn)
  have hwf := WF_after p n mat (n - 1)
  have hwf1 := WF_after 1 n mat (n - 1)
  have hl := length_gather hwf hpn
  have hl1 := length_gather hwf1 (one_dvd n)
  have hd : gather_dist (Dijkstra p n mat) = gather_dist (Dijkstra 1 n mat) :=
    eq_of_getD_eq _ _ (hl.1.trans hl1.1.symm) (fun j hj => (hv j (by rw [← hl.1]; exact hj)).1)
  have hq : gather_pred (Dijkstra p n mat) = gather_pred (Dijkstra 1 n mat) :=
    eq_of_getD_eq _ _ (hl.2.1.trans hl1.2.1.symm)
      (fun j hj => (hv j (by rw [← hl.2.1]; exact hj)).2.1)
  refine ⟨?_, ?_, htr⟩
  · rw [hd]
    have h1 : (Dijkstra 1 n mat).length = 1 := hwf1.1
    match hD : Dijkstra 1 n mat, h1 with
    | [w], _ => rw [(gather_single w).1]; rfl
  · rw [hq]
    have h1 : (Dijkstra 1 n mat).length = 1 := hwf1.1
    match hD : Dijkstra 1 n mat, h1 with
    | [w], _ => rw [(gather_single w).2]; rfl

/-- Scenario B: the Scenario A matrix on two processes (columns `{0,1}`,
`{2,3}`) gives the arrays and the winners of the one-process run. -/
theorem C3_partition_invariance_witness :
    1 ≤ 2 ∧ 2 ∣ 4 ∧
    gather_dist (Dijkstra 2 4 scenarioA) = [0, 1, 3, 4] ∧
    gather_pred (Dijkstra 2 4 scenarioA) = [0, 0, 1, 0] ∧
    ((Dijkstra 1 4 scenarioA).map Proc.loc_dist = [gather_dist (Dijkstra 2 4 scenarioA)] ∧
      (Dijkstra 1 4 scenarioA).map Proc.loc_pred = [gather_pred (Dijkstra 2 4 scenarioA)] ∧
      winners 2 4 scenarioA = winners 1 4 scenarioA) :=
  ⟨by decide, by decide, by decide, by decide,
    C3_partition_invariance 2 4 scenarioA (by decide) (by decide)⟩


/-! ### The predecessor links -/

theorem KReaches_zero (n : Nat) (s : View) : ∀ m, KReaches n s m 0
  | 0 => rfl
  | _ + 1 => Or.inl rfl

theorem KReaches_succ {n : Nat} {s : View} :
    ∀ m w, KReaches n s m w → KReaches n s (m + 1) w := by
  intro m
  induction m with
  | zero =>
    intro w h
    exact Or.inl h
  | succ m ih =>
    intro w h
    rcases h with h | ⟨h1, h2, h3, h4⟩
    · exact Or.inl h
    · exact Or.inr ⟨h1, h2, h3, ih _ h4⟩

theorem KReaches_mono {n : Nat} {s : View} {m m' : Nat} {w : Int} (h : KReaches n s m w)
    (hm : m ≤ m') : KReaches n s m' w := by
  induction hm with
  | refl => exact h
  | step _ ih => exact KReaches_succ _ _ ih

/-- A walk through known vertices is not affected by a round. -/
theorem KReaches_transfer {n : Nat} {s t : View}
    (hst : ∀ x < n, s.known x ≠ 0 → t.known x ≠ 0 ∧ t.pred x = s.pred x) :
    ∀ m w, KReaches n s m w → KReaches n t m w := by
  intro m
  induction m with
  | zero => intro w h; exact h
  | succ m ih =>
    intro w h
    rcases h with h | ⟨h1, h2, h3, h4⟩
    · exact Or.inl h
    · refine Or.inr ⟨h1, h2, (hst _ h2 h3).1, ?_⟩
      rw [(hst _ h2 h3).2]
      exact ih _ h4

theorem knownCount_pos {n : Nat} {s : View} (hn : 0 < n) (h0 : s.known 0 ≠ 0) :
    1 ≤ knownCount n s := by
  unfold knownCount
  apply Finset.card_pos.mpr
  exact ⟨0, Finset.mem_filter.mpr ⟨Finset.mem_range.mpr hn, h0⟩⟩

theorem PredInv_init {n : Nat} {s : View} (hn : 0 < n)
    (hs : ∀ v < n, s.pred v = 0 ∧ s.known v = if v = 0 then 1 else 0) : PredInv n s := by
  have h0 : s.known 0 ≠ 0 := by
    rw [(hs 0 hn).2, if_pos rfl]
    decide
  refine ⟨h0, ?_, ?_⟩
  · intro v hv
    rw [(hs v hv).1]
    exact ⟨le_refl _, hn, h0⟩
  · intro v hv hk
    have : v = 0 := by
      by_contra hne
      rw [(hs v hv).2, if_neg hne] at hk
      exact hk rfl
    subst this
    exact KReaches_zero n s _

theorem PredInv_step {n : Nat} {mat : List Int} {s t : View} {u : Nat} (hn : 0 < n)
    (hinv : PredInv n s) (hu : u < n) (hku : s.known u = 0) (hupd : Upd n mat s u t) :
    PredInv n t := by
  have hkn : ∀ v < n, t.known v = if v = u then 1 else s.known v := fun v hv => (hupd v hv).1
  have hmono : ∀ v < n, s.known v ≠ 0 → t.known v ≠ 0 := by
    intro v hv hk
    rw [hkn v hv]
    split_ifs
    · decide
    · exact hk
  have hpk : ∀ v < n, t.known v ≠ 0 → t.pred v = s.pred v := by
    intro v hv hk
    rw [(hupd v hv).2.2, if_neg (fun h => hk h.1)]
  have hku' : t.known u ≠ 0 := by
    rw [hkn u hu, if_pos rfl]
    decide
  have hst : ∀ x < n, s.known x ≠ 0 → t.known x ≠ 0 ∧ t.pred x = s.pred x :=
    fun x hx hk => ⟨hmono x hx hk, hpk x hx (hmono x hx hk)⟩
  have hcnt := knownCount_step hu hku hupd
  have hpos := knownCount_pos hn hinv.src_known
  refine ⟨hmono 0 hn hinv.src_known, ?_, ?_⟩
  · intro v hv
    rw [(hupd v hv).2.2]
    split_ifs
    · refine ⟨Int.natCast_nonneg u, ?_, ?_⟩
      · rw [Int.toNat_natCast]; exact hu
      · rw [Int.toNat_natCast]; exact hku'
    · obtain ⟨h1, h2, h3⟩ := hinv.pred_known v hv
      exact ⟨h1, h2, hmono _ h2 h3⟩
  · intro v hv hk
    by_cases hvu : v = u
    · subst hvu
      obtain ⟨h1, h2, h3⟩ := hinv.pred_known v hv
      have hw := hinv.walk _ h2 h3
      rw [Int.toNat_of_nonneg h1] at hw
      have hw' := KReaches_transfer hst _ _ hw
      have : knownCount n t - 1 = (knownCount n s - 1) + 1 := by omega
      rw [this]
      refine Or.inr ⟨Int.natCast_nonneg v, ?_, ?_, ?_⟩
      · rw [Int.toNat_natCast]; exact hv
      · rw [Int.toNat_natCast]; exact hk
      · rw [Int.toNat_natCast, hpk v hv hk]
        exact hw'
    · have hks : s.known v ≠ 0 := by
        rw [hkn v hv, if_neg hvu] at hk
        exact hk
      exact KReaches_mono (KReaches_transfer hst _ _ (hinv.walk v hv hks)) (by omega)

/-- The predecessor invariant holds after every round, whatever the weights. -/
theorem PredInv_after {p n : Nat} (mat : List Int) (hn : 0 < n) (hp : 1 ≤ p) (hpn : p ∣ n)
    (k : Nat) : PredInv n (view (procs_after p n mat k)) := by
  have hP := Dijkstra_loop_induction (n / p)
    (fun ws => WF p n mat ws ∧ PredInv n (view ws))
    (fun ws hws hg => by
      obtain ⟨u, hc, _, hupd⟩ := round_settles hws.1 hp hpn hg
      exact ⟨WF_update hws.1 _, PredInv_step hn hws.2 hc.1 hc.2.1 hupd⟩)
    k (procs_start p n mat)
    ⟨WF_start p n mat, PredInv_init hn
      (fun v hv => ⟨(init_spec hpn v hv).2.1, (init_spec hpn v hv).2.2⟩)⟩
  exact hP.2

/-- The loop of `Print_paths` follows a walk through known vertices to its end. -/
theorem walk_of_KReaches {n : Nat} {s : View} (gp : List Int)
    (hs : ∀ v < n, s.pred v = gp.getD v 0) :
    ∀ m w, KReaches n s m w → ∀ fuel, m ≤ fuel → ∀ path,
      ∃ l, Print_paths_walk gp fuel w path = some (path ++ l) ∧ l.length ≤ m ∧
        ∀ x ∈ l, 0 ≤ x ∧ x.toNat < n ∧ s.known x.toNat ≠ 0 := by
  have hstop : ∀ fuel path, Print_paths_walk gp fuel 0 path = some path := by
    intro fuel path
    cases fuel <;> simp [Print_paths_walk]
  intro m
  induction m with
  | zero =>
    intro w h fuel _ path
    have hw : w = 0 := h
    subst hw
    exact ⟨[], by rw [hstop, List.append_nil], Nat.le_refl _, fun x hx => absurd hx (List.not_mem_nil x)⟩
  | succ m ih =>
    intro w h fuel hf path
    by_cases hw : w = 0
    · subst hw
      exact ⟨[], by rw [hstop, List.append_nil], Nat.zero_le _,
        fun x hx => absurd hx (List.not_mem_nil x)⟩
    · rcases h with h | ⟨h1, h2, h3, h4⟩
      · exact absurd h hw
      · obtain ⟨f, rfl⟩ : ∃ f, fuel = f + 1 := ⟨fuel - 1, by omega⟩
        rw [hs _ h2] at h4
        obtain ⟨l, hl, hlen, hall⟩ := ih _ h4 f (by omega) (path ++ [w])
        refine ⟨w :: l, ?_, by simp only [List.length_cons]; omega, ?_⟩
        · rw [Print_paths_walk, if_pos hw, hl, List.append_assoc]
          rfl
        · intro x hx
          rcases List.mem_cons.mp hx with rfl | hx
          · exact ⟨h1, h2, h3⟩
          · exact hall x hx


/-- The walk of `Print_paths` from any vertex `v` in `[1, n)` over the
gathered `pred` array ends at 0 after at most `n - 1` steps, whatever the
weights; when `v` is known at the end, so is every vertex on the walk. -/
theorem walk_terminates {p n : Nat} (mat : List Int) (hp : 1 ≤ p) (hpn : p ∣ n) (v : Nat)
    (hv1 : 1 ≤ v) (hv : v < n) (fuel : Nat) (hf : n - 1 ≤ fuel) :
    ∃ path, Print_paths_walk (global_pred p n mat) fuel (v : Int) [] = some path ∧
      path.length ≤ n - 1 ∧
      ((view (Dijkstra p n mat)).known v ≠ 0 →
        ∀ x ∈ path, 0 ≤ x ∧ x.toNat < n ∧ (view (Dijkstra p n mat)).known x.toNat ≠ 0) := by
  have hn : 0 < n := by omega
  have hinv : PredInv n (view (Dijkstra p n mat)) := PredInv_after mat hn hp hpn (n - 1)
  have hs : ∀ x < n, (view (Dijkstra p n mat)).pred x = (global_pred p n mat).getD x 0 := by
    intro x _
    rw [global_pred_eq mat hpn]
    rfl
  have hcnt := knownCount_le n (view (Dijkstra p n mat))
  by_cases hk : (view (Dijkstra p n mat)).known v ≠ 0
  · obtain ⟨l, hl, hlen, hall⟩ := walk_of_KReaches (global_pred p n mat) hs _ _
      (hinv.walk v hv hk) fuel (by have := hcnt; omega) []
    rw [List.nil_append] at hl
    exact ⟨l, hl, by omega, fun _ => hall⟩
  · have hk0 : (view (Dijkstra p n mat)).known v = 0 := not_not.mp hk
    have hlt := knownCount_unknown hv hk0
    obtain ⟨h1, h2, h3⟩ := hinv.pred_known v hv
    have hw := hinv.walk _ h2 h3
    rw [Int.toNat_of_nonneg h1, hs v hv] at hw
    obtain ⟨f, rfl⟩ : ∃ f, fuel = f + 1 := ⟨fuel - 1, by omega⟩
    obtain ⟨l, hl, hlen, _⟩ := walk_of_KReaches (global_pred p n mat) hs _ _ hw f (by omega)
      ([] ++ [(v : Int)])
    have hv0 : (v : Int) ≠ 0 := by omega
    refine ⟨[] ++ [(v : Int)] ++ l, ?_, ?_, fun h => absurd h hk⟩
    · rw [Print_paths_walk, if_pos hv0, Int.toNat_natCast]
      exact hl
    · simp only [List.nil_append, List.singleton_append, List.length_cons]
      omega

/-- C4 (code bug): on the valid matrix `longChain` vertex 2 is reachable
from vertex 0, but it is never settled: the walk of `Print_paths` from 2
records vertex 2, which is not a known vertex, and the line printed is
`0 2`, along the edge `0 → 2` that the matrix does not have. -/
theorem C4_failing_input :
    Valid 1 3 longChain ∧ Reachable longChain 3 2 ∧
    Print_paths_walk (global_pred 1 3 longChain) 2 2 [] = some [2] ∧
    (global_known (Dijkstra 1 3 longChain)).getD 2 0 = 0 ∧
    Print_paths_line (global_pred 1 3 longChain) 2 2 = some [0, 2] ∧
    weight longChain 3 0 2 = INFINITY :=
  ⟨by decide, ⟨1999998, [2, 1, 0], rfl, by decide, by decide⟩, by decide, by decide,
    by decide, by decide⟩

/-- Where the walk of `Print_paths` does stay on settled vertices: for every
valid input and every vertex `v` in `[1, n)` the walk over the gathered
`pred` array reaches 0 after at most `n - 1` steps, and when `v` has a path
from vertex 0 of length below `INFINITY`, every vertex visited by the walk
is a known vertex. -/
theorem path_walk_known_below_INFINITY (p n : Nat) (mat : List Int) (h : Valid p n mat) (v : Nat)
    (hv1 : 1 ≤ v) (hv : v < n) (fuel : Nat) (hf : n - 1 ≤ fuel) :
    ∃ path, Print_paths_walk (global_pred p n mat) fuel (v : Int) [] = some path ∧
      path.length ≤ n - 1 ∧
      ((∃ d, PathTo mat n v d ∧ d < INFINITY) →
        ∀ x ∈ path ++ [0], 0 ≤ x ∧ x.toNat < n ∧
          (global_known (Dijkstra p n mat)).getD x.toNat 0 ≠ 0) := by
  obtain ⟨path, h1, h2, h3⟩ := walk_terminates mat h.2.1 h.2.2.1 v hv1 hv fuel hf
  refine ⟨path, h1, h2, fun hd x hx => ?_⟩
  rcases List.mem_append.mp hx with hx | hx
  · exact h3 ((final_known_iff h v hv).mpr hd) x hx
  · rw [List.mem_singleton] at hx
    subst hx
    refine ⟨le_refl _, h.1, ?_⟩
    have : (view (Dijkstra p n mat)).known 0 = 1 := (DistInv_after h (n - 1)).src_known
    intro h0
    have h0' : (view (Dijkstra p n mat)).known 0 = 0 := h0
    rw [this] at h0'
    exact absurd h0' (by decide)

/-! ### `main` -/

theorem Print_paths_loop_some (gp : List Int) (fuel : Nat) :
    ∀ vs : List Nat, (∀ v ∈ vs, ∃ line, Print_paths_line gp fuel v = some line) →
      ∃ lines, Print_paths_loop gp fuel vs = some lines ∧ lines.map Prod.fst = vs := by
  intro vs
  induction vs with
  | nil => intro _; exact ⟨[], rfl, rfl⟩
  | cons v vs ih =>
    intro h
    obtain ⟨line, hline⟩ := h v (List.mem_cons_self v vs)
    obtain ⟨lines, hl, hfst⟩ := ih (fun x hx => h x (List.mem_cons_of_mem v hx))
    refine ⟨(v, line) :: lines, ?_, by rw [List.map_cons, hfst]⟩
    rw [Print_paths_loop, hline]
    simp only [hl, Option.map_some']

/-- The first round agrees on a vertex exactly when some vertex other than 0
that a process holds has a first-row entry below `INFINITY`, whatever the
matrix and whether or not `p` divides `n`. -/
theorem first_round_iff {p n : Nat} (mat : List Int) (hp : 1 ≤ p) :
    (glbl_min (n / p) (procs_start p n mat)).2 ≠ -1 ↔
      ∃ v, 1 ≤ v ∧ v < p * (n / p) ∧ weight mat n 0 v < INFINITY := by
  have hsel := sel_block (WF_start p n mat) hp
  constructor
  · intro hg
    rcases hsel with ⟨h, _⟩ | ⟨u, hu, _, hk, hd, _⟩
    · rw [h] at hg
      exact absurd rfl hg
    · obtain ⟨i1, _, i3⟩ := @init_block p n mat u hu
      refine ⟨u, ?_, hu, by rw [← i1]; exact hd⟩
      rcases Nat.eq_zero_or_pos u with h0 | h0
      · rw [i3, if_pos h0] at hk
        exact absurd hk (by decide)
      · exact h0
  · rintro ⟨v, hv1, hv, hw⟩ hg
    rcases hsel with ⟨_, hall⟩ | ⟨u, _, h, _, _, _⟩
    · obtain ⟨i1, _, i3⟩ := @init_block p n mat v hv
      have hk : (view (procs_start p n mat)).known v = 0 := by
        rw [i3, if_neg (by omega)]
      have := hall v hv hk
      rw [i1] at this
      exact absurd hw (not_lt.mpr this)
    · rw [h] at hg
      simp only at hg
      omega

/-- C5, as stated, fails: `main` has no check and no abort.  On 2 processes
and `n = 3` (not divisible), on a matrix with a negative weight, and on a
matrix with a nonzero diagonal entry, the first round agrees on a vertex,
settles it and relaxes, and `main` prints its lines. -/
theorem C5_counterexample :
    (¬ (2 ∣ 3) ∧ (winners 2 3 threeByThree).head? = some (1, 1) ∧
      (main 2 3 threeByThree 2).1.length = 2) ∧
    (weight negativeWeight 2 0 1 < 0 ∧ winners 1 2 negativeWeight = [(-5, 1)] ∧
      main 1 2 negativeWeight 1 = ([(1, some (-5))], some [(1, [0, 1])])) ∧
    (weight nonzeroDiagonal 2 1 1 ≠ 0 ∧ winners 1 2 nonzeroDiagonal = [(1, 1)] ∧
      main 1 2 nonzeroDiagonal 1 = ([(1, some 1)], some [(1, [0, 1])])) :=
  ⟨⟨by decide, by decide, by decide⟩, ⟨by decide, by decide, by decide⟩,
    ⟨by decide, by decide, by decide⟩⟩

/-- C5 (amended): precondition violations are not detected and abort
nothing.  For every process count `p ≥ 1`, every `n` with `n / p ≥ 1`,
divisible by `p` or not, and every matrix, also one with a negative weight
or a nonzero diagonal entry: when `n ≥ 2` the loop of `Dijkstra` runs its
first round, with the pair agreed from the arrays `Dijkstra_Init` left; that
round settles a vertex and relaxes on every process exactly when some vertex
`v` in `[1, p * (n / p))` has `mat[0][v] < INFINITY`; `main` prints for every
vertex `1 .. n - 1` the line of its gathered distance; and when `p` divides
`n` it prints a path line for every vertex `1 .. n - 1`, each walk of
`Print_paths` ending within `n - 1` steps.  (With `n / p = 0` the arrays have
no entry and `Dijkstra_Init` would write outside them; that case is left out.) -/
theorem C5_no_validation (p n : Nat) (mat : List Int) (fuel : Nat) (hp : 1 ≤ p)
    (_hb : 1 ≤ n / p) :
    (2 ≤ n → (winners p n mat).head? = some (glbl_min (n / p) (procs_start p n mat))) ∧
    ((glbl_min (n / p) (procs_start p n mat)).2 ≠ -1 ↔
      ∃ v, 1 ≤ v ∧ v < p * (n / p) ∧ weight mat n 0 v < INFINITY) ∧
    ((glbl_min (n / p) (procs_start p n mat)).2 ≠ -1 →
      procs_after p n mat 1 = (procs_start p n mat).map
        (Proc.update (n / p) (glbl_min (n / p) (procs_start p n mat)))) ∧
    (main p n mat fuel).1 = (List.range' 1 (n - 1)).map
      (fun v => (v, if (global_dist p n mat).getD v 0 = INFINITY then none
        else some ((global_dist p n mat).getD v 0))) ∧
    (p ∣ n → n - 1 ≤ fuel →
      ∃ lines, (main p n mat fuel).2 = some lines ∧
        lines.map Prod.fst = List.range' 1 (n - 1)) := by
  refine ⟨fun hn => ?_, first_round_iff mat hp, fun hg => ?_, rfl, fun hpn hf => ?_⟩
  · obtain ⟨m, hm⟩ : ∃ m, n - 1 = m + 1 := ⟨n - 2, by omega⟩
    unfold winners
    rw [hm, glbl_min_trace]
    rfl
  · show Dijkstra_loop (n / p) 1 (procs_start p n mat) = _
    rw [Dijkstra_loop_one, if_neg hg]
  · show ∃ lines, Print_paths (global_pred p n mat) n fuel = some lines ∧
      lines.map Prod.fst = List.range' 1 (n - 1)
    unfold Print_paths
    exact Print_paths_loop_some (global_pred p n mat) fuel (List.range' 1 (n - 1)) (by
      intro v hv
      rw [List.mem_range'_1] at hv
      obtain ⟨path, hpath, _, _⟩ := walk_terminates mat hp hpn v hv.1 (by omega) fuel hf
      exact ⟨0 :: path.reverse, by unfold Print_paths_line; rw [hpath]; rfl⟩)

/-- Two processes and `n = 3`, which 2 does not divide: the first round runs
and agrees on vertex 1, and `main` prints two distance lines. -/
theorem C5_no_validation_witness :
    1 ≤ 2 ∧ 1 ≤ 3 / 2 ∧ ¬ (2 ∣ 3) ∧
    glbl_min (3 / 2) (procs_start 2 3 threeByThree) = (1, 1) ∧
    ((2 ≤ 3 → (winners 2 3 threeByThree).head? =
      some (glbl_min (3 / 2) (procs_start 2 3 threeByThree))) ∧
    ((glbl_min (3 / 2) (procs_start 2 3 threeByThree)).2 ≠ -1 ↔
      ∃ v, 1 ≤ v ∧ v < 2 * (3 / 2) ∧ weight threeByThree 3 0 v < INFINITY) ∧
    ((glbl_min (3 / 2) (procs_start 2 3 threeByThree)).2 ≠ -1 →
      procs_after 2 3 threeByThree 1 = (procs_start 2 3 threeByThree).map
        (Proc.update (3 / 2) (glbl_min (3 / 2) (procs_start 2 3 threeByThree)))) ∧
    (main 2 3 threeByThree 2).1 = (List.range' 1 (3 - 1)).map
      (fun v => (v, if (global_dist 2 3 threeByThree).getD v 0 = INFINITY then none
        else some ((global_dist 2 3 threeByThree).getD v 0))) ∧
    (2 ∣ 3 → 3 - 1 ≤ 2 →
      ∃ lines, (main 2 3 threeByThree 2).2 = some lines ∧
        lines.map Prod.fst = List.range' 1 (3 - 1))) :=
  ⟨by decide, by decide, by decide, by decide,
    C5_no_validation 2 3 threeByThree 2 (by decide) (by decide)⟩

/-- C6, as stated, fails: with one local vertex, unknown and at distance
`INFINITY`, `Find_min_dist` returns -1 although not every local vertex is known. -/
theorem C6_counterexample :
    Find_min_dist [1000000] [0] 1 = -1 ∧ ¬ (∀ v < 1, ([0] : List Int).getD v 0 ≠ 0) := by
  decide

/-- C6 (amended): `Find_min_dist` returns -1 if and only if every local
vertex is already known or has `loc_dist` at least `INFINITY`; whenever an
unknown vertex with `loc_dist` below `INFINITY` remains, the result is the
index of an unknown vertex (so a process contributes the sentinel candidate
only when it has no unknown vertex with distance below `INFINITY` left). -/
theorem C6_Find_min_dist_sentinel (loc_dist loc_known : List Int) (loc_n : Nat) :
    (Find_min_dist loc_dist loc_known loc_n = -1 ↔
      ∀ v < loc_n, loc_known.getD v 0 ≠ 0 ∨ INFINITY ≤ loc_dist.getD v 0) ∧
    ((∃ v < loc_n, loc_known.getD v 0 = 0 ∧ loc_dist.getD v 0 < INFINITY) →
      ∃ j < loc_n, Find_min_dist loc_dist loc_known loc_n = (j : Int) ∧
        loc_known.getD j 0 = 0) := by
  rcases Find_min_dist_spec loc_dist loc_known loc_n with ⟨h, hall⟩ | ⟨j, hj, h, hk, hd, _⟩
  · refine ⟨⟨fun _ v hv => ?_, fun _ => h⟩, ?_⟩
    · by_cases hkv : loc_known.getD v 0 = 0
      · exact Or.inr (hall v hv hkv)
      · exact Or.inl hkv
    · rintro ⟨v, hv, hkv, hdv⟩
      exact absurd hdv (not_lt.mpr (hall v hv hkv))
  · refine ⟨⟨fun h1 => ?_, fun hall => ?_⟩, fun _ => ⟨j, hj, h, hk⟩⟩
    · rw [h] at h1
      omega
    · rcases hall j hj with h1 | h1
      · exact absurd hk h1
      · exact absurd hd (not_lt.mpr h1)

/-- C7 (local candidate selection): when `Find_min_dist` returns an index
`u ≠ -1`, then `u` is in `[0, loc_n)`, vertex `u` is unknown,
`loc_dist[u] ≤ loc_dist[v]` for every unknown `v`, and
`loc_dist[v] > loc_dist[u]` for every unknown `v < u`. -/
theorem C7_Find_min_dist_minimum (loc_dist loc_known : List Int) (loc_n : Nat) (u : Int)
    (hu : Find_min_dist loc_dist loc_known loc_n = u) (hne : u ≠ -1) :
    0 ≤ u ∧ u < (loc_n : Int) ∧ loc_known.getD u.toNat 0 = 0 ∧
    ∀ v < loc_n, loc_known.getD v 0 = 0 →
      loc_dist.getD u.toNat 0 ≤ loc_dist.getD v 0 ∧
      ((v : Int) < u → loc_dist.getD u.toNat 0 < loc_dist.getD v 0) := by
  rcases Find_min_dist_spec loc_dist loc_known loc_n with ⟨h, _⟩ | ⟨j, hj, h, hk, _, hmin⟩
  · rw [hu] at h
    exact absurd h hne
  · rw [hu] at h
    subst h
    rw [Int.toNat_natCast]
    refine ⟨Int.natCast_nonneg j, by exact_mod_cast hj, hk, fun v hv hkv => ?_⟩
    exact ⟨(hmin v hv hkv).1, fun hlt => (hmin v hv hkv).2 (by exact_mod_cast hlt)⟩

/-- Three unknown vertices at distances 5, 3, 3: the scan returns index 1. -/
theorem C7_Find_min_dist_minimum_witness :
    Find_min_dist [5, 3, 3] [0, 0, 0] 3 = 1 ∧ (1 : Int) ≠ -1 ∧
    (0 ≤ (1 : Int) ∧ (1 : Int) < ((3 : Nat) : Int) ∧
      ([0, 0, 0] : List Int).getD (1 : Int).toNat 0 = 0 ∧
      ∀ v < 3, ([0, 0, 0] : List Int).getD v 0 = 0 →
        ([5, 3, 3] : List Int).getD (1 : Int).toNat 0 ≤ ([5, 3, 3] : List Int).getD v 0 ∧
        ((v : Int) < 1 →
          ([5, 3, 3] : List Int).getD (1 : Int).toNat 0 < ([5, 3, 3] : List Int).getD v 0)) :=
  ⟨by decide, by decide,
    C7_Find_min_dist_minimum [5, 3, 3] [0, 0, 0] 3 1 (by decide) (by decide)⟩


/-! ### One round of a run -/

/-- From the state after `k` rounds to the state after `k + 1`: either the
loop has been left and nothing changes, or the chosen vertex is settled and
relaxed through. -/
theorem round_cases {p n : Nat} (mat : List Int) (hp : 1 ≤ p) (hpn : p ∣ n) (k : Nat) :
    ((glbl_min (n / p) (procs_after p n mat k)).2 = -1 ∧
      procs_after p n mat (k + 1) = procs_after p n mat k) ∨
    ((glbl_min (n / p) (procs_after p n mat k)).2 ≠ -1 ∧
      procs_after p n mat (k + 1) = (procs_after p n mat k).map
        (Proc.update (n / p) (glbl_min (n / p) (procs_after p n mat k))) ∧
      ∃ u, Chosen n (view (procs_after p n mat k)) u ∧
        glbl_min (n / p) (procs_after p n mat k) =
          ((view (procs_after p n mat k)).dist u, (u : Int)) ∧
        Upd n mat (view (procs_after p n mat k)) u (view (procs_after p n mat (k + 1)))) := by
  have hs : procs_after p n mat (k + 1) = Dijkstra_loop (n / p) 1 (procs_after p n mat k) :=
    Dijkstra_loop_succ (n / p) k _
  rw [Dijkstra_loop_one] at hs
  by_cases hg : (glbl_min (n / p) (procs_after p n mat k)).2 = -1
  · left
    rw [if_pos hg] at hs
    exact ⟨hg, hs⟩
  · right
    rw [if_neg hg] at hs
    obtain ⟨u, hc, hgv, hupd⟩ := round_settles (WF_after p n mat k) hp hpn hg
    rw [← hs] at hupd
    exact ⟨hg, hs, u, hc, hgv, hupd⟩

theorem known_mono {p n : Nat} (mat : List Int) (hp : 1 ≤ p) (hpn : p ∣ n) (k v : Nat)
    (hv : v < n) (hk : (view (procs_after p n mat k)).known v ≠ 0) :
    (view (procs_after p n mat (k + 1))).known v ≠ 0 ∧
    (view (procs_after p n mat (k + 1))).dist v = (view (procs_after p n mat k)).dist v ∧
    (view (procs_after p n mat (k + 1))).pred v = (view (procs_after p n mat k)).pred v := by
  rcases round_cases mat hp hpn k with ⟨_, he⟩ | ⟨_, _, u, _, _, hupd⟩
  · rw [he]
    exact ⟨hk, rfl, rfl⟩
  · obtain ⟨h1, h2, h3⟩ := hupd v hv
    have hk' : (view (procs_after p n mat (k + 1))).known v ≠ 0 := by
      rw [h1]
      split_ifs
      · decide
      · exact hk
    refine ⟨hk', ?_, ?_⟩
    · rw [h2, if_neg (fun h => hk' h.1)]
    · rw [h3, if_neg (fun h => hk' h.1)]

/-- Once a vertex is known, its entries stay as they are in all later rounds. -/
theorem known_frozen {p n : Nat} (mat : List Int) (hp : 1 ≤ p) (hpn : p ∣ n) (k v : Nat)
    (hv : v < n) (hk : (view (procs_after p n mat k)).known v ≠ 0) (j : Nat) :
    (view (procs_after p n mat (k + j))).known v ≠ 0 ∧
    (view (procs_after p n mat (k + j))).dist v = (view (procs_after p n mat k)).dist v ∧
    (view (procs_after p n mat (k + j))).pred v = (view (procs_after p n mat k)).pred v := by
  induction j with
  | zero => exact ⟨hk, rfl, rfl⟩
  | succ j ih =>
    obtain ⟨h1, h2, h3⟩ := known_mono mat hp hpn (k + j) v hv ih.1
    exact ⟨h1, h2.trans ih.2.1, h3.trans ih.2.2⟩

/-- C8: for every valid input and every vertex `v`, `dist[v]` does not
increase from one round to the next; if `v` is known after a round, then
that round did not change `dist[v]` or `pred[v]` and no later round does;
and a round changes `dist[v]` exactly when it changes `pred[v]`. -/
theorem C8_dist_never_increases (p n : Nat) (mat : List Int) (h : Valid p n mat) (k v : Nat)
    (hv : v < n) :
    (gather_dist (procs_after p n mat (k + 1))).getD v 0 ≤
      (gather_dist (procs_after p n mat k)).getD v 0 ∧
    ((global_known (procs_after p n mat (k + 1))).getD v 0 ≠ 0 → ∀ j,
      (gather_dist (procs_after p n mat (k + 1 + j))).getD v 0 =
        (gather_dist (procs_after p n mat k)).getD v 0 ∧
      (gather_pred (procs_after p n mat (k + 1 + j))).getD v 0 =
        (gather_pred (procs_after p n mat k)).getD v 0) ∧
    ((gather_dist (procs_after p n mat (k + 1))).getD v 0 ≠
        (gather_dist (procs_after p n mat k)).getD v 0 ↔
      (gather_pred (procs_after p n mat (k + 1))).getD v 0 ≠
        (gather_pred (procs_after p n mat k)).getD v 0) := by
  have hp := h.2.1
  have hpn := h.2.2.1
  show (view (procs_after p n mat (k + 1))).dist v ≤ (view (procs_after p n mat k)).dist v ∧
    ((view (procs_after p n mat (k + 1))).known v ≠ 0 → ∀ j,
      (view (procs_after p n mat (k + 1 + j))).dist v = (view (procs_after p n mat k)).dist v ∧
      (view (procs_after p n mat (k + 1 + j))).pred v = (view (procs_after p n mat k)).pred v) ∧
    ((view (procs_after p n mat (k + 1))).dist v ≠ (view (procs_after p n mat k)).dist v ↔
      (view (procs_after p n mat (k + 1))).pred v ≠ (view (procs_after p n mat k)).pred v)
  have hfro : ∀ d0 p0 : Int, (view (procs_after p n mat (k + 1))).dist v = d0 →
      (view (procs_after p n mat (k + 1))).pred v = p0 →
      (view (procs_after p n mat (k + 1))).known v ≠ 0 → ∀ j,
      (view (procs_after p n mat (k + 1 + j))).dist v = d0 ∧
      (view (procs_after p n mat (k + 1 + j))).pred v = p0 := by
    intro d0 p0 hd0 hp0 hk j
    obtain ⟨_, f2, f3⟩ := known_frozen mat hp hpn (k + 1) v hv hk j
    exact ⟨f2.trans hd0, f3.trans hp0⟩
  rcases round_cases mat hp hpn k with ⟨_, he⟩ | ⟨_, _, u, hc, _, hupd⟩
  · refine ⟨by rw [he], fun hk j => hfro _ _ (by rw [he]) (by rw [he]) hk j, ?_⟩
    rw [he]
    exact ⟨fun hd => absurd rfl hd, fun hq => absurd rfl hq⟩
  · obtain ⟨h1, h2, h3⟩ := hupd v hv
    have hpk := (PredInv_after mat h.1 hp hpn k).pred_known v hv
    have hne : (view (procs_after p n mat k)).pred v ≠ (u : Int) := by
      intro heq
      rw [heq, Int.toNat_natCast] at hpk
      exact hpk.2.2 hc.2.1
    by_cases hcond : (view (procs_after p n mat (k + 1))).known v = 0 ∧
        wrap32 ((view (procs_after p n mat k)).dist u + weight mat n u v) <
          (view (procs_after p n mat k)).dist v
    · rw [if_pos hcond] at h2 h3
      refine ⟨by rw [h2]; exact le_of_lt hcond.2, fun hk => absurd hcond.1 hk, ?_⟩
      constructor
      · intro _
        rw [h3]
        exact fun heq => hne heq.symm
      · intro _
        rw [h2]
        exact ne_of_lt hcond.2
    · rw [if_neg hcond] at h2 h3
      refine ⟨by rw [h2], fun hk j => hfro _ _ h2 h3 hk j, ?_⟩
      constructor
      · intro hd; exact absurd h2 hd
      · intro hq; exact absurd h3 hq

/-- Scenario A on two processes, first round, vertex 2: `dist[2]` drops from
`INFINITY` to 3 and `pred[2]` changes with it. -/
theorem C8_dist_never_increases_witness :
    Valid 2 4 scenarioA ∧ 2 < 4 ∧
    (gather_dist (procs_after 2 4 scenarioA 0)).getD 2 0 = 1000000 ∧
    (gather_dist (procs_after 2 4 scenarioA 1)).getD 2 0 = 3 ∧
    ((gather_dist (procs_after 2 4 scenarioA (0 + 1))).getD 2 0 ≤
      (gather_dist (procs_after 2 4 scenarioA 0)).getD 2 0 ∧
    ((global_known (procs_after 2 4 scenarioA (0 + 1))).getD 2 0 ≠ 0 → ∀ j,
      (gather_dist (procs_after 2 4 scenarioA (0 + 1 + j))).getD 2 0 =
        (gather_dist (procs_after 2 4 scenarioA 0)).getD 2 0 ∧
      (gather_pred (procs_after 2 4 scenarioA (0 + 1 + j))).getD 2 0 =
        (gather_pred (procs_after 2 4 scenarioA 0)).getD 2 0) ∧
    ((gather_dist (procs_after 2 4 scenarioA (0 + 1))).getD 2 0 ≠
        (gather_dist (procs_after 2 4 scenarioA 0)).getD 2 0 ↔
      (gather_pred (procs_after 2 4 scenarioA (0 + 1))).getD 2 0 ≠
        (gather_pred (procs_after 2 4 scenarioA 0)).getD 2 0)) :=
  ⟨by decide, by decide, by decide, by decide,
    C8_dist_never_increases 2 4 scenarioA (by decide) 0 2 (by decide)⟩


theorem ownership_test (u loc_n r : Nat) :
    Int.tdiv (u : Int) (loc_n : Int) = (r : Int) ↔ r = u / loc_n := by
  rw [Int.tdiv_eq_ediv (Int.natCast_nonneg u) (Int.natCast_nonneg loc_n)]
  constructor
  · intro h
    have : ((u / loc_n : Nat) : Int) = (r : Int) := by
      rw [← h]
      norm_cast
    exact_mod_cast this.symm
  · intro h
    subst h
    norm_cast

/-- C9: for every valid input, no known flag goes from true back to false in
a round, and in every round that does not leave the loop exactly one global
vertex changes from unknown to known: the agreed `glbl_u`, a vertex below
`n` that was unknown before the round; the ownership test
`glbl_u / loc_n == my_rank` holds on exactly one process, rank
`glbl_u / loc_n`, which writes `loc_known[glbl_u % loc_n] = 1`, and the
`loc_known` array of every other process is unchanged. -/
theorem C9_one_vertex_per_round (p n : Nat) (mat : List Int) (h : Valid p n mat) (k : Nat) :
    (∀ v < n, (global_known (procs_after p n mat k)).getD v 0 ≠ 0 →
      (global_known (procs_after p n mat (k + 1))).getD v 0 ≠ 0) ∧
    ((glbl_min (n / p) (procs_after p n mat k)).2 ≠ -1 →
      ∃ u < n, (glbl_min (n / p) (procs_after p n mat k)).2 = (u : Int) ∧
        (global_known (procs_after p n mat k)).getD u 0 = 0 ∧
        (∀ v < n, (global_known (procs_after p n mat (k + 1))).getD v 0 =
          if v = u then 1 else (global_known (procs_after p n mat k)).getD v 0) ∧
        u / (n / p) < p ∧ u % (n / p) < n / p ∧
        ∀ (r : Nat) (w : Proc), (procs_after p n mat k)[r]? = some w →
          (Int.tdiv (glbl_min (n / p) (procs_after p n mat k)).2 ((n / p : Nat) : Int) =
              (w.my_rank : Int) ↔ r = u / (n / p)) ∧
          ∃ w', (procs_after p n mat (k + 1))[r]? = some w' ∧
            w'.loc_known =
              if r = u / (n / p) then w.loc_known.set (u % (n / p)) 1 else w.loc_known) := by
  have hp := h.2.1
  have hpn := h.2.2.1
  refine ⟨fun v hv hk => (known_mono mat hp hpn k v hv hk).1, fun hg => ?_⟩
  rcases round_cases mat hp hpn k with ⟨hb, _⟩ | ⟨_, he, u, hc, hgv, hupd⟩
  · exact absurd hb hg
  · have hg2 : (glbl_min (n / p) (procs_after p n mat k)).2 = (u : Int) := by rw [hgv]
    obtain ⟨_, hq, hr, _⟩ := view_at (WF_after p n mat k) hpn u hc.1
    refine ⟨u, hc.1, hg2, hc.2.1, fun v hv => (hupd v hv).1, hq, hr, ?_⟩
    intro r w hw
    have hrank := ((WF_after p n mat k).2 r w hw).1
    constructor
    · rw [hg2, hrank]
      exact ownership_test u (n / p) r
    · refine ⟨Proc.update (n / p) (glbl_min (n / p) (procs_after p n mat k)) w, ?_, ?_⟩
      · rw [he, List.getElem?_map, hw]
        rfl
      · show settle w.loc_known w.my_rank (n / p) (glbl_min (n / p) (procs_after p n mat k)).2 = _
        rw [hg2, settle_spec, hrank]
        by_cases hru : r = u / (n / p)
        · rw [if_pos hru, if_pos hru.symm]
        · rw [if_neg hru, if_neg (fun h => hru h.symm)]

/-- Scenario A on two processes, first round: vertex 1 is settled by process 0. -/
theorem C9_one_vertex_per_round_witness :
    Valid 2 4 scenarioA ∧ glbl_min (4 / 2) (procs_after 2 4 scenarioA 0) = (1, 1) ∧
    ((∀ v < 4, (global_known (procs_after 2 4 scenarioA 0)).getD v 0 ≠ 0 →
      (global_known (procs_after 2 4 scenarioA (0 + 1))).getD v 0 ≠ 0) ∧
    ((glbl_min (4 / 2) (procs_after 2 4 scenarioA 0)).2 ≠ -1 →
      ∃ u : Nat, u < 4 ∧ (glbl_min (4 / 2) (procs_after 2 4 scenarioA 0)).2 = (u : Int) ∧
        (global_known (procs_after 2 4 scenarioA 0)).getD u 0 = 0 ∧
        (∀ v < 4, (global_known (procs_after 2 4 scenarioA (0 + 1))).getD v 0 =
          if v = u then 1 else (global_known (procs_after 2 4 scenarioA 0)).getD v 0) ∧
        u / (4 / 2) < 2 ∧ u % (4 / 2) < 4 / 2 ∧
        ∀ (r : Nat) (w : Proc), (procs_after 2 4 scenarioA 0)[r]? = some w →
          (Int.tdiv (glbl_min (4 / 2) (procs_after 2 4 scenarioA 0)).2 ((4 / 2 : Nat) : Int) =
              (w.my_rank : Int) ↔ r = u / (4 / 2)) ∧
          ∃ w', (procs_after 2 4 scenarioA (0 + 1))[r]? = some w' ∧
            w'.loc_known =
              if r = u / (4 / 2) then w.loc_known.set (u % (4 / 2)) 1 else w.loc_known)) :=
  ⟨by decide, by decide, C9_one_vertex_per_round 2 4 scenarioA (by decide) 0⟩

/-- C10 (code bug): on the valid matrix `longChain` all three vertices are
reachable from vertex 0, so two rounds should settle a vertex, but only one
does: the second round agrees on the sentinel and the loop is left. -/
theorem C10_failing_input :
    Valid 1 3 longChain ∧ (∀ v < 3, Reachable longChain 3 v) ∧
    (winners 1 3 longChain).countP (fun g => g.2 ≠ -1) = 1 ∧
    winners 1 3 longChain = [(999999, 1), (1000000, -1)] := by
  refine ⟨by decide, ?_, by decide, by decide⟩
  intro v hv
  interval_cases v
  · exact ⟨0, [0], rfl, by decide, by decide⟩
  · exact ⟨999999, [1, 0], rfl, by decide, by decide⟩
  · exact ⟨1999998, [2, 1, 0], rfl, by decide, by decide⟩

/-- What the number of settling rounds is: for every valid input, one less
than the number of vertices that have a path from vertex 0 of length below
`INFINITY`; the loop body runs at most `n - 1` times, and when fewer than
`n` vertices have such a path the last round agrees on the sentinel. -/
theorem round_count_below_INFINITY (p n : Nat) (mat : List Int) (h : Valid p n mat) :
    ∃ S : Finset Nat, (∀ v, v ∈ S ↔ v < n ∧ ∃ d, PathTo mat n v d ∧ d < INFINITY) ∧
      (winners p n mat).countP (fun g => g.2 ≠ -1) + 1 = S.card ∧
      (winners p n mat).length ≤ n - 1 ∧
      (S.card < n → (winners p n mat).getLast? = some (INFINITY, -1)) := by
  have hc1 := @knownCount_start p n mat h.1 h.2.2.1
  have hc : knownCount n (view (procs_start p n mat)) + (n - 1) = n := by
    rw [hc1]
    have := h.1
    omega
  obtain ⟨_, h2, h3, h4⟩ := run_spec h.2.1 h.2.2.1 (n - 1) _ (WF_start p n mat) hc
  refine ⟨(Finset.range n).filter (fun v => (view (Dijkstra p n mat)).known v ≠ 0), ?_, ?_, h2, ?_⟩
  · intro v
    rw [Finset.mem_filter, Finset.mem_range]
    constructor
    · rintro ⟨hv, hk⟩
      exact ⟨hv, (final_known_iff h v hv).mp hk⟩
    · rintro ⟨hv, hd⟩
      exact ⟨hv, (final_known_iff h v hv).mpr hd⟩
  · rw [hc1] at h3
    show _ = knownCount n (view (Dijkstra p n mat))
    unfold winners
    have h3' : knownCount n (view (Dijkstra p n mat)) =
        1 + List.countP (fun g => decide (g.2 ≠ -1))
          (glbl_min_trace (n / p) (n - 1) (procs_start p n mat)) := h3
    omega
  · intro hlt
    exact h4 hlt

/-- C11: for every valid input, vertex 0 is known on its owner (process 0,
local index 0) after `Dijkstra_Init` and after every round, no round agrees
on vertex 0 as its winner, `dist[0]` is 0 after `Dijkstra_Init`, after every
round and in the gathered output, and no other vertex is known after
`Dijkstra_Init`. -/
theorem C11_source_vertex (p n : Nat) (mat : List Int) (h : Valid p n mat) :
    (∀ k, ∃ w, (procs_after p n mat k)[0]? = some w ∧ w.my_rank = 0 ∧
      w.loc_known.getD 0 0 = 1) ∧
    (∀ k, (glbl_min (n / p) (procs_after p n mat k)).2 ≠ 0) ∧
    (∀ k, (gather_dist (procs_after p n mat k)).getD 0 0 = 0) ∧
    (global_dist p n mat).getD 0 0 = 0 ∧
    (∀ v < n, v ≠ 0 → (global_known (procs_start p n mat)).getD v 0 = 0) := by
  have hp := h.2.1
  have hpn := h.2.2.1
  have hn : 0 < n := h.1
  refine ⟨fun k => ?_, fun k => ?_, fun k => (DistInv_after h k).src_dist, ?_, ?_⟩
  · obtain ⟨_, _, _, w, hw, _, _, hk⟩ := view_at (WF_after p n mat k) hpn 0 hn
    rw [Nat.zero_div] at hw
    rw [Nat.zero_mod, (DistInv_after h k).src_known] at hk
    exact ⟨w, hw, ((WF_after p n mat k).2 0 w hw).1, hk.symm⟩
  · rcases sel_spec (WF_after p n mat k) hp hpn with ⟨hg, _⟩ | ⟨u, _, hg, hku, _, _⟩
    · rw [hg]
      decide
    · rw [hg]
      intro h0
      have h0' : (u : Int) = 0 := h0
      have hu0 : u = 0 := by exact_mod_cast h0'
      rw [hu0, (DistInv_after h k).src_known] at hku
      exact absurd hku (by decide)
  · rw [global_dist_eq mat hpn]
    exact (DistInv_after h (n - 1)).src_dist
  · intro v hv hv0
    have := (@init_spec p n mat hpn v hv).2.2
    rw [if_neg hv0] at this
    exact this

/-- Scenario A on two processes. -/
theorem C11_source_vertex_witness :
    Valid 2 4 scenarioA ∧
    ((∀ k, ∃ w, (procs_after 2 4 scenarioA k)[0]? = some w ∧ w.my_rank = 0 ∧
      w.loc_known.getD 0 0 = 1) ∧
    (∀ k, (glbl_min (4 / 2) (procs_after 2 4 scenarioA k)).2 ≠ 0) ∧
    (∀ k, (gather_dist (procs_after 2 4 scenarioA k)).getD 0 0 = 0) ∧
    (global_dist 2 4 scenarioA).getD 0 0 = 0 ∧
    (∀ v < 4, v ≠ 0 → (global_known (procs_start 2 4 scenarioA)).getD v 0 = 0)) :=
  ⟨by decide, C11_source_vertex 2 4 scenarioA (by decide)⟩


/-- C12 (ownership mapping): for every block width `b ≥ 1` with `W * b = n`,
the global id `j + k * b` that process `k < W` forms in `my_min` from its
local index `j < b` lies in `[0, n)`, and `g / b = k`, `g % b = j`; every
global vertex `v < n` passes the ownership test `v / b == k` of `settle` for
exactly one `k < W`, namely `v / b`, and that process writes local index
`v % b < b`. -/
theorem C12_ownership_mapping (W b n : Nat) (hb : 1 ≤ b) (hn : W * b = n) :
    (∀ k < W, ∀ j < b, ∀ w : Proc, w.my_rank = k →
      Find_min_dist w.loc_dist w.loc_known b = (j : Int) →
        (my_min b w).2 = (j : Int) + (k : Int) * (b : Int) ∧
        0 ≤ (my_min b w).2 ∧ (my_min b w).2 < (n : Int) ∧
        Int.tdiv (my_min b w).2 (b : Int) = (k : Int) ∧
        Int.tmod (my_min b w).2 (b : Int) = (j : Int)) ∧
    (∀ v < n, v / b < W ∧ v % b < b ∧
      (∀ k < W, (Int.tdiv (v : Int) (b : Int) = (k : Int) ↔ k = v / b)) ∧
      ∀ (loc_known : List Int), ∀ k < W,
        settle loc_known k b (v : Int) =
          if k = v / b then loc_known.set (v % b) 1 else loc_known) := by
  have hb0 : 0 < b := hb
  constructor
  · intro k hk j hj w hrank hfind
    have hg : (my_min b w).2 = (j : Int) + (k : Int) * (b : Int) := by
      unfold my_min
      simp only [hfind]
      have hne : (j : Int) ≠ -1 := by omega
      rw [if_pos hne, hrank]
    have hcast : (j : Int) + (k : Int) * (b : Int) = ((j + k * b : Nat) : Int) := by
      push_cast
      rfl
    have hlt : j + k * b < n := by
      calc j + k * b < b + k * b := by omega
        _ = (k + 1) * b := by ring
        _ ≤ W * b := Nat.mul_le_mul_right _ hk
        _ = n := hn
    have hdiv : (j + k * b) / b = k := by
      rw [Nat.add_mul_div_right _ _ hb0, Nat.div_eq_of_lt hj, Nat.zero_add]
    have hmod : (j + k * b) % b = j := by
      rw [Nat.add_mul_mod_self_right, Nat.mod_eq_of_lt hj]
    rw [hg, hcast]
    refine ⟨rfl, Int.natCast_nonneg _, by exact_mod_cast hlt, ?_, ?_⟩
    · exact (ownership_test (j + k * b) b k).mpr hdiv.symm
    · rw [Int.tmod_eq_emod (Int.natCast_nonneg _) (Int.natCast_nonneg b)]
      have : ((j + k * b : Nat) : Int) % (b : Int) = (((j + k * b) % b : Nat) : Int) := by
        norm_cast
      rw [this, hmod]
  · intro v hv
    have hq : v / b < W := by
      rw [Nat.div_lt_iff_lt_mul hb0, hn]
      exact hv
    refine ⟨hq, Nat.mod_lt v hb0, fun k _ => ownership_test v b k, fun loc_known k _ => ?_⟩
    rw [settle_spec]
    by_cases hkv : k = v / b
    · rw [if_pos hkv, if_pos hkv.symm]
    · rw [if_neg hkv, if_neg (fun h => hkv h.symm)]

/-- Two blocks of width 2: process 1 with local index 1 forms global id 3,
and vertex 3 is owned by process 1 at local index 1. -/
theorem C12_ownership_mapping_witness :
    1 ≤ 2 ∧ 2 * 2 = 4 ∧
    my_min 2 (Proc.mk 1 [] [7, 5] [0, 0] [0, 0]) = (5, 3) ∧
    settle [0, 0] 1 2 3 = [0, 1] ∧ settle [0, 0] 0 2 3 = [0, 0] ∧
    ((∀ k : Nat, k < 2 → ∀ j : Nat, j < 2 → ∀ w : Proc, w.my_rank = k →
      Find_min_dist w.loc_dist w.loc_known 2 = (j : Int) →
        (my_min 2 w).2 = (j : Int) + (k : Int) * ((2 : Nat) : Int) ∧
        0 ≤ (my_min 2 w).2 ∧ (my_min 2 w).2 < ((4 : Nat) : Int) ∧
        Int.tdiv (my_min 2 w).2 ((2 : Nat) : Int) = (k : Int) ∧
        Int.tmod (my_min 2 w).2 ((2 : Nat) : Int) = (j : Int)) ∧
    (∀ v : Nat, v < 4 → v / 2 < 2 ∧ v % 2 < 2 ∧
      (∀ k : Nat, k < 2 → (Int.tdiv (v : Int) ((2 : Nat) : Int) = (k : Int) ↔ k = v / 2)) ∧
      ∀ (loc_known : List Int), ∀ k : Nat, k < 2 →
        settle loc_known k 2 (v : Int) =
          if k = v / 2 then loc_known.set (v % 2) 1 else loc_known)) :=
  ⟨by decide, by decide, by decide, by decide, by decide,
    C12_ownership_mapping 2 2 4 (by decide) (by decide)⟩


/-- The agreed `glbl_u` is -1 exactly when every process contributed the
sentinel pair. -/
theorem glbl_min_sentinel_iff (loc_n : Nat) (ws : List Proc) (hne : ws ≠ []) :
    (glbl_min loc_n ws).2 = -1 ↔ ∀ w ∈ ws, my_min loc_n w = (INFINITY, -1) := by
  have hne' : ws.map (my_min loc_n) ≠ [] := by
    intro h
    exact hne (List.map_eq_nil_iff.mp h)
  obtain ⟨hmem, hle⟩ := Allreduce_MINLOC_spec _ hne'
  obtain ⟨w0, hw0, hr⟩ := List.mem_map.mp hmem
  have real_ne : ∀ w : Proc, (my_min loc_n w).2 = -1 → my_min loc_n w = (INFINITY, -1) := by
    intro w h
    rcases my_min_spec loc_n w with ⟨hc, _⟩ | ⟨j, _, hc, _, _, _⟩
    · exact hc
    · rw [hc] at h
      simp only at h
      have h1 := Int.natCast_nonneg j
      have h2 := Int.natCast_nonneg w.my_rank
      have h3 := Int.natCast_nonneg loc_n
      nlinarith
  unfold glbl_min
  constructor
  · intro hg w hw
    have hg' : Allreduce_MINLOC (ws.map (my_min loc_n)) = (INFINITY, -1) := by
      rw [← hr] at hg ⊢
      exact real_ne w0 hg
    have hl := hle _ (List.mem_map.mpr ⟨w, hw, rfl⟩)
    rw [hg'] at hl
    rcases my_min_spec loc_n w with ⟨hc, _⟩ | ⟨j, _, hc, _, hd, _⟩
    · exact hc
    · rw [hc] at hl
      unfold lexLE at hl
      simp only at hl
      rcases hl with hl | ⟨hl, _⟩
      · exact absurd hl (not_lt.mpr (le_of_lt hd))
      · rw [hl] at hd
        exact absurd hd (lt_irrefl _)
  · intro hall
    rw [← hr, hall w0 hw0]

/-- C13 (global agreement): for every valid input and every round, every
process continues with the same pair `(dist_glbl_u, glbl_u)`, the result of
the `MINLOC` reduction; `glbl_u` is -1 exactly when every process
contributed the sentinel `(INFINITY, -1)`, and otherwise `glbl_u` is an
unknown vertex below `n` whose `dist` is the least among all unknown
vertices of all processes and which has the lowest global id among the
unknown vertices of that `dist`, and `dist_glbl_u` is its current `dist`. -/
theorem C13_global_agreement (p n : Nat) (mat : List Int) (h : Valid p n mat) (k : Nat) :
    (procs_after p n mat (k + 1) =
      if (glbl_min (n / p) (procs_after p n mat k)).2 = -1 then procs_after p n mat k
      else (procs_after p n mat k).map
        (Proc.update (n / p) (glbl_min (n / p) (procs_after p n mat k)))) ∧
    ((glbl_min (n / p) (procs_after p n mat k)).2 = -1 ↔
      ∀ w ∈ procs_after p n mat k, my_min (n / p) w = (INFINITY, -1)) ∧
    ((glbl_min (n / p) (procs_after p n mat k)).2 ≠ -1 →
      ∃ u < n, (glbl_min (n / p) (procs_after p n mat k)).2 = (u : Int) ∧
        (glbl_min (n / p) (procs_after p n mat k)).1 =
          (gather_dist (procs_after p n mat k)).getD u 0 ∧
        (global_known (procs_after p n mat k)).getD u 0 = 0 ∧
        ∀ v < n, (global_known (procs_after p n mat k)).getD v 0 = 0 →
          (gather_dist (procs_after p n mat k)).getD u 0 ≤
            (gather_dist (procs_after p n mat k)).getD v 0 ∧
          ((gather_dist (procs_after p n mat k)).getD v 0 =
            (gather_dist (procs_after p n mat k)).getD u 0 → u ≤ v)) := by
  have hp := h.2.1
  have hpn := h.2.2.1
  have hwf := WF_after p n mat k
  have hne : procs_after p n mat k ≠ [] := by
    intro he
    have := hwf.1
    rw [he] at this
    simp at this
    omega
  refine ⟨?_, glbl_min_sentinel_iff (n / p) _ hne, fun hg => ?_⟩
  · have hs : procs_after p n mat (k + 1) = Dijkstra_loop (n / p) 1 (procs_after p n mat k) :=
      Dijkstra_loop_succ (n / p) k _
    rw [hs, Dijkstra_loop_one]
  · obtain ⟨u, hc, hgv, _⟩ := round_settles hwf hp hpn hg
    refine ⟨u, hc.1, by rw [hgv], by rw [hgv]; rfl, hc.2.1, fun v hv hkv => ?_⟩
    have hm := hc.2.2.2 v hv hkv
    refine ⟨hm.1, fun heq => ?_⟩
    by_contra hlt
    have := hm.2 (not_le.mp hlt)
    have heq' : (view (procs_after p n mat k)).dist v = (view (procs_after p n mat k)).dist u :=
      heq
    rw [heq'] at this
    exact absurd this (lt_irrefl _)

/-- Scenario A on two processes, first round: the processes contribute
`(1, 1)` and `(4, 3)` and agree on `(1, 1)`. -/
theorem C13_global_agreement_witness :
    Valid 2 4 scenarioA ∧
    (procs_after 2 4 scenarioA 0).map (my_min (4 / 2)) = [(1, 1), (4, 3)] ∧
    glbl_min (4 / 2) (procs_after 2 4 scenarioA 0) = (1, 1) ∧
    ((procs_after 2 4 scenarioA (0 + 1) =
      if (glbl_min (4 / 2) (procs_after 2 4 scenarioA 0)).2 = -1 then procs_after 2 4 scenarioA 0
      else (procs_after 2 4 scenarioA 0).map
        (Proc.update (4 / 2) (glbl_min (4 / 2) (procs_after 2 4 scenarioA 0)))) ∧
    ((glbl_min (4 / 2) (procs_after 2 4 scenarioA 0)).2 = -1 ↔
      ∀ w ∈ procs_after 2 4 scenarioA 0, my_min (4 / 2) w = (INFINITY, -1)) ∧
    ((glbl_min (4 / 2) (procs_after 2 4 scenarioA 0)).2 ≠ -1 →
      ∃ u : Nat, u < 4 ∧ (glbl_min (4 / 2) (procs_after 2 4 scenarioA 0)).2 = (u : Int) ∧
        (glbl_min (4 / 2) (procs_after 2 4 scenarioA 0)).1 =
          (gather_dist (procs_after 2 4 scenarioA 0)).getD u 0 ∧
        (global_known (procs_after 2 4 scenarioA 0)).getD u 0 = 0 ∧
        ∀ v : Nat, v < 4 → (global_known (procs_after 2 4 scenarioA 0)).getD v 0 = 0 →
          (gather_dist (procs_after 2 4 scenarioA 0)).getD u 0 ≤
            (gather_dist (procs_after 2 4 scenarioA 0)).getD v 0 ∧
          ((gather_dist (procs_after 2 4 scenarioA 0)).getD v 0 =
            (gather_dist (procs_after 2 4 scenarioA 0)).getD u 0 → u ≤ v))) :=
  ⟨by decide, by decide, by decide, C13_global_agreement 2 4 scenarioA (by decide) 0⟩


/-- The global id of local vertex `j` of process `r` lies below `n`. -/
theorem block_index_lt {p n : Nat} (hpn : p ∣ n) {r j : Nat} (hr : r < p) (hj : j < n / p) :
    r * (n / p) + j < n := by
  have hn : p * (n / p) = n := Nat.mul_div_cancel' hpn
  calc r * (n / p) + j < r * (n / p) + n / p := by omega
    _ = (r + 1) * (n / p) := by ring
    _ ≤ p * (n / p) := Nat.mul_le_mul_right _ hr
    _ = n := hn

theorem getElem?_lt_of_WF {p n : Nat} {mat : List Int} {ws : List Proc} (hwf : WF p n mat ws)
    {r : Nat} {w : Proc} (hw : ws[r]? = some w) : r < p := by
  have := (List.getElem?_eq_some_iff.mp hw).1
  rw [hwf.1] at this
  exact this

/-- The block entry read in the relaxation step is the weight of the edge
from `u` to the global vertex. -/
theorem block_entry {p n : Nat} {mat : List Int} {ws : List Proc} (hwf : WF p n mat ws)
    {r : Nat} {w : Proc} (hw : ws[r]? = some w) {u j : Nat} (hu : u < n) (hj : j < n / p) :
    w.loc_mat.getD ((u : Int) * ((n / p : Nat) : Int) + (j : Int)).toNat 0 =
      weight mat n u (r * (n / p) + j) := by
  have hidx : ((u : Int) * ((n / p : Nat) : Int) + (j : Int)).toNat = u * (n / p) + j := by
    have : (u : Int) * ((n / p : Nat) : Int) + (j : Int) = ((u * (n / p) + j : Nat) : Int) := by
      rw [Nat.cast_add, Nat.cast_mul]
    rw [this, Int.toNat_natCast]
  rw [hidx, (hwf.2 r w hw).2.1, getD_Read_matrix mat n (n / p) r u j hu hj]

/-- C14: for every valid input, every round with agreed winner `glbl_u` and
every local vertex `loc_v` of a process whose block entry
`loc_mat[glbl_u * loc_n + loc_v]` is `INFINITY`, the sum `new_dist` is not
below `loc_dist[loc_v]`, and the round leaves `loc_dist[loc_v]` and
`loc_pred[loc_v]` unchanged. -/
theorem C14_missing_edge_no_update (p n : Nat) (mat : List Int) (h : Valid p n mat) (k : Nat)
    (hg : (glbl_min (n / p) (procs_after p n mat k)).2 ≠ -1) (r : Nat) (w : Proc)
    (hw : (procs_after p n mat k)[r]? = some w) (j : Nat) (hj : j < n / p)
    (hedge : w.loc_mat.getD ((glbl_min (n / p) (procs_after p n mat k)).2 *
      ((n / p : Nat) : Int) + (j : Int)).toNat 0 = INFINITY) :
    ¬ (new_dist w.loc_mat (n / p) (glbl_min (n / p) (procs_after p n mat k)).1
        (glbl_min (n / p) (procs_after p n mat k)).2 j < w.loc_dist.getD j 0) ∧
    ∃ w', (procs_after p n mat (k + 1))[r]? = some w' ∧
      w'.loc_dist.getD j 0 = w.loc_dist.getD j 0 ∧
      w'.loc_pred.getD j 0 = w.loc_pred.getD j 0 := by
  have hp := h.2.1
  have hpn := h.2.2.1
  have hwf := WF_after p n mat k
  have hinv := DistInv_after h k
  rcases round_cases mat hp hpn k with ⟨hb, _⟩ | ⟨_, he, u, hc, hgv, hupd⟩
  · exact absurd hb hg
  · have hr := getElem?_lt_of_WF hwf hw
    have hv := block_index_lt hpn hr hj
    obtain ⟨vd, vp, _⟩ := view_block hwf r w hw j hj
    have hw' : (procs_after p n mat (k + 1))[r]? =
        some (Proc.update (n / p) (glbl_min (n / p) (procs_after p n mat k)) w) := by
      rw [he, List.getElem?_map, hw]
      rfl
    obtain ⟨vd', vp', _⟩ := view_block (WF_after p n mat (k + 1)) r _ hw' j hj
    have hg1 : (glbl_min (n / p) (procs_after p n mat k)).1 =
        (view (procs_after p n mat k)).dist u := by rw [hgv]
    have hg2 : (glbl_min (n / p) (procs_after p n mat k)).2 = (u : Int) := by rw [hgv]
    rw [hg2, block_entry hwf hw hc.1 hj] at hedge
    have hnd : new_dist w.loc_mat (n / p) (glbl_min (n / p) (procs_after p n mat k)).1
        (glbl_min (n / p) (procs_after p n mat k)).2 j =
        (view (procs_after p n mat k)).dist u + INFINITY := by
      unfold new_dist
      rw [hg1, hg2, block_entry hwf hw hc.1 hj, new_dist_exact (Valid_weights h) hinv hc.1 hv,
        hedge]
    have hnot : ¬ ((view (procs_after p n mat k)).dist u + INFINITY <
        (view (procs_after p n mat k)).dist (r * (n / p) + j)) := by
      have h1 := (hinv.bounds u hc.1).1
      have h2 := (hinv.bounds _ hv).2
      intro hlt
      linarith
    obtain ⟨_, u2, u3⟩ := hupd _ hv
    rw [new_dist_exact (Valid_weights h) hinv hc.1 hv, hedge, if_neg (fun hh => hnot hh.2)] at u2 u3
    refine ⟨?_, _, hw', ?_, ?_⟩
    · rw [hnd, ← vd]
      exact hnot
    · rw [← vd', ← vd]
      exact u2
    · rw [← vp', ← vp]
      exact u3

/-- Scenario A on two processes, first round (winner 1): local vertex 1 of
process 1 is global vertex 3, and the edge `1 → 3` is missing. -/
theorem C14_missing_edge_no_update_witness :
    Valid 2 4 scenarioA ∧ (glbl_min (4 / 2) (procs_after 2 4 scenarioA 0)).2 ≠ -1 ∧
    (procs_after 2 4 scenarioA 0)[1]? = some (Proc.start (4 / 2)
      (Read_matrix scenarioA 4 (4 / 2) 1) 1) ∧
    1 < 4 / 2 ∧
    (Proc.start (4 / 2) (Read_matrix scenarioA 4 (4 / 2) 1) 1).loc_mat.getD
      ((glbl_min (4 / 2) (procs_after 2 4 scenarioA 0)).2 * ((4 / 2 : Nat) : Int) +
        ((1 : Nat) : Int)).toNat 0 = INFINITY ∧
    (¬ (new_dist (Proc.start (4 / 2) (Read_matrix scenarioA 4 (4 / 2) 1) 1).loc_mat (4 / 2)
        (glbl_min (4 / 2) (procs_after 2 4 scenarioA 0)).1
        (glbl_min (4 / 2) (procs_after 2 4 scenarioA 0)).2 1 <
        (Proc.start (4 / 2) (Read_matrix scenarioA 4 (4 / 2) 1) 1).loc_dist.getD 1 0) ∧
    ∃ w', (procs_after 2 4 scenarioA (0 + 1))[1]? = some w' ∧
      w'.loc_dist.getD 1 0 =
        (Proc.start (4 / 2) (Read_matrix scenarioA 4 (4 / 2) 1) 1).loc_dist.getD 1 0 ∧
      w'.loc_pred.getD 1 0 =
        (Proc.start (4 / 2) (Read_matrix scenarioA 4 (4 / 2) 1) 1).loc_pred.getD 1 0) :=
  ⟨by decide, by decide, by decide, by decide, by decide,
    C14_missing_edge_no_update 2 4 scenarioA (by decide) 0 (by decide) 1 _ (by decide) 1
      (by decide) (by decide)⟩


theorem length_Read_matrix (mat : List Int) (n loc_n my_rank : Nat) :
    (Read_matrix mat n loc_n my_rank).length = n * loc_n := by
  unfold Read_matrix
  rw [List.length_map, List.length_range]

/-- No path to a vertex is shorter than its final distance. -/
theorem final_le_path {p n : Nat} {mat : List Int} (h : Valid p n mat) (v : Nat) (hv : v < n)
    (d : Int) (hd : PathTo mat n v d) : (view (Dijkstra p n mat)).dist v ≤ d := by
  have hinv : DistInv n mat (view (Dijkstra p n mat)) := DistInv_after h (n - 1)
  by_cases hk : (view (Dijkstra p n mat)).known v = 0
  · rw [final_unknown h v hv hk]
    exact chosen_le_path h.1 (Valid_weights h) hinv
      (fun y hy hky => le_of_eq (final_unknown h y hy hky).symm) v d hd hk
  · exact hinv.known_le v hv hk d hd

/-- C16 (exact output): for every valid input the final `dist[v]` of every
vertex `v` is `min(d(v), INFINITY)`, where `d(v)` is the length of a shortest
path from 0 to `v` along non-sentinel edges: `dist[v]` is at most
`INFINITY` and at most the length of every path to `v`, and it is `INFINITY`
or the length of some path to `v`.  In particular, when every path to `v`
has length `INFINITY` or more (also when there is none), `dist[v]` ends as
`INFINITY` and `v` is not known after any round. -/
theorem C16_exact_output (p n : Nat) (mat : List Int) (h : Valid p n mat) (v : Nat)
    (hv : v < n) :
    (global_dist p n mat).getD v 0 ≤ INFINITY ∧
    (∀ d, PathTo mat n v d → (global_dist p n mat).getD v 0 ≤ d) ∧
    ((global_dist p n mat).getD v 0 = INFINITY ∨
      PathTo mat n v ((global_dist p n mat).getD v 0)) ∧
    ((∀ d, PathTo mat n v d → INFINITY ≤ d) →
      (global_dist p n mat).getD v 0 = INFINITY ∧
      ∀ k, (global_known (procs_after p n mat k)).getD v 0 = 0) := by
  rw [global_dist_eq mat h.2.2.1]
  have hinv : DistInv n mat (view (Dijkstra p n mat)) := DistInv_after h (n - 1)
  have hk : (∀ d, PathTo mat n v d → INFINITY ≤ d) →
      ∀ k, (view (procs_after p n mat k)).known v = 0 := by
    intro hall k
    by_contra hne
    have hi := DistInv_after h k
    have h1 := hi.known_lt v hv hne
    exact absurd h1 (not_lt.mpr (hall _ (hi.attained v hv h1)))
  refine ⟨(hinv.bounds v hv).2, fun d hd => final_le_path h v hv d hd, ?_, fun hall => ?_⟩
  · by_cases hlt : (view (Dijkstra p n mat)).dist v < INFINITY
    · exact Or.inr (hinv.attained v hv hlt)
    · exact Or.inl (le_antisymm (hinv.bounds v hv).2 (not_lt.mp hlt))
  · exact ⟨final_unknown h v hv (hk hall (n - 1)), hk hall⟩

/-- The matrix `longChain`: vertex 2 has its only path at length 1999998 and
ends with `dist = INFINITY`. -/
theorem C16_exact_output_witness :
    Valid 1 3 longChain ∧ 2 < 3 ∧ global_dist 1 3 longChain = [0, 999999, 1000000] ∧
    ((global_dist 1 3 longChain).getD 2 0 ≤ INFINITY ∧
    (∀ d, PathTo longChain 3 2 d → (global_dist 1 3 longChain).getD 2 0 ≤ d) ∧
    ((global_dist 1 3 longChain).getD 2 0 = INFINITY ∨
      PathTo longChain 3 2 ((global_dist 1 3 longChain).getD 2 0)) ∧
    ((∀ d, PathTo longChain 3 2 d → INFINITY ≤ d) →
      (global_dist 1 3 longChain).getD 2 0 = INFINITY ∧
      ∀ k, (global_known (procs_after 1 3 longChain k)).getD 2 0 = 0)) :=
  ⟨by decide, by decide, by decide, C16_exact_output 1 3 longChain (by decide) 2 (by decide)⟩


/-! ### Distances along the predecessor links -/

theorem PredDist_init {n : Nat} {mat : List Int} {s : View} (hn : 0 < n)
    (hval : ValidWeights n mat)
    (hs : ∀ v < n, s.dist v = weight mat n 0 v ∧ s.pred v = 0 ∧
      s.known v = if v = 0 then 1 else 0) : PredDist n mat s := by
  intro v hv
  rw [(hs v hv).2.1, Int.toNat_zero, (hs 0 hn).1, hval.2 0 hn, zero_add]
  exact (hs v hv).1

theorem PredDist_step {n : Nat} {mat : List Int} {s t : View} {u : Nat}
    (hval : ValidWeights n mat) (hinv : DistInv n mat s) (hpi : PredInv n s)
    (hpd : PredDist n mat s) (hc : Chosen n s u) (hupd : Upd n mat s u t) :
    PredDist n mat t := by
  have hfix : ∀ x < n, t.known x ≠ 0 → t.dist x = s.dist x := by
    intro x hx hk
    rw [(hupd x hx).2.1, if_neg (fun h => hk h.1)]
  have hmono : ∀ x < n, s.known x ≠ 0 → t.known x ≠ 0 := by
    intro x hx hk
    rw [(hupd x hx).1]
    split_ifs
    · decide
    · exact hk
  have hku : t.known u ≠ 0 := by
    rw [(hupd u hc.1).1, if_pos rfl]
    decide
  intro v hv
  obtain ⟨_, h2, h3⟩ := hupd v hv
  rw [new_dist_exact hval hinv hc.1 hv] at h2 h3
  by_cases hcond : t.known v = 0 ∧ s.dist u + weight mat n u v < s.dist v
  · rw [if_pos hcond] at h2 h3
    rw [h2, h3, Int.toNat_natCast, hfix u hc.1 hku]
  · rw [if_neg hcond] at h2 h3
    obtain ⟨_, q2, q3⟩ := hpi.pred_known v hv
    rw [h2, h3, hfix _ q2 (hmono _ q2 q3)]
    exact hpd v hv

/-- The three invariants hold together after every round. -/
theorem PredDist_after {p n : Nat} {mat : List Int} (h : Valid p n mat) (k : Nat) :
    PredDist n mat (view (procs_after p n mat k)) := by
  have hn : 0 < n := h.1
  have hP := Dijkstra_loop_induction (n / p)
    (fun ws => WF p n mat ws ∧ DistInv n mat (view ws) ∧ PredInv n (view ws) ∧
      PredDist n mat (view ws))
    (fun ws hws hg => by
      obtain ⟨u, hc, _, hupd⟩ := round_settles hws.1 h.2.1 h.2.2.1 hg
      exact ⟨WF_update hws.1 _, DistInv_step hn (Valid_weights h) hws.2.1 hc hupd,
        PredInv_step hn hws.2.2.1 hc.1 hc.2.1 hupd,
        PredDist_step (Valid_weights h) hws.2.1 hws.2.2.1 hws.2.2.2 hc hupd⟩)
    k (procs_start p n mat)
    ⟨WF_start p n mat, DistInv_init hn (Valid_weights h) (fun v hv => init_spec h.2.2.1 v hv),
      PredInv_init hn (fun v hv => ⟨(init_spec h.2.2.1 v hv).2.1, (init_spec h.2.2.1 v hv).2.2⟩),
      PredDist_init hn (Valid_weights h) (fun v hv => init_spec h.2.2.1 v hv)⟩
  exact hP.2.2.2

/-- One step of the walk of `Print_paths`, given the rest of the walk. -/
theorem walk_sum_cons {n : Nat} {mat : List Int} {s : View} (gp : List Int)
    (hpd : PredDist n mat s) (w : Int) (hw0 : w ≠ 0)
    (hwn : w.toNat < n) (f : Nat) (path : List Int)
    (hrest : ∃ l, Print_paths_walk gp f (gp.getD w.toNat 0) (path ++ [w]) =
        some ((path ++ [w]) ++ l) ∧
      (l.map Int.toNat ++ [0]).head? = some (s.pred w.toNat).toNat ∧
      routeLen mat n (l.map Int.toNat ++ [0]) = s.dist (s.pred w.toNat).toNat) :
    ∃ l, Print_paths_walk gp (f + 1) w path = some (path ++ l) ∧
      (l.map Int.toNat ++ [0]).head? = some w.toNat ∧
      routeLen mat n (l.map Int.toNat ++ [0]) = s.dist w.toNat := by
  obtain ⟨l, hl, hhead, hsum⟩ := hrest
  refine ⟨w :: l, ?_, rfl, ?_⟩
  · rw [Print_paths_walk, if_pos hw0, hl, List.append_assoc]
    rfl
  · rw [List.map_cons, List.cons_append]
    cases hrl : l.map Int.toNat ++ [0] with
    | nil => rw [hrl] at hhead; simp at hhead
    | cons x rest =>
      rw [hrl] at hhead hsum
      simp only [List.head?_cons, Option.some.injEq] at hhead
      subst hhead
      simp only [routeLen]
      rw [hsum, add_comm]
      exact (hpd _ hwn).symm

/-- Along a walk through known vertices the edge weights sum to the distance
of the vertex the walk starts from. -/
theorem walk_sum_of_KReaches {n : Nat} {mat : List Int} {s : View} (gp : List Int)
    (hs : ∀ v < n, s.pred v = gp.getD v 0) (hpd : PredDist n mat s) (hd0 : s.dist 0 = 0) :
    ∀ m w, KReaches n s m w → ∀ fuel, m ≤ fuel → ∀ path,
      ∃ l, Print_paths_walk gp fuel w path = some (path ++ l) ∧
        (l.map Int.toNat ++ [0]).head? = some w.toNat ∧
        routeLen mat n (l.map Int.toNat ++ [0]) = s.dist w.toNat := by
  have hstop : ∀ fuel path, ∃ l, Print_paths_walk gp fuel 0 path = some (path ++ l) ∧
      (l.map Int.toNat ++ [0]).head? = some (0 : Int).toNat ∧
      routeLen mat n (l.map Int.toNat ++ [0]) = s.dist (0 : Int).toNat := by
    intro fuel path
    refine ⟨[], ?_, rfl, ?_⟩
    · rw [List.append_nil]
      cases fuel <;> simp [Print_paths_walk]
    · rw [Int.toNat_zero, hd0]
      rfl
  intro m
  induction m with
  | zero =>
    intro w h fuel _ path
    have hw : w = 0 := h
    subst hw
    exact hstop fuel path
  | succ m ih =>
    intro w h fuel hf path
    by_cases hw : w = 0
    · subst hw
      exact hstop fuel path
    · rcases h with h | ⟨_, h2, _, h4⟩
      · exact absurd h hw
      · obtain ⟨f, rfl⟩ : ∃ f, fuel = f + 1 := ⟨fuel - 1, by omega⟩
        have h4' := h4
        rw [hs _ h2] at h4'
        have hrest := ih _ h4' f (by omega) (path ++ [w])
        refine walk_sum_cons gp hpd w hw h2 f path ?_
        obtain ⟨l, a1, a2, a3⟩ := hrest
        exact ⟨l, a1, by rw [hs _ h2]; exact a2, by rw [hs _ h2]; exact a3⟩


/-- The walk of `Print_paths` from `v` ends, and the weights of the edges it
follows sum to the final `dist[v]`. -/
theorem walk_sum {p n : Nat} {mat : List Int} (h : Valid p n mat) (v : Nat) (hv1 : 1 ≤ v)
    (hv : v < n) (fuel : Nat) (hf : n - 1 ≤ fuel) :
    ∃ path, Print_paths_walk (global_pred p n mat) fuel (v : Int) [] = some path ∧
      routeLen mat n (path.map Int.toNat ++ [0]) = (view (Dijkstra p n mat)).dist v := by
  have hp := h.2.1
  have hpn := h.2.2.1
  have hinv : PredInv n (view (Dijkstra p n mat)) := PredInv_after mat h.1 hp hpn (n - 1)
  have hpd : PredDist n mat (view (Dijkstra p n mat)) := PredDist_after h (n - 1)
  have hd0 : (view (Dijkstra p n mat)).dist 0 = 0 := (DistInv_after h (n - 1)).src_dist
  have hs : ∀ x < n, (view (Dijkstra p n mat)).pred x = (global_pred p n mat).getD x 0 := by
    intro x _
    rw [global_pred_eq mat hpn]
    rfl
  have hcnt := knownCount_le n (view (Dijkstra p n mat))
  have hvn : ((v : Int)).toNat = v := Int.toNat_natCast v
  by_cases hk : (view (Dijkstra p n mat)).known v ≠ 0
  · obtain ⟨l, hl, _, hsum⟩ := walk_sum_of_KReaches (global_pred p n mat) hs hpd hd0 _ _
      (hinv.walk v hv hk) fuel (by have := hcnt; omega) []
    rw [List.nil_append] at hl
    rw [hvn] at hsum
    exact ⟨l, hl, hsum⟩
  · have hk0 : (view (Dijkstra p n mat)).known v = 0 := not_not.mp hk
    have hlt := knownCount_unknown hv hk0
    obtain ⟨h1, h2, h3⟩ := hinv.pred_known v hv
    have hw := hinv.walk _ h2 h3
    rw [Int.toNat_of_nonneg h1] at hw
    obtain ⟨f, rfl⟩ : ∃ f, fuel = f + 1 := ⟨fuel - 1, by omega⟩
    have hrest := walk_sum_of_KReaches (global_pred p n mat) hs hpd hd0 _ _ hw f (by omega)
      ([] ++ [(v : Int)])
    have hv0 : (v : Int) ≠ 0 := by omega
    have hstep := walk_sum_cons (global_pred p n mat) hpd (v : Int) hv0 (by rw [hvn]; exact hv)
      f [] (by
        rw [hvn, ← hs v hv]
        exact hrest)
    obtain ⟨l, hl, _, hsum⟩ := hstep
    rw [List.nil_append] at hl
    rw [hvn] at hsum
    exact ⟨l, hl, hsum⟩

/-- C17 (predecessor consistency): for every valid input, after
`Dijkstra_Init` and after every round, every vertex `v ≠ 0` has as `pred[v]`
a known vertex below `n` with `dist[v] = dist[pred[v]] + W[pred[v]][v]` over
the concatenated arrays; and in the final output the weights of the edges
along the path that `Print_paths` reconstructs from `pred` sum to `dist[v]`. -/
theorem C17_pred_consistency (p n : Nat) (mat : List Int) (h : Valid p n mat) :
    (∀ k, ∀ v < n, v ≠ 0 →
      0 ≤ (gather_pred (procs_after p n mat k)).getD v 0 ∧
      ((gather_pred (procs_after p n mat k)).getD v 0).toNat < n ∧
      (global_known (procs_after p n mat k)).getD
        ((gather_pred (procs_after p n mat k)).getD v 0).toNat 0 ≠ 0 ∧
      (gather_dist (procs_after p n mat k)).getD v 0 =
        (gather_dist (procs_after p n mat k)).getD
          ((gather_pred (procs_after p n mat k)).getD v 0).toNat 0 +
        weight mat n ((gather_pred (procs_after p n mat k)).getD v 0).toNat v) ∧
    (∀ v, 1 ≤ v → v < n → ∀ fuel, n - 1 ≤ fuel →
      ∃ path, Print_paths_walk (global_pred p n mat) fuel (v : Int) [] = some path ∧
        routeLen mat n (path.map Int.toNat ++ [0]) = (global_dist p n mat).getD v 0) := by
  constructor
  · intro k v hv _
    obtain ⟨h1, h2, h3⟩ := (PredInv_after mat h.1 h.2.1 h.2.2.1 k).pred_known v hv
    exact ⟨h1, h2, h3, PredDist_after h k v hv⟩
  · intro v hv1 hv fuel hf
    rw [global_dist_eq mat h.2.2.1]
    exact walk_sum h v hv1 hv fuel hf

/-- Scenario A on two processes: the walk from vertex 2 records `2, 1`, and
the weights along `0 → 1 → 2` sum to `dist[2] = 3`. -/
theorem C17_pred_consistency_witness :
    Valid 2 4 scenarioA ∧
    Print_paths_walk (global_pred 2 4 scenarioA) 3 2 [] = some [2, 1] ∧
    routeLen scenarioA 4 [2, 1, 0] = 3 ∧
    ((∀ k, ∀ v < 4, v ≠ 0 →
      0 ≤ (gather_pred (procs_after 2 4 scenarioA k)).getD v 0 ∧
      ((gather_pred (procs_after 2 4 scenarioA k)).getD v 0).toNat < 4 ∧
      (global_known (procs_after 2 4 scenarioA k)).getD
        ((gather_pred (procs_after 2 4 scenarioA k)).getD v 0).toNat 0 ≠ 0 ∧
      (gather_dist (procs_after 2 4 scenarioA k)).getD v 0 =
        (gather_dist (procs_after 2 4 scenarioA k)).getD
          ((gather_pred (procs_after 2 4 scenarioA k)).getD v 0).toNat 0 +
        weight scenarioA 4 ((gather_pred (procs_after 2 4 scenarioA k)).getD v 0).toNat v) ∧
    (∀ v : Nat, 1 ≤ v → v < 4 → ∀ fuel, 4 - 1 ≤ fuel →
      ∃ path, Print_paths_walk (global_pred 2 4 scenarioA) fuel (v : Int) [] = some path ∧
        routeLen scenarioA 4 (path.map Int.toNat ++ [0]) =
          (global_dist 2 4 scenarioA).getD v 0)) :=
  ⟨by decide, by decide, by decide, C17_pred_consistency 2 4 scenarioA (by decide)⟩


/-! ### The matrix `farEdge` -/

theorem farEdge_weight (n u v : Nat) (hu : u < n) (hv : v < n) :
    weight (farEdge n) n u v =
      if u = v then 0 else if u = 0 ∧ v = n - 1 then 1 else 1000000 := by
  unfold weight farEdge
  have hlt : u * n + v < n * n := by
    calc u * n + v < u * n + n := by omega
      _ = (u + 1) * n := by ring
      _ ≤ n * n := Nat.mul_le_mul_right _ hu
  have hn : 0 < n := by omega
  have e1 : (u * n + v) / n = u := by
    rw [Nat.add_comm, Nat.add_mul_div_right _ _ hn, Nat.div_eq_of_lt hv, Nat.zero_add]
  have e2 : (u * n + v) % n = v := by
    rw [Nat.add_comm, Nat.add_mul_mod_self_right, Nat.mod_eq_of_lt hv]
  rw [List.getD_eq_getElem?_getD, List.getElem?_map, List.getElem?_range hlt]
  simp only [Option.map_some', Option.getD_some]
  rw [e1, e2]
  by_cases huv : u = v
  · rw [if_pos huv, if_pos huv]
  · rw [if_neg huv, if_neg huv]
    by_cases h0 : u = 0
    · subst h0
      rw [Nat.zero_mul, Nat.zero_add]
      by_cases hvn : v = n - 1
      · rw [if_pos hvn, if_pos ⟨rfl, hvn⟩]
      · rw [if_neg hvn, if_neg (fun h => hvn h.2)]
    · have hge : n ≤ u * n := Nat.le_mul_of_pos_left n (Nat.pos_of_ne_zero h0)
      rw [if_neg (by omega), if_neg (fun h => h0 h.1)]

theorem farEdge_valid (n : Nat) (hn : 1 ≤ n) : Valid 1 n (farEdge n) := by
  refine ⟨hn, le_refl 1, one_dvd n, ?_, ?_, ?_⟩
  · unfold farEdge
    rw [List.length_map, List.length_range]
  · intro u hu v hv
    rw [farEdge_weight n u v hu hv, INFINITY_val]
    split_ifs <;> decide
  · intro u hu
    rw [farEdge_weight n u u hu hu, if_pos rfl]

/-- The first round on `farEdge n`, one process: the agreed pair is
`(1, n - 1)`, and every vertex but 0 is still unknown. -/
theorem farEdge_first_round (n : Nat) (hn : 2 ≤ n) :
    glbl_min (n / 1) (procs_after 1 n (farEdge n) 0) = (1, ((n - 1 : Nat) : Int)) ∧
    ∀ v, 1 ≤ v → v < n → (global_known (procs_after 1 n (farEdge n) 0)).getD v 0 = 0 := by
  have he : procs_after 1 n (farEdge n) 0 = procs_start 1 n (farEdge n) := rfl
  rw [he]
  have hinit := fun v hv => @init_spec 1 n (farEdge n) (one_dvd n) v hv
  have hknown : ∀ v, 1 ≤ v → v < n →
      (view (procs_start 1 n (farEdge n))).known v = 0 := by
    intro v hv1 hv
    rw [(hinit v hv).2.2, if_neg (by omega)]
  have hdist : ∀ v, 1 ≤ v → v < n → (view (procs_start 1 n (farEdge n))).dist v =
      if v = n - 1 then 1 else 1000000 := by
    intro v hv1 hv
    rw [(hinit v hv).1, farEdge_weight n 0 v (by omega) hv, if_neg (by omega)]
    by_cases hvn : v = n - 1
    · rw [if_pos ⟨rfl, hvn⟩, if_pos hvn]
    · rw [if_neg (fun h => hvn h.2), if_neg hvn]
  refine ⟨?_, hknown⟩
  rcases sel_spec (WF_start 1 n (farEdge n)) (le_refl 1) (one_dvd n) with
    ⟨_, hall⟩ | ⟨u, hu, hg, hk, hd, _⟩
  · have h1 := hall (n - 1) (by omega) (hknown (n - 1) (by omega) (by omega))
    rw [hdist (n - 1) (by omega) (by omega), if_pos rfl, INFINITY_val] at h1
    exact absurd h1 (by decide)
  · have hu1 : 1 ≤ u := by
      rcases Nat.eq_zero_or_pos u with h0 | h0
      · rw [h0, (hinit 0 (by omega)).2.2, if_pos rfl] at hk
        exact absurd hk (by decide)
      · exact h0
    have hun : u = n - 1 := by
      by_contra hne
      rw [hdist u hu1 hu, if_neg hne, INFINITY_val] at hd
      exact absurd hd (by decide)
    rw [hg, hdist u hu1 hu, if_pos hun, hun]


/-! ### Index arithmetic in 32-bit `int` -/

/-- When the block size `n * loc_n` fits an `int`, the index expression of
line 302 does not overflow for a vertex `u < n` and a local vertex
`loc_v < loc_n`, and lies within the block. -/
theorem loc_mat_index_exact (n loc_n u loc_v : Nat) (hu : u < n) (hv : loc_v < loc_n)
    (hfit : n * loc_n ≤ 2147483647) :
    loc_mat_index (u : Int) loc_n loc_v = (u : Int) * (loc_n : Int) + (loc_v : Int) ∧
    0 ≤ loc_mat_index (u : Int) loc_n loc_v ∧
    loc_mat_index (u : Int) loc_n loc_v < ((n * loc_n : Nat) : Int) := by
  have hlt : u * loc_n + loc_v < n * loc_n := by
    calc u * loc_n + loc_v < u * loc_n + loc_n := by omega
      _ = (u + 1) * loc_n := by ring
      _ ≤ n * loc_n := Nat.mul_le_mul_right _ hu
  have hprod : (u : Int) * (loc_n : Int) = ((u * loc_n : Nat) : Int) := by
    rw [Nat.cast_mul]
  have hsum : ((u * loc_n : Nat) : Int) + (loc_v : Int) = ((u * loc_n + loc_v : Nat) : Int) := by
    rw [Nat.cast_add]
  have hidx : loc_mat_index (u : Int) loc_n loc_v = ((u * loc_n + loc_v : Nat) : Int) := by
    unfold loc_mat_index
    rw [hprod, wrap32_eq _ (Int.natCast_nonneg _) (by omega), hsum,
      wrap32_eq _ (Int.natCast_nonneg _) (by omega)]
  rw [hidx, hprod, hsum]
  exact ⟨rfl, Int.natCast_nonneg _, by exact_mod_cast hlt⟩

/-- C15, as stated, fails: on the valid input `farEdge 46341`, one process,
the first round agrees on `glbl_u = 46340`; local vertex 46339 is unknown, so
the relaxation step forms `glbl_u * loc_n + loc_v` for it, and in 32-bit
`int` that index is negative. -/
theorem C15_counterexample :
    Valid 1 46341 (farEdge 46341) ∧
    glbl_min (46341 / 1) (procs_after 1 46341 (farEdge 46341) 0) = (1, 46340) ∧
    (global_known (procs_after 1 46341 (farEdge 46341) 0)).getD 46339 0 = 0 ∧
    46339 < 46341 / 1 ∧
    loc_mat_index 46340 (46341 / 1) 46339 = -2147479017 :=
  ⟨farEdge_valid 46341 (by decide), (farEdge_first_round 46341 (by decide)).1,
    (farEdge_first_round 46341 (by decide)).2 46339 (by decide) (by decide), by decide,
    by decide⟩


/-- C15 (amended): for every valid input whose block size `n * loc_n` fits a
32-bit `int` (at most 2147483647), `loc_n = n / p ≥ 1`, `n` fits an `int`, and
in every round each process holds arrays `loc_dist`, `loc_pred`, `loc_known`
of `loc_n` entries and a block `loc_mat` of `n * loc_n` entries; the `loc_u`
returned by `Find_min_dist` is -1 (and then not used as an index) or lies in
`[0, loc_n)`; the agreed `glbl_u` is either -1, in which case the loop is left
with nothing changed, or lies in `[0, n)`, and then `glbl_u % loc_n` is in
`[0, loc_n)` and the index `glbl_u * loc_n + loc_v`, evaluated in 32-bit
`int`, does not overflow and is in `[0, n * loc_n)` for every
`loc_v < loc_n`. -/
theorem C15_index_safety (p n : Nat) (mat : List Int) (h : Valid p n mat)
    (hfit : n * (n / p) ≤ 2147483647) (k : Nat) :
    1 ≤ n / p ∧ (n : Int) ≤ 2147483647 ∧
    (∀ (r : Nat) (w : Proc), (procs_after p n mat k)[r]? = some w →
      w.loc_dist.length = n / p ∧ w.loc_pred.length = n / p ∧ w.loc_known.length = n / p ∧
      w.loc_mat.length = n * (n / p) ∧
      (Find_min_dist w.loc_dist w.loc_known (n / p) = -1 ∨
        (0 ≤ Find_min_dist w.loc_dist w.loc_known (n / p) ∧
          Find_min_dist w.loc_dist w.loc_known (n / p) < ((n / p : Nat) : Int)))) ∧
    (((glbl_min (n / p) (procs_after p n mat k)).2 = -1 ∧
        procs_after p n mat (k + 1) = procs_after p n mat k) ∨
      (0 ≤ (glbl_min (n / p) (procs_after p n mat k)).2 ∧
        (glbl_min (n / p) (procs_after p n mat k)).2 < (n : Int) ∧
        0 ≤ Int.tmod (glbl_min (n / p) (procs_after p n mat k)).2 ((n / p : Nat) : Int) ∧
        Int.tmod (glbl_min (n / p) (procs_after p n mat k)).2 ((n / p : Nat) : Int) <
          ((n / p : Nat) : Int) ∧
        ∀ loc_v < n / p,
          loc_mat_index (glbl_min (n / p) (procs_after p n mat k)).2 (n / p) loc_v =
            (glbl_min (n / p) (procs_after p n mat k)).2 * ((n / p : Nat) : Int) +
              (loc_v : Int) ∧
          0 ≤ loc_mat_index (glbl_min (n / p) (procs_after p n mat k)).2 (n / p) loc_v ∧
          loc_mat_index (glbl_min (n / p) (procs_after p n mat k)).2 (n / p) loc_v <
            ((n * (n / p) : Nat) : Int))) := by
  have hp := h.2.1
  have hpn := h.2.2.1
  have hwf := WF_after p n mat k
  have hb : 0 < n / p := (view_at hwf hpn 0 h.1).1
  have hnfit : (n : Int) ≤ 2147483647 := by
    have h1 : n * 1 ≤ n * (n / p) := Nat.mul_le_mul_left n hb
    have h2 : n ≤ 2147483647 := by omega
    exact_mod_cast h2
  refine ⟨hb, hnfit, ?_, ?_⟩
  · intro r w hw
    obtain ⟨_, h2, h3, h4, h5⟩ := hwf.2 r w hw
    refine ⟨h3, h4, h5, by rw [h2, length_Read_matrix], ?_⟩
    rcases Find_min_dist_spec w.loc_dist w.loc_known (n / p) with ⟨hf, _⟩ | ⟨j, hj, hf, _⟩
    · exact Or.inl hf
    · right
      rw [hf]
      exact ⟨Int.natCast_nonneg j, by exact_mod_cast hj⟩
  · rcases round_cases mat hp hpn k with ⟨hg, he⟩ | ⟨_, _, u, hc, hgv, _⟩
    · exact Or.inl ⟨hg, he⟩
    · right
      have hg2 : (glbl_min (n / p) (procs_after p n mat k)).2 = (u : Int) := by rw [hgv]
      rw [hg2]
      have hmod : Int.tmod (u : Int) ((n / p : Nat) : Int) = ((u % (n / p) : Nat) : Int) := by
        rw [Int.tmod_eq_emod (Int.natCast_nonneg u) (Int.natCast_nonneg _)]
        norm_cast
      rw [hmod]
      exact ⟨Int.natCast_nonneg u, by exact_mod_cast hc.1, Int.natCast_nonneg _,
        by exact_mod_cast Nat.mod_lt u hb,
        fun loc_v hv => loc_mat_index_exact n (n / p) u loc_v hc.1 hv hfit⟩

/-- Scenario A on two processes, first round. -/
theorem C15_index_safety_witness :
    Valid 2 4 scenarioA ∧ 4 * (4 / 2) ≤ 2147483647 ∧
    glbl_min (4 / 2) (procs_after 2 4 scenarioA 0) = (1, 1) ∧
    (1 ≤ 4 / 2 ∧ ((4 : Nat) : Int) ≤ 2147483647 ∧
    (∀ (r : Nat) (w : Proc), (procs_after 2 4 scenarioA 0)[r]? = some w →
      w.loc_dist.length = 4 / 2 ∧ w.loc_pred.length = 4 / 2 ∧ w.loc_known.length = 4 / 2 ∧
      w.loc_mat.length = 4 * (4 / 2) ∧
      (Find_min_dist w.loc_dist w.loc_known (4 / 2) = -1 ∨
        (0 ≤ Find_min_dist w.loc_dist w.loc_known (4 / 2) ∧
          Find_min_dist w.loc_dist w.loc_known (4 / 2) < ((4 / 2 : Nat) : Int)))) ∧
    (((glbl_min (4 / 2) (procs_after 2 4 scenarioA 0)).2 = -1 ∧
        procs_after 2 4 scenarioA (0 + 1) = procs_after 2 4 scenarioA 0) ∨
      (0 ≤ (glbl_min (4 / 2) (procs_after 2 4 scenarioA 0)).2 ∧
        (glbl_min (4 / 2) (procs_after 2 4 scenarioA 0)).2 < ((4 : Nat) : Int) ∧
        0 ≤ Int.tmod (glbl_min (4 / 2) (procs_after 2 4 scenarioA 0)).2 ((4 / 2 : Nat) : Int) ∧
        Int.tmod (glbl_min (4 / 2) (procs_after 2 4 scenarioA 0)).2 ((4 / 2 : Nat) : Int) <
          ((4 / 2 : Nat) : Int) ∧
        ∀ loc_v : Nat, loc_v < 4 / 2 →
          loc_mat_index (glbl_min (4 / 2) (procs_after 2 4 scenarioA 0)).2 (4 / 2) loc_v =
            (glbl_min (4 / 2) (procs_after 2 4 scenarioA 0)).2 * ((4 / 2 : Nat) : Int) +
              (loc_v : Int) ∧
          0 ≤ loc_mat_index (glbl_min (4 / 2) (procs_after 2 4 scenarioA 0)).2 (4 / 2) loc_v ∧
          loc_mat_index (glbl_min (4 / 2) (procs_after 2 4 scenarioA 0)).2 (4 / 2) loc_v <
            ((4 * (4 / 2) : Nat) : Int)))) :=
  ⟨by decide, by decide, by decide,
    C15_index_safety 2 4 scenarioA (by decide) (by decide) 0⟩

/-- C18, as stated, fails: on the valid input `farEdge 46341`, one process,
the first round agrees on `glbl_u = 46340`; local vertex 46339 is unknown, so
line 302 is executed for it, and its index expression
`glbl_u * loc_n + loc_v` overflows the 32-bit `int`: the value formed is not
the exact `46340 * 46341 + 46339`. -/
theorem C18_counterexample :
    Valid 1 46341 (farEdge 46341) ∧
    glbl_min (46341 / 1) (procs_after 1 46341 (farEdge 46341) 0) = (1, 46340) ∧
    (global_known (procs_after 1 46341 (farEdge 46341) 0)).getD 46339 0 = 0 ∧
    (46340 : Int) * ((46341 / 1 : Nat) : Int) + ((46339 : Nat) : Int) = 2147488279 ∧
    loc_mat_index 46340 (46341 / 1) 46339 ≠
      (46340 : Int) * ((46341 / 1 : Nat) : Int) + ((46339 : Nat) : Int) :=
  ⟨farEdge_valid 46341 (by decide), (farEdge_first_round 46341 (by decide)).1,
    (farEdge_first_round 46341 (by decide)).2 46339 (by decide) (by decide), by decide,
    by decide⟩

/-- C18 (amended): for every valid input whose block size `n * loc_n` fits a
32-bit `int` (at most 2147483647), in every round every `loc_dist` entry of
every process lies in `[0, INFINITY]`; the agreed `dist_glbl_u` of a winner
other than the sentinel lies in `[0, INFINITY)`; and for every local vertex
the index `glbl_u * loc_n + loc_v` formed in 32-bit `int` is the exact index,
the sum `dist_glbl_u + loc_mat[glbl_u * loc_n + loc_v]` lies in
`[0, 2000000)`, and line 302 evaluated wholly in 32-bit `int` yields that
exact sum, which is also the `new_dist` of the run. -/
theorem C18_no_overflow (p n : Nat) (mat : List Int) (h : Valid p n mat)
    (hfit : n * (n / p) ≤ 2147483647) (k : Nat) :
    (∀ (r : Nat) (w : Proc), (procs_after p n mat k)[r]? = some w → ∀ j < n / p,
      0 ≤ w.loc_dist.getD j 0 ∧ w.loc_dist.getD j 0 ≤ INFINITY) ∧
    ((glbl_min (n / p) (procs_after p n mat k)).2 ≠ -1 →
      0 ≤ (glbl_min (n / p) (procs_after p n mat k)).1 ∧
      (glbl_min (n / p) (procs_after p n mat k)).1 < INFINITY ∧
      ∀ (r : Nat) (w : Proc), (procs_after p n mat k)[r]? = some w → ∀ j < n / p,
        loc_mat_index (glbl_min (n / p) (procs_after p n mat k)).2 (n / p) j =
          (glbl_min (n / p) (procs_after p n mat k)).2 * ((n / p : Nat) : Int) + (j : Int) ∧
        0 ≤ (glbl_min (n / p) (procs_after p n mat k)).1 +
          w.loc_mat.getD
            (loc_mat_index (glbl_min (n / p) (procs_after p n mat k)).2 (n / p) j).toNat 0 ∧
        (glbl_min (n / p) (procs_after p n mat k)).1 +
          w.loc_mat.getD
            (loc_mat_index (glbl_min (n / p) (procs_after p n mat k)).2 (n / p) j).toNat 0 <
          2000000 ∧
        new_dist_int32 w.loc_mat (n / p) (glbl_min (n / p) (procs_after p n mat k)).1
            (glbl_min (n / p) (procs_after p n mat k)).2 j =
          (glbl_min (n / p) (procs_after p n mat k)).1 +
            w.loc_mat.getD
              (loc_mat_index (glbl_min (n / p) (procs_after p n mat k)).2 (n / p) j).toNat 0 ∧
        new_dist w.loc_mat (n / p) (glbl_min (n / p) (procs_after p n mat k)).1
            (glbl_min (n / p) (procs_after p n mat k)).2 j =
          new_dist_int32 w.loc_mat (n / p) (glbl_min (n / p) (procs_after p n mat k)).1
            (glbl_min (n / p) (procs_after p n mat k)).2 j) := by
  have hp := h.2.1
  have hpn := h.2.2.1
  have hwf := WF_after p n mat k
  have hinv := DistInv_after h k
  constructor
  · intro r w hw j hj
    have hv := block_index_lt hpn (getElem?_lt_of_WF hwf hw) hj
    rw [← (view_block hwf r w hw j hj).1]
    exact hinv.bounds _ hv
  · intro hg
    obtain ⟨u, hc, hgv, _⟩ := round_settles hwf hp hpn hg
    have hg1 : (glbl_min (n / p) (procs_after p n mat k)).1 =
        (view (procs_after p n mat k)).dist u := by rw [hgv]
    have hg2 : (glbl_min (n / p) (procs_after p n mat k)).2 = (u : Int) := by rw [hgv]
    have hu0 := (hinv.bounds u hc.1).1
    have hu1 := hc.2.2.1
    rw [hg1, hg2]
    refine ⟨hu0, hu1, fun r w hw j hj => ?_⟩
    have hv := block_index_lt hpn (getElem?_lt_of_WF hwf hw) hj
    have hwt := (Valid_weights h).1 u hc.1 _ hv
    have hidx := (loc_mat_index_exact n (n / p) u j hc.1 hj hfit).1
    unfold new_dist new_dist_int32
    rw [hidx, block_entry hwf hw hc.1 hj]
    rw [INFINITY_val] at hu1 hwt
    exact ⟨rfl, by omega, by omega, wrap32_eq _ (by omega) (by omega), rfl⟩

/-- Scenario A on two processes, first round. -/
theorem C18_no_overflow_witness :
    Valid 2 4 scenarioA ∧ 4 * (4 / 2) ≤ 2147483647 ∧
    glbl_min (4 / 2) (procs_after 2 4 scenarioA 0) = (1, 1) ∧
    ((∀ (r : Nat) (w : Proc), (procs_after 2 4 scenarioA 0)[r]? = some w →
      ∀ j : Nat, j < 4 / 2 →
      0 ≤ w.loc_dist.getD j 0 ∧ w.loc_dist.getD j 0 ≤ INFINITY) ∧
    ((glbl_min (4 / 2) (procs_after 2 4 scenarioA 0)).2 ≠ -1 →
      0 ≤ (glbl_min (4 / 2) (procs_after 2 4 scenarioA 0)).1 ∧
      (glbl_min (4 / 2) (procs_after 2 4 scenarioA 0)).1 < INFINITY ∧
      ∀ (r : Nat) (w : Proc), (procs_after 2 4 scenarioA 0)[r]? = some w →
        ∀ j : Nat, j < 4 / 2 →
        loc_mat_index (glbl_min (4 / 2) (procs_after 2 4 scenarioA 0)).2 (4 / 2) j =
          (glbl_min (4 / 2) (procs_after 2 4 scenarioA 0)).2 * ((4 / 2 : Nat) : Int) +
            (j : Int) ∧
        0 ≤ (glbl_min (4 / 2) (procs_after 2 4 scenarioA 0)).1 +
          w.loc_mat.getD
            (loc_mat_index (glbl_min (4 / 2) (procs_after 2 4 scenarioA 0)).2 (4 / 2) j).toNat
            0 ∧
        (glbl_min (4 / 2) (procs_after 2 4 scenarioA 0)).1 +
          w.loc_mat.getD
            (loc_mat_index (glbl_min (4 / 2) (procs_after 2 4 scenarioA 0)).2 (4 / 2) j).toNat
            0 < 2000000 ∧
        new_dist_int32 w.loc_mat (4 / 2) (glbl_min (4 / 2) (procs_after 2 4 scenarioA 0)).1
            (glbl_min (4 / 2) (procs_after 2 4 scenarioA 0)).2 j =
          (glbl_min (4 / 2) (procs_after 2 4 scenarioA 0)).1 +
            w.loc_mat.getD
              (loc_mat_index (glbl_min (4 / 2) (procs_after 2 4 scenarioA 0)).2 (4 / 2)
                j).toNat 0 ∧
        new_dist w.loc_mat (4 / 2) (glbl_min (4 / 2) (procs_after 2 4 scenarioA 0)).1
            (glbl_min (4 / 2) (procs_after 2 4 scenarioA 0)).2 j =
          new_dist_int32 w.loc_mat (4 / 2) (glbl_min (4 / 2) (procs_after 2 4 scenarioA 0)).1
            (glbl_min (4 / 2) (procs_after 2 4 scenarioA 0)).2 j)) :=
  ⟨by decide, by decide, by decide,
    C18_no_overflow 2 4 scenarioA (by decide) (by decide) 0⟩


end MpiDijkstra
